import Mathlib

/-!
Minacalc: a shallow embedding of the difficulty calculator

The definitions below follow `src/minacalc.cpp` function by function and keep its names.

Conventions of the embedding.
* C++ `float` values are elements of an arbitrary linearly ordered field `F` with a floor
  function, so arithmetic is exact.  The three transcendental functions the program calls
  (`sqrt`, `pow`, `erfc`) are passed in as a record `MathFns F`; theorems that depend on their
  values state what they need from them as hypotheses.
* `std::vector` is `List`; `int` and `unsigned int` counters are unbounded `Nat`/`Int`.
* A function that can leave the defined behaviour of the program (an index outside a vector,
  `back()` of an empty vector, a negative vector length) or whose loop needs more than the
  supplied fuel returns `none`.
* Member functions of `Calc` receive the members they read as arguments and return the members
  they write.
* A field has no NaN and no infinity: `x / 0` is `0` in `F`, while the program's `float`
  division by zero gives NaN or an infinity.  The embedding agrees with the program where no
  divisor is zero; the tap count by which `chord_proportion` divides and `MaxPoints` are zero
  on a chart without taps.
-/

namespace Minacalc

set_option linter.unusedSectionVars false

variable {F : Type} [LinearOrderedField F]

/-! ## Data model -/

/-- Modelled from the spec: the row record of `NoteDataStructures.h`, which is not part of the
sources: a column mask `notes` and a timestamp `rowTime` in seconds. -/
structure NoteInfo (F : Type) where
  notes : Nat
  rowTime : F
deriving DecidableEq

/-- Modelled from the spec: the rating record of `NoteDataStructures.h`, which is not part of the
sources: eight fields in the order used by the brace initialisers of `minacalc.cpp`. -/
structure DifficultyRating (F : Type) where
  overall : F
  stream : F
  jumpstream : F
  handstream : F
  stamina : F
  jack : F
  chordjack : F
  technical : F
deriving DecidableEq

/-- The transcendental functions of `<cmath>` used by the calculator. -/
structure MathFns (F : Type) where
  sqrt : F → F
  pow : F → F → F
  erfc : F → F

/-- Modelled from the spec: the flag set `ChiselFlags` that `minacalc.cpp` tests with
`flags & CHISEL_X` and builds with `|`; its declaration is not part of the sources.  Each field
is one of the five single-bit constants. -/
structure ChiselFlags where
  nps : Bool
  js : Bool
  hs : Bool
  jack : Bool
  stam : Bool
deriving DecidableEq

def CHISEL_NONE : ChiselFlags := ⟨false, false, false, false, false⟩
def CHISEL_NPS : ChiselFlags := ⟨true, false, false, false, false⟩
def CHISEL_JS : ChiselFlags := ⟨false, true, false, false, false⟩
def CHISEL_HS : ChiselFlags := ⟨false, false, true, false, false⟩
def CHISEL_JACK : ChiselFlags := ⟨false, false, false, true, false⟩
def CHISEL_STAM : ChiselFlags := ⟨false, false, false, false, true⟩

/-- Bitwise or of two flag sets. -/
def ChiselFlags.or (a b : ChiselFlags) : ChiselFlags :=
  ⟨a.nps || b.nps, a.js || b.js, a.hs || b.hs, a.jack || b.jack, a.stam || b.stam⟩

abbrev Finger (F : Type) := List (List F)
abbrev JackSeq (F : Type) := List F

/-- The members of `class Hand` that the program uses. -/
structure Hand (F : Type) where
  ohjumpscale : List F
  rollscale : List F
  hsscale : List F
  jumpscale : List F
  anchorscale : List F
  v_itvpoints : List Int
  v_itvNPSdiff : List F
  v_itvMSdiff : List F

/-- The members of `class Calc`. -/
structure Calc (F : Type) where
  numitv : Int
  MaxPoints : F
  left_hand : Hand F
  right_hand : Hand F
  fingerbias : F
  nervIntervals : List (List Nat)
  j0 : JackSeq F
  j1 : JackSeq F
  j2 : JackSeq F
  j3 : JackSeq F

/-- A value-initialised `Hand`: empty vectors. -/
def Hand.fresh : Hand F := ⟨[], [], [], [], [], [], [], []⟩

/-- The object made by `std::make_unique<Calc>()`: value-initialisation zeroes the scalar
members, `MaxPoints` has the initialiser `0.f`, and the vectors are empty. -/
def Calc.fresh : Calc F := ⟨0, 0, Hand.fresh, Hand.fresh, 0, [], [], [], [], []⟩

/-- The all-zero rating `DifficultyRating {0,0,0,0,0,0,0,0}`. -/
def DifficultyRating.zero : DifficultyRating F := ⟨0, 0, 0, 0, 0, 0, 0, 0⟩

/-! ## Constants -/

/-- The source's `Calc::IntervalSpan`. -/
def IntervalSpan : F := 0.5

/-- The source's `Hand::basescaler`. -/
def basescaler : F := 2.564 * 1.05 * 1.1 * 1.10 * 1.10 * 1.025

/-- The source's `Hand::ceil`, the stamina multiplier maximum. -/
def stamCeil : F := 1.08

/-- The source's `Hand::mag`. -/
def stamMag : F := 355

/-- The source's `Hand::fscale`. -/
def stamFscale : F := 2000

/-- The source's `Hand::prop`. -/
def stamProp : F := 0.75

/-! ## Scalar helpers -/

/-- The source's `CalcClamp`. -/
def CalcClamp {α : Type} [LinearOrder α] (x l h : α) : α :=
  if x > h then h else if x < l then l else x

/-- Conversion of a `float` to `int`: truncation toward zero. -/
def truncToInt [FloorRing F] (x : F) : Int := if 0 ≤ x then ⌊x⌋ else ⌈x⌉

/-- The result of the inner `while` loop of `approximate`: it ran to a false predicate, or it
hit the `return value` of the 100 limit. -/
inductive LoopExit (F : Type) where
  | fell (value : F)
  | returned (value : F)

/-- The inner `while (is_too_low(value))` loop of `approximate`, with `fuel` bounding the number
of predicate evaluations. -/
def approximateWhile (is_too_low : F → Bool) (limit_at_100 : Bool) (resolution : F) :
    Nat → F → Option (LoopExit F)
  | 0, _ => none
  | fuel + 1, value =>
    if is_too_low value then
      if limit_at_100 && decide (value > 100) then some (LoopExit.returned value)
      else approximateWhile is_too_low limit_at_100 resolution fuel (value + resolution)
    else some (LoopExit.fell value)

/-- The source's `approximate`: `num_iters` rounds of the inner loop, each with its own `fuel`. -/
def approximate (fuel : Nat) (value resolution : F) (num_iters : Nat) (is_too_low : F → Bool)
    (limit_at_100 : Bool) : Option F :=
  match num_iters with
  | 0 => some (value + 2 * resolution)
  | n + 1 =>
    match approximateWhile is_too_low limit_at_100 resolution fuel value with
    | none => none
    | some (LoopExit.returned v) => some v
    | some (LoopExit.fell v) =>
      approximate fuel (v - resolution) (resolution / 2) n is_too_low limit_at_100

/-- The source's `mean`. -/
def mean (v : List F) : F := v.sum / (v.length : F)

/-- The source's `cv`, the coefficient of variation. -/
def cv (M : MathFns F) (input : List F) : F :=
  let average := mean input
  let sd := (input.map (fun i => (i - average) * (i - average))).sum
  M.sqrt (sd / (input.length : F)) / average

/-- The source's `downscale_low_accuracy_scores`. -/
def downscale_low_accuracy_scores (M : MathFns F) (f sg : F) : F :=
  if sg ≥ 0.93 then f else CalcClamp (f - M.sqrt (0.93 - sg)) 0 100

/-- The loop of `Smooth`, with the two remembered values `f2`, `f3`. -/
def SmoothLoop : F → F → List F → List F
  | _, _, [] => []
  | f2, f3, i :: rest => (f2 + f3 + i) / 3 :: SmoothLoop f3 i rest

/-- The source's `Smooth`: moving average with n=3. -/
def Smooth (input : List F) (neutral : F) : List F := SmoothLoop neutral neutral input

/-- The loop of `DifficultyMSSmooth`. -/
def DifficultyMSSmoothLoop : F → List F → List F
  | _, [] => []
  | f2, i :: rest => (f2 + i) / 2 :: DifficultyMSSmoothLoop i rest

/-- The source's `DifficultyMSSmooth`: moving average with n=2 and neutral value zero. -/
def DifficultyMSSmooth (input : List F) : List F := DifficultyMSSmoothLoop 0 input

/-- The source's `AggregateScores`. -/
def AggregateScores (M : MathFns F) (fuel : Nat) (skillsets : List F) (rating resolution : F) :
    Option F :=
  let check_if_too_low : F → Bool := fun rating =>
    decide (3 < (skillsets.map (fun i => 2 / M.erfc (0.5 * (i - rating)) - 1)).sum)
  approximate fuel rating resolution 11 check_if_too_low false

/-- The source's `column_count`: number of taps in a row mask. -/
def column_count (note : Nat) : Nat := note % 2 + note / 2 % 2 + note / 4 % 2 + note / 8 % 2

/-- The two counters of `chord_proportion` after its loop: `(taps, chords)`. -/
def chord_counts (note_info : List (NoteInfo F)) (chord_size : Nat) : Nat × Nat :=
  note_info.foldl (fun acc row =>
    let notes := column_count row.notes
    (acc.1 + notes, if notes = chord_size then acc.2 + notes else acc.2)) (0, 0)

/-- The source's `chord_proportion`. -/
def chord_proportion (note_info : List (NoteInfo F)) (chord_size : Nat) : F :=
  let c := chord_counts note_info chord_size
  (c.2 : F) / (c.1 : F)

/-- The source's `skillset_vector`. -/
def skillset_vector (d : DifficultyRating F) : List F :=
  [d.overall, d.stream, d.jumpstream, d.handstream, d.stamina, d.jack, d.chordjack, d.technical]

/-- The source's `highest_difficulty`: the maximum of the seven category fields. -/
def highest_difficulty (d : DifficultyRating F) : F :=
  [d.jumpstream, d.handstream, d.stamina, d.jack, d.chordjack, d.technical].foldl max d.stream

/-! ## Vectors -/

/-- The constructor `vector<T>(n, vector<U>())` for an `int` n: a negative length does not
construct. -/
def makeRows {α : Type} : Int → Option (List (List α))
  | Int.ofNat n => some (List.replicate n [])
  | Int.negSucc _ => none

/-- The statement `v[idx].emplace_back(x)` for an `int` index: an index outside `v` leaves defined
behaviour. -/
def pushAt {α : Type} (v : List (List α)) (idx : Int) (x : α) : Option (List (List α)) :=
  match idx with
  | Int.ofNat n => if h : n < v.length then some (v.set n (v[n] ++ [x])) else none
  | Int.negSucc _ => none

/-- The pairs `(f1[i], f2[i])` read by a loop `for (i = 0; i < f1.size(); i++)`: `f2[i]` must
exist for each of them. -/
def zipRows {α β : Type} : List α → List β → Option (List (α × β))
  | [], _ => some []
  | _ :: _, [] => none
  | a :: as, b :: bs => (zipRows as bs).map (fun r => (a, b) :: r)

/-- The rows `NoteInfo[row]` for the row indices of one interval. -/
def lookupRows (note_info : List (NoteInfo F)) (interval : List Nat) : Option (List (NoteInfo F)) :=
  interval.mapM (fun row => note_info[row]?)

/-- A read `v[i]` inside a loop whose bound is the length of a series of the same hand. -/
def rd (v : List F) (i : Nat) : F := v.getD i 0

/-! ## Jack model -/

/-- The loop variables of `JackLoss`. -/
structure JackState (F : Type) where
  output : F
  ceiling : F
  mod : F

/-- One iteration of the loop of `JackLoss`. -/
def JackLossStep (M : MathFns F) (skill : F) (s : JackState F) (jd : F) : JackState F :=
  let mod1 := s.mod + ((jd / (0.75 * skill)) - 1) / 250
  let ceiling1 := if mod1 > 1 then s.ceiling + (mod1 - 1) / 1750 else s.ceiling
  let mod2 := CalcClamp mod1 1 (1.15 * M.sqrt ceiling1)
  let jd1 := jd * mod2
  let output1 := if skill < jd1 then s.output + (1 - M.pow (skill / (jd1 * 0.96)) 1.5)
    else s.output
  ⟨output1, ceiling1, mod2⟩

/-- The source's `Calc::JackLoss`. -/
def JackLoss (M : MathFns F) (j : List F) (skill : F) : F :=
  CalcClamp (7 * (j.foldl (JackLossStep M skill) ⟨0, 1, 1⟩).output) 0 10000

/-- The loop of `Calc::SequenceJack`, with `last`, `interval2`, `interval3`. -/
def SequenceJackLoop (t : Nat) (music_rate : F) : F → F → F → List (NoteInfo F) → List F
  | _, _, _, [] => []
  | last, interval2, interval3, row :: rest =>
    if row.notes &&& (1 <<< t) ≠ 0 then
      let scaledtime := row.rowTime / music_rate
      let i1 := interval2
      let i2 := interval3
      let i3 := 1000 * (scaledtime - last)
      let interval_avg := min ((i1 + i2 + i3) / 3) (i3 * 1.4)
      let local_nps := 1000 / interval_avg
      let jack_difficulty := min (2.8 * local_nps) 50
      jack_difficulty :: SequenceJackLoop t music_rate scaledtime i2 i3 rest
    else SequenceJackLoop t music_rate last interval2 interval3 rest

/-- The source's `Calc::SequenceJack`. -/
def SequenceJack (note_info : List (NoteInfo F)) (t : Nat) (music_rate : F) : JackSeq F :=
  SequenceJackLoop t music_rate (-5) 0 0 note_info

/-! ## Interval builder -/

/-- The loop of `Calc::ProcessFinger`: `i` is the row index, `last` the previous tap time of
the column, `all` the gap lists and `nerv` the member `nervIntervals`. -/
def ProcessFingerLoop [FloorRing F] (t : Nat) (music_rate : F) :
    List (NoteInfo F) → Nat → F → Finger F → List (List Nat) →
      Option (Finger F × List (List Nat))
  | [], _, _, all, nerv => some (all, nerv)
  | row :: rest, i, last, all, nerv =>
    let scaledtime := row.rowTime / music_rate
    let interval_i := truncToInt (scaledtime / IntervalSpan)
    let tapped : Option (Finger F × F) :=
      if row.notes &&& (1 <<< t) ≠ 0 then
        (pushAt all interval_i (CalcClamp (1000 * (scaledtime - last)) 40 5000)).map
          (fun a => (a, scaledtime))
      else some (all, last)
    match tapped with
    | none => none
    | some (all1, last1) =>
      let noted : Option (List (List Nat)) :=
        if t = 0 ∧ row.notes ≠ 0 then pushAt nerv interval_i i else some nerv
      match noted with
      | none => none
      | some nerv1 => ProcessFingerLoop t music_rate rest (i + 1) last1 all1 nerv1

/-- The source's `Calc::ProcessFinger`: returns the gap lists and the updated `nervIntervals`. -/
def ProcessFinger [FloorRing F] (numitv : Int) (nerv : List (List Nat)) (note_info : List (NoteInfo F))
    (t : Nat) (music_rate : F) : Option (Finger F × List (List Nat)) :=
  match makeRows numitv with
  | none => none
  | some all_intervals => ProcessFingerLoop t music_rate note_info 0 (-5) all_intervals nerv

/-! ## Hand -/

/-- The source's `Hand::CalcMSEstimate`: the estimate and the gap list as the call leaves it. -/
def CalcMSEstimate (input : List F) : F × List F :=
  match input with
  | [] => (0, [])
  | _ :: _ =>
    let sorted := input.insertionSort (fun a b => a ≤ b)
    let inflated := match sorted with
      | [] => []
      | a :: r => (a * 1.066) :: r
    let length := min inflated.length 6
    let avg_interval_ms := (inflated.take length).sum / ((length : Nat) : F)
    (1375 / avg_interval_ms, inflated)

/-- One iteration of the loop of `Hand::InitDiff`: the two difficulty values of the interval
and the two gap lists as `CalcMSEstimate` leaves them. -/
def InitDiffRow (r : List F × List F) : (F × F) × (List F × List F) :=
  let nps_diff : F := 1.6 * ((r.1.length + r.2.length : Nat) : F)
  let left := CalcMSEstimate r.1
  let right := CalcMSEstimate r.2
  let ms_diff := max left.1 right.1
  ((basescaler * nps_diff, basescaler * (5 * ms_diff + 4 * nps_diff) / 9), (left.2, right.2))

/-- The source's `Hand::SmoothDifficulty`. -/
def SmoothDifficulty : Bool := true

/-- The source's `Hand::InitDiff`: the hand with its two difficulty series, and both fingers as the
call
leaves them. -/
def InitDiff (hand : Hand F) (f1 f2 : Finger F) : Option (Hand F × Finger F × Finger F) :=
  match zipRows f1 f2 with
  | none => none
  | some rows =>
    let out := rows.map InitDiffRow
    let nps := Smooth (out.map (fun o => o.1.1)) 0
    let ms0 := out.map (fun o => o.1.2)
    let ms := if SmoothDifficulty then DifficultyMSSmooth ms0 else ms0
    some ({ hand with v_itvNPSdiff := nps, v_itvMSdiff := ms },
      out.map (fun o => o.2.1), out.map (fun o => o.2.2) ++ f2.drop f1.length)

/-- The source's `Hand::InitPoints`. -/
def InitPoints (hand : Hand F) (f1 f2 : Finger F) : Option (Hand F) :=
  match zipRows f1 f2 with
  | none => none
  | some rows =>
    some { hand with
      v_itvpoints := hand.v_itvpoints ++
        rows.map (fun r => (r.1.length : Int) + (r.2.length : Int)) }

/-- The loop variables of `Hand::StamAdjust`. -/
structure StamState (F : Type) where
  floor : F
  mod : F
  last_diff : F

/-- One iteration of the loop of `Hand::StamAdjust` on the interval difficulty `i`. -/
def StamStep (x : F) (s : StamState F) (i : F) : StamState F :=
  let diff_avg := (s.last_diff + i) / 2
  let tax := diff_avg / (stamProp * x)
  let mod1 := s.mod + (tax - 1) / stamMag
  let floor1 := if mod1 > 1 then s.floor + (mod1 - 1) / stamFscale else s.floor
  ⟨floor1, CalcClamp mod1 floor1 stamCeil, i⟩

/-- The loop of `Hand::StamAdjust`. -/
def StamAdjustLoop (x : F) : StamState F → List F → List F
  | _, [] => []
  | s, i :: rest => i * (StamStep x s i).mod :: StamAdjustLoop x (StamStep x s i) rest

/-- The source's `Hand::StamAdjust`. -/
def StamAdjust (x : F) (diff : List F) : List F := StamAdjustLoop x ⟨1, 1, 0⟩ diff

/-- The first loop of `Hand::CalcInternal`: the pattern multipliers applied to `diff[i]`. -/
def scaledDiff (M : MathFns F) (h : Hand F) (flags : ChiselFlags) (diff : List F) (i : Nat) : F :=
  let d := rd diff i * (rd h.anchorscale i * rd h.rollscale i)
  if flags.hs then
    d * (M.sqrt (rd h.ohjumpscale i) * rd h.jumpscale i)
  else if flags.js then
    d * (rd h.hsscale i * rd h.hsscale i * M.sqrt (rd h.ohjumpscale i) * rd h.jumpscale i)
  else if flags.nps then
    d * (rd h.hsscale i * rd h.hsscale i * rd h.hsscale i * rd h.ohjumpscale i
      * rd h.ohjumpscale i * rd h.jumpscale i * rd h.jumpscale i)
  else
    d * M.sqrt (rd h.ohjumpscale i)

/-- The points of interval `i` in the second loop of `Hand::CalcInternal`. -/
def intervalPoints (M : MathFns F) (h : Hand F) (player_skill : F) (diff : List F) (i : Nat) : F :=
  let achievable_points : F := ((h.v_itvpoints.getD i 0 : Int) : F)
  if player_skill ≤ rd diff i then
    achievable_points * M.pow (player_skill / rd diff i) 1.8
  else achievable_points

/-- The source's `Hand::CalcInternal`. -/
def CalcInternal (M : MathFns F) (h : Hand F) (player_skill : F) (flags : ChiselFlags) : F :=
  let diff0 := if flags.nps then h.v_itvNPSdiff else h.v_itvMSdiff
  let diff1 := (List.range diff0.length).map (scaledDiff M h flags diff0)
  let diff2 := if flags.stam then StamAdjust player_skill diff1 else diff1
  ((List.range diff2.length).map (intervalPoints M h player_skill diff2)).sum

/-! ## Pattern downscalers -/

/-- The source's `Calc::SmoothPatterns`. -/
def SmoothPatterns : Bool := true

/-- The value a downscaler returns for the series `output` it has filled. -/
def finishPattern (output : List F) : List F := if SmoothPatterns then Smooth output 1 else output

/-- Whether `notes & mask` is non-zero. -/
def hasNote (notes mask : Nat) : Bool := notes &&& mask != 0

/-- The counters `(taps, jumps)` of `OHJumpDownscaler` after the rows of one interval. -/
def ohjumpCounts (firstNote secondNote : Nat) (rows : List (NoteInfo F)) : Nat × Nat :=
  rows.foldl (fun acc row =>
    let columns := (if hasNote row.notes firstNote then 1 else 0)
      + (if hasNote row.notes secondNote then 1 else 0)
    if columns = 2 then (acc.1 + 2 + columns, acc.2 + 1) else (acc.1 + columns, acc.2)) (0, 0)

/-- The value `OHJumpDownscaler` pushes for one interval. -/
def OHJumpRaw (M : MathFns F) (firstNote secondNote : Nat) (rows : List (NoteInfo F)) : F :=
  let c := ohjumpCounts firstNote secondNote rows
  if c.1 = 0 then 1 else M.pow (1 - (1.6 * ((c.2 : F) / (c.1 : F)))) 0.25

/-- The source's `Calc::OHJumpDownscaler`. -/
def OHJumpDownscaler (M : MathFns F) (note_info : List (NoteInfo F)) (nerv : List (List Nat))
    (firstNote secondNote : Nat) : Option (List F) :=
  (nerv.mapM (fun interval =>
    (lookupRows note_info interval).map (OHJumpRaw M firstNote secondNote))).map finishPattern

/-- The counters `(lcol, rcol)` of `Anchorscaler` after the rows of one interval. -/
def anchorCounts (firstNote secondNote : Nat) (rows : List (NoteInfo F)) : Nat × Nat :=
  rows.foldl (fun acc row =>
    (if hasNote row.notes firstNote then acc.1 + 1 else acc.1,
     if hasNote row.notes secondNote then acc.2 + 1 else acc.2)) (0, 0)

/-- The value `Anchorscaler` stores in `output[i]` for one interval. -/
def AnchorRaw (M : MathFns F) (firstNote secondNote : Nat) (rows : List (NoteInfo F)) : F :=
  let c := anchorCounts firstNote secondNote rows
  let smaller_col : F := ((min c.1 c.2 : Nat) : F)
  let larger_col : F := ((max c.1 c.2 : Nat) : F)
  if c.1 = 0 ∨ c.2 = 0 then 1
  else CalcClamp (M.sqrt (1 - (smaller_col / larger_col / 4.45))) 0.8 1.05

/-- The amount `Anchorscaler` adds to `fingerbias` for one interval. -/
def anchorBias (firstNote secondNote : Nat) (rows : List (NoteInfo F)) : F :=
  let c := anchorCounts firstNote secondNote rows
  (((max c.1 c.2 : Nat) : F) + 2) / (((min c.1 c.2 : Nat) : F) + 1)

/-- The source's `Calc::Anchorscaler`: the returned series and the member `fingerbias` after the
call. -/
def Anchorscaler (M : MathFns F) (note_info : List (NoteInfo F)) (nerv : List (List Nat))
    (fingerbias : F) (firstNote secondNote : Nat) : Option (List F × F) :=
  (nerv.mapM (lookupRows note_info)).map (fun intervals =>
    (finishPattern (intervals.map (AnchorRaw M firstNote secondNote)),
     intervals.foldl (fun fb rows => fb + anchorBias firstNote secondNote rows) fingerbias))

/-- The counters `(taps, chords)` of `HSDownscaler` (`size = 3`) and `JumpDownscaler`
(`size = 2`) after the rows of one interval. -/
def chordCounts (size : Nat) (rows : List (NoteInfo F)) : Nat × Nat :=
  rows.foldl (fun acc row =>
    let notes := column_count row.notes
    (acc.1 + notes, if notes = size then acc.2 + 1 else acc.2)) (0, 0)

/-- The value `HSDownscaler` stores in `output[i]` for one interval. -/
def HSRaw (M : MathFns F) (rows : List (NoteInfo F)) : F :=
  let c := chordCounts 3 rows
  if c.1 = 0 then 1 else M.sqrt (M.sqrt (1 - (c.2 : F) / (c.1 : F)))

/-- The source's `Calc::HSDownscaler`. -/
def HSDownscaler (M : MathFns F) (note_info : List (NoteInfo F)) (nerv : List (List Nat)) :
    Option (List F) :=
  (nerv.mapM (fun interval => (lookupRows note_info interval).map (HSRaw M))).map finishPattern

/-- The value `JumpDownscaler` stores in `output[i]` for one interval. -/
def JumpRaw (M : MathFns F) (rows : List (NoteInfo F)) : F :=
  let c := chordCounts 2 rows
  if c.1 = 0 then 1 else M.sqrt (M.sqrt (1 - (c.2 : F) / (c.1 : F) / 3))

/-- The source's `Calc::JumpDownscaler`. -/
def JumpDownscaler (M : MathFns F) (note_info : List (NoteInfo F)) (nerv : List (List Nat)) :
    Option (List F) :=
  (nerv.mapM (fun interval => (lookupRows note_info interval).map (JumpRaw M))).map finishPattern

/-- The gaps of one interval after `RollDownscaler` has rewritten them against their mean. -/
def rollGaps (hand_intervals : List F) : List F :=
  let interval_mean := mean hand_intervals
  hand_intervals.map (fun note => if interval_mean / note < 0.6 then interval_mean else note)

/-- The value `RollDownscaler` stores in `output[i]` for the gap lists of one interval. -/
def RollRaw (M : MathFns F) (r : List F × List F) : F :=
  if r.1.length + r.2.length ≤ 1 then 1
  else
    let interval_cv := cv M (rollGaps (r.1 ++ r.2)) + 0.85
    if interval_cv ≥ 1 then min (M.sqrt (M.sqrt interval_cv)) 1.075
    else interval_cv * interval_cv * interval_cv

/-- The source's `Calc::RollDownscaler`. -/
def RollDownscaler (M : MathFns F) (f1 f2 : Finger F) : Option (List F) :=
  (zipRows f1 f2).map (fun rows => finishPattern (rows.map (RollRaw M)))

/-! ## Calc -/

/-- The source's `Calc::InitHand`: the initialised hand and the `Calc` members after the call. -/
def InitHand [FloorRing F] (M : MathFns F) (c : Calc F) (hand : Hand F) (note_info : List (NoteInfo F))
    (f1 f2 : Nat) (music_rate : F) : Option (Hand F × Calc F) := do
  let p1 ← ProcessFinger c.numitv c.nervIntervals note_info f1 music_rate
  let p2 ← ProcessFinger c.numitv p1.2 note_info f2 music_rate
  let d ← InitDiff hand p1.1 p2.1
  let finger1 := d.2.1
  let finger2 := d.2.2
  let hand1 ← InitPoints d.1 finger1 finger2
  let oh ← OHJumpDownscaler M note_info p2.2 (1 <<< f1) (1 <<< f2)
  let an ← Anchorscaler M note_info p2.2 c.fingerbias (1 <<< f1) (1 <<< f2)
  let ro ← RollDownscaler M finger1 finger2
  let hs ← HSDownscaler M note_info p2.2
  let ju ← JumpDownscaler M note_info p2.2
  pure ({ hand1 with
          ohjumpscale := oh, anchorscale := an.1, rollscale := ro, hsscale := hs,
          jumpscale := ju },
        { c with nervIntervals := p2.2, fingerbias := an.2 })

/-- The source's `Calc::Init`. -/
def Init [FloorRing F] (M : MathFns F) (c : Calc F) (note_info : List (NoteInfo F)) (music_rate : F) :
    Option (Calc F) := do
  let back ← note_info.getLast?
  let numitv : Int := ⌈back.rowTime / (music_rate * IntervalSpan)⌉
  let nerv ← makeRows numitv
  let c1 : Calc F := { c with numitv := numitv, nervIntervals := nerv }
  let l ← InitHand M c1 c1.left_hand note_info 0 1 music_rate
  let c2 : Calc F := { l.2 with left_hand := l.1 }
  let r ← InitHand M c2 c2.right_hand note_info 2 3 music_rate
  let c3 : Calc F := { r.2 with right_hand := r.1 }
  let pts ← zipRows c3.left_hand.v_itvpoints c3.right_hand.v_itvpoints
  pure { c3 with
    j0 := SequenceJack note_info 0 music_rate
    j1 := SequenceJack note_info 1 music_rate
    j2 := SequenceJack note_info 2 music_rate
    j3 := SequenceJack note_info 3 music_rate
    MaxPoints := pts.foldl (fun acc p => acc + ((p.1 + p.2 : Int) : F)) 0
    fingerbias := c3.fingerbias / ((2 * c3.nervIntervals.length : Nat) : F) }

/-- The source's `Calc::CalcScoreForPlayerSkill`. -/
def CalcScoreForPlayerSkill (M : MathFns F) (c : Calc F) (player_skill : F)
    (flags : ChiselFlags) : F :=
  let achieved_points :=
    if flags.jack then
      c.MaxPoints - JackLoss M c.j0 player_skill - JackLoss M c.j1 player_skill
        - JackLoss M c.j2 player_skill - JackLoss M c.j3 player_skill
    else
      CalcInternal M c.left_hand player_skill flags
        + CalcInternal M c.right_hand player_skill flags
  achieved_points / c.MaxPoints

/-- The source's `Calc::Chisel`. -/
def Chisel (M : MathFns F) (fuel : Nat) (c : Calc F) (player_skill resolution score_goal : F)
    (flags : ChiselFlags) : Option F :=
  approximate fuel player_skill resolution 7
    (fun player_skill => decide (CalcScoreForPlayerSkill M c player_skill flags < score_goal))
    true

/-- The chord statistics and chart-length multipliers that `CalcMain` computes before it
solves for the skills. -/
structure Scalers (F : Type) where
  grindscaler : F
  shortstamdownscaler : F
  jprop : F
  nojumpsdownscaler : F
  manyjumpsdownscaler : F
  hprop : F
  nohandsdownscaler : F
  allhandsdownscaler : F
  qprop : F
  lotquaddownscaler : F
  jumpthrill : F

/-- Lines 178 to 207 of `CalcMain`. -/
def calcScalers (note_info : List (NoteInfo F)) (last_row_time : F) : Scalers F :=
  let grindscaler0 : F := 0.93 + 0.07 * CalcClamp (last_row_time / 30 - 1) 0 1
  let grindscaler := grindscaler0 * CalcClamp (0.873 + (0.13 * (last_row_time / 15 - 1))) 0.87 1
  let shortstamdownscaler := CalcClamp (0.9 + (0.1 * (last_row_time - 150) / 150)) 0.9 1
  let jprop : F := chord_proportion note_info 2
  let nojumpsdownscaler := CalcClamp (0.8 + (0.2 * (jprop + 0.5))) 0.8 1
  let manyjumpsdownscaler := CalcClamp (1.43 - jprop) 0.85 1
  let hprop : F := chord_proportion note_info 3
  let nohandsdownscaler := CalcClamp (0.8 + (0.2 * (hprop + 0.75))) 0.8 1
  let allhandsdownscaler := CalcClamp (1.23 - hprop) 0.85 1
  let qprop : F := chord_proportion note_info 4
  let lotquaddownscaler := CalcClamp (1.13 - qprop) 0.85 1
  let jumpthrill := CalcClamp (1.625 - jprop - hprop) 0.85 1
  ⟨grindscaler, shortstamdownscaler, jprop, nojumpsdownscaler, manyjumpsdownscaler, hprop,
    nohandsdownscaler, allhandsdownscaler, qprop, lotquaddownscaler, jumpthrill⟩

/-- The skill values `CalcMain` holds after line 234. -/
structure Solved (F : Type) where
  stream : F
  js : F
  hs : F
  stam : F
  tech : F
  jack : F
  chordjack : F

/-- Lines 209 to 234 of `CalcMain`: the five solves, the technical rescale, the stamina solve
and the fixed multipliers. -/
def solveSkills (M : MathFns F) (fuel : Nat) (c : Calc F) (score_goal : F) :
    Option (Solved F) := do
  let stream ← Chisel M fuel c 0.1 10.24 score_goal CHISEL_NPS
  let js ← Chisel M fuel c 0.1 10.24 score_goal (CHISEL_NPS.or CHISEL_JS)
  let hs ← Chisel M fuel c 0.1 10.24 score_goal (CHISEL_NPS.or CHISEL_HS)
  let tech0 ← Chisel M fuel c 0.1 10.24 score_goal CHISEL_NONE
  let jack ← Chisel M fuel c 0.1 10.24 score_goal (CHISEL_NPS.or CHISEL_JACK)
  let techbase := max stream jack
  let tech := tech0 * CalcClamp (tech0 / techbase) 0.85 1
  let stam ←
    if stream > tech ∨ js > tech ∨ hs > tech then
      if stream > js ∧ stream > hs then
        Chisel M fuel c (stream - 0.1) 2.56 score_goal (CHISEL_STAM.or CHISEL_NPS)
      else if js > hs then
        Chisel M fuel c (js - 0.1) 2.56 score_goal ((CHISEL_STAM.or CHISEL_NPS).or CHISEL_JS)
      else
        Chisel M fuel c (hs - 0.1) 2.56 score_goal ((CHISEL_STAM.or CHISEL_NPS).or CHISEL_HS)
    else
      Chisel M fuel c (tech - 0.1) 2.56 score_goal CHISEL_STAM
  pure ⟨stream, js * 0.95, hs * 0.95, stam * 0.9, tech * 0.95, jack, jack * 0.75⟩

/-- Lines 254 to 256 of `CalcMain`: the stamina cap. -/
def capStamina (d : DifficultyRating F) : DifficultyRating F :=
  let max_stream_jack_hs_js := max (max d.stream d.jack) (max d.jumpstream d.handstream)
  { d with stamina := CalcClamp d.stamina 1 (max_stream_jack_hs_js * 1.1) }

/-- Lines 236 to 280 of `CalcMain`: the rating before the first overall value, and the flag
`downscale_chordjack_at_end`. -/
def correctSkills (M : MathFns F) (sc : Scalers F) (fingerbias score_goal : F) (s : Solved F) :
    DifficultyRating F × Bool :=
  let d0 : DifficultyRating F :=
    ⟨0,
     downscale_low_accuracy_scores M s.stream score_goal,
     downscale_low_accuracy_scores M s.js score_goal,
     downscale_low_accuracy_scores M s.hs score_goal,
     downscale_low_accuracy_scores M s.stam score_goal,
     downscale_low_accuracy_scores M s.jack score_goal,
     downscale_low_accuracy_scores M s.chordjack score_goal,
     downscale_low_accuracy_scores M s.tech score_goal⟩
  let chordjack0 := d0.handstream
  let d1 : DifficultyRating F :=
    { d0 with
      stream := d0.stream * (sc.allhandsdownscaler * sc.manyjumpsdownscaler * sc.lotquaddownscaler)
      jumpstream :=
        d0.jumpstream * (sc.nojumpsdownscaler * sc.allhandsdownscaler * sc.lotquaddownscaler)
      handstream := d0.handstream * (sc.nohandsdownscaler * sc.allhandsdownscaler * 1.015
        * sc.manyjumpsdownscaler * sc.lotquaddownscaler)
      stamina := d0.stamina * (sc.shortstamdownscaler * 0.985 * sc.lotquaddownscaler)
      technical := d0.technical
        * (sc.allhandsdownscaler * sc.manyjumpsdownscaler * sc.lotquaddownscaler * 1.01) }
  let d2 := capStamina d1
  let chordjack := chordjack0 * (CalcClamp (sc.qprop + sc.hprop + sc.jprop + 0.2) 0.5 1 * 1.025)
  let downscale_chordjack_at_end : Bool := !decide (chordjack > d2.jack)
  let d3 : DifficultyRating F := if chordjack > d2.jack then { d2 with chordjack := chordjack } else d2
  let finger_bias_scaling := CalcClamp (3.55 - fingerbias) 0.85 1
  let d4 : DifficultyRating F := { d3 with technical := d3.technical * finger_bias_scaling }
  let d5 : DifficultyRating F :=
    if finger_bias_scaling ≤ 0.95 then
      { d4 with jack := d4.jack * (1 + (1 - M.sqrt finger_bias_scaling)) }
    else d4
  let max_js_hs := max d5.handstream d5.jumpstream
  let d6 : DifficultyRating F :=
    if d5.stream < max_js_hs then { d5 with stream := d5.stream - M.sqrt (max_js_hs - d5.stream) }
    else d5
  (d6, downscale_chordjack_at_end)

/-- Lines 282 to 301 of `CalcMain`: the first overall value, the caps against the mean and
the jump-thrill scaling. -/
def capSkills (M : MathFns F) (fuel : Nat) (sc : Scalers F) (score_goal : F)
    (d : DifficultyRating F) : Option (DifficultyRating F) := do
  let overall ← AggregateScores M fuel (skillset_vector d) 0 10.24
  let d1 : DifficultyRating F :=
    { d with overall := downscale_low_accuracy_scores M overall score_goal }
  let aDvg := mean (skillset_vector d1) * 1.2
  let g := sc.grindscaler
  let d2 : DifficultyRating F :=
    ⟨downscale_low_accuracy_scores M (min d1.overall aDvg * g) score_goal,
     downscale_low_accuracy_scores M (min d1.stream (aDvg * 1.0416) * g) score_goal,
     downscale_low_accuracy_scores M (min d1.jumpstream (aDvg * 1.0416) * g) score_goal,
     downscale_low_accuracy_scores M (min d1.handstream aDvg * g) score_goal,
     downscale_low_accuracy_scores M (min d1.stamina aDvg * g) score_goal,
     downscale_low_accuracy_scores M (min d1.jack aDvg * g) score_goal,
     downscale_low_accuracy_scores M (min d1.chordjack aDvg * g) score_goal,
     downscale_low_accuracy_scores M (min d1.technical (aDvg * 1.0416) * g) score_goal⟩
  pure { d2 with
    jumpstream := d2.jumpstream * sc.jumpthrill
    handstream := d2.handstream * sc.jumpthrill
    stamina := d2.stamina * (M.sqrt sc.jumpthrill * 0.996)
    technical := d2.technical * M.sqrt sc.jumpthrill }

/-- Lines 316 to 337 of `CalcMain`: the minimum-percentage gate, the technical proximity
downscale and the final corrections, for the value `highest` of line 303. -/
def gateAndFinish (highest score_goal : F) (d : DifficultyRating F) : DifficultyRating F :=
  let minimum_required_percentage := CalcClamp (0.5 + (highest / 100)) 0 0.9
  let d1 : DifficultyRating F :=
    if score_goal < minimum_required_percentage then DifficultyRating.zero else d
  let d2 : DifficultyRating F :=
    if highest = d1.technical then
      let hs := d1.handstream
      let js := d1.jumpstream
      let t1 := d1.technical - CalcClamp (4.5 - (d1.technical - hs)) 0 4.5
      let t2 := t1 - CalcClamp (4.5 - (t1 - js)) 0 4.5
      { d1 with technical := t2 }
    else d1
  let d3 : DifficultyRating F :=
    { d2 with jack := d2.jack * 0.925, technical := d2.technical * 1.025 }
  { d3 with overall := highest_difficulty d3 }

/-- Lines 303 to 337 of `CalcMain`. -/
def finishRating (M : MathFns F) (fuel : Nat) (score_goal : F) (d : DifficultyRating F)
    (downscale_chordjack_at_end : Bool) : Option (DifficultyRating F) := do
  let highest := max d.overall (highest_difficulty d)
  let overall ← AggregateScores M fuel (skillset_vector d) 0 10.24
  let d1 : DifficultyRating F := { d with overall := overall }
  let d2 : DifficultyRating F :=
    if downscale_chordjack_at_end then { d1 with chordjack := d1.chordjack * 0.9 } else d1
  pure (gateAndFinish highest score_goal d2)

/-- The source's `Calc::CalcMain`, run on the `Calc` object `c0`. -/
def CalcMain [FloorRing F] (M : MathFns F) (fuel : Nat) (c0 : Calc F) (note_info : List (NoteInfo F))
    (music_rate score_goal : F) : Option (DifficultyRating F) := do
  let c ← Init M c0 note_info music_rate
  let back ← note_info.getLast?
  let sc := calcScalers note_info back.rowTime
  let s ← solveSkills M fuel c score_goal
  let p := correctSkills M sc c.fingerbias score_goal s
  let d ← capSkills M fuel sc score_goal p.1
  finishRating M fuel score_goal d p.2

/-- The source's `MinaSDCalc(NoteInfo, musicrate, goal)`: the single-rate entry point (the spec's
`computeDifficultyAt`). -/
def MinaSDCalc [FloorRing F] (M : MathFns F) (fuel : Nat) (note_info : List (NoteInfo F)) (musicrate goal : F) :
    Option (DifficultyRating F) :=
  if note_info.isEmpty then some DifficultyRating.zero
  else CalcMain M fuel Calc.fresh note_info musicrate goal

/-- The rate `static_cast<float>(i) / 10.f` of the sweep. -/
def sweepRate (i : Nat) : F := (i : F) / 10

/-- The source's `MinaSDCalc(NoteInfo)`: the rate sweep (the spec's `computeDifficultyCurve`), with
`lower_rate = 7` and `upper_rate = 21`. -/
def MinaSDCalcAll [FloorRing F] (M : MathFns F) (fuel : Nat) (note_info : List (NoteInfo F)) :
    Option (List (DifficultyRating F)) :=
  if !note_info.isEmpty then
    ((List.range (21 - 7)).map (fun k => 7 + k)).mapM
      (fun i => MinaSDCalc M fuel note_info (sweepRate i) 0.93)
  else
    some (((List.range (21 - 7)).map (fun k => 7 + k)).map (fun _ => DifficultyRating.zero))

/-! ## Predicates used by the statements -/

/-- Every row index of the membership table `nerv` is an index of the chart. -/
def validTable (note_info : List (NoteInfo F)) (nerv : List (List Nat)) : Prop :=
  ∀ interval ∈ nerv, ∀ row ∈ interval, row < note_info.length

/-- What the bounds on the square root use: on non-negative arguments it is non-negative and
squares to its argument. -/
def IsSqrt (sqrt : F → F) : Prop := ∀ x : F, 0 ≤ x → 0 ≤ sqrt x ∧ sqrt x * sqrt x = x

/-- The mean of 1 and the values of `raw` at `i - 2` and `i - 1`, with 1 standing for a value
before the start of the series. -/
def smoothedNeutralAt (raw : List F) (i : Nat) : F :=
  ((1 :: 1 :: raw).getD i 0 + (1 :: 1 :: raw).getD (i + 1) 0 + 1) / 3

/-- The scaled times `rowTime / music_rate` of the taps of column `t`, in chart order. -/
def tapTimes (note_info : List (NoteInfo F)) (t : Nat) (music_rate : F) : List F :=
  (note_info.filter (fun row => decide (row.notes &&& (1 <<< t) ≠ 0))).map
    (fun row => row.rowTime / music_rate)

/-- The gaps in milliseconds between successive times, the first one measured from `last`. -/
def gapsFrom : F → List F → List F
  | _, [] => []
  | last, time :: rest => 1000 * (time - last) :: gapsFrom time rest

/-- The local jack difficulty of three successive gaps, `g3` being the most recent:
`min(2800 / a, 50)` with `a` the smaller of their mean and `1.4 × g3`. -/
def jackValue (g1 g2 g3 : F) : F := min (2800 / min ((g1 + g2 + g3) / 3) (1.4 * g3)) 50

/-- The local jack difficulties of every three successive entries of a list of gaps. -/
def jackWindows : List F → List F
  | g1 :: g2 :: g3 :: rest => jackValue g1 g2 g3 :: jackWindows (g2 :: g3 :: rest)
  | _ => []

/-- The interval index that `ProcessFinger` computes for a row. -/
def intervalIndex [FloorRing F] (music_rate : F) (row : NoteInfo F) : Int :=
  truncToInt (row.rowTime / music_rate / IntervalSpan)

/-- The interval count that `Init` computes from the last row of the chart (0 stands for the
empty chart, on which `Init` is not run). -/
def intervalCount [FloorRing F] (note_info : List (NoteInfo F)) (music_rate : F) : Int :=
  match note_info.getLast? with
  | some back => ⌈back.rowTime / (music_rate * IntervalSpan)⌉
  | none => 0

/-- Every row of the chart has an interval index among the `numitv` intervals. -/
def intervalsInRange [FloorRing F] (note_info : List (NoteInfo F)) (music_rate : F)
    (numitv : Int) : Prop :=
  ∀ row ∈ note_info, 0 ≤ intervalIndex music_rate row ∧ intervalIndex music_rate row < numitv

/-- The pairs (interval index, clamped gap) of the taps of column `t`, in chart order; the
gap of a tap is measured from the scaled time of the previous tap of the column, `last` for
the first one. -/
def tapGapsFrom [FloorRing F] (t : Nat) (music_rate : F) : F → List (NoteInfo F) → List (Int × F)
  | _, [] => []
  | last, row :: rest =>
    if row.notes &&& (1 <<< t) ≠ 0 then
      (intervalIndex music_rate row,
        CalcClamp (1000 * (row.rowTime / music_rate - last)) 40 5000)
        :: tapGapsFrom t music_rate (row.rowTime / music_rate) rest
    else tapGapsFrom t music_rate last rest

/-- The gaps of interval `k` among pairs (interval index, gap), in order. -/
def gapsOfInterval (k : Nat) (taps : List (Int × F)) : List F :=
  (taps.filter (fun p => decide (p.1 = (k : Int)))).map (fun p => p.2)

/-- The multipliers `mod` that the loop of `Hand::StamAdjust` applies to successive
intervals: the value of `mod` after the clamp in each iteration. -/
def StamModsLoop (x : F) : StamState F → List F → List F
  | _, [] => []
  | s, i :: rest => (StamStep x s i).mod :: StamModsLoop x (StamStep x s i) rest

/-- The multipliers that `Hand::StamAdjust` applies to a difficulty series. -/
def StamMods (x : F) (diff : List F) : List F := StamModsLoop x ⟨1, 1, 0⟩ diff

/-- Entry `k` of a slowly rising difficulty ramp: `1 + 71 (k + 1) / 44985000`. -/
def stamRampValue (k : Nat) : ℚ := 1 + 71 * ((k : ℚ) + 1) / 44985000

/-- A strictly increasing ramp of 6000 positive interval difficulties. -/
def stamRamp : List ℚ := (List.range 6000).map stamRampValue

/-- A computation with fuel returns `v` whenever it is given enough fuel. -/
def ReturnsWith {α : Type} (f : Nat → Option α) (v : α) : Prop :=
  ∃ N : Nat, ∀ fuel : Nat, N ≤ fuel → f fuel = some v

/-- The property of `erfc` on which the loop of `AggregateScores` relies to end: far enough to
the left its value is at least 16/11 (the limit of `erfc` at minus infinity is 2). -/
def ErfcTail (erfc : F → F) : Prop := ∃ y0 : F, ∀ y : F, y ≤ y0 → 16 / 11 ≤ erfc y

/-- What the statements use of `pow(·, e)` for a positive exponent `e`: it maps 1 to 1, is
positive on positive bases and is non-decreasing in the base on non-negative bases. -/
def IsPow (pow : F → F → F) : Prop :=
  ∀ e : F, 0 < e →
    pow 1 e = 1 ∧ (∀ a : F, 0 < a → 0 < pow a e) ∧
      (∀ a b : F, 0 ≤ a → a ≤ b → pow a e ≤ pow b e)

/-- The spec's category-specific combination of the pattern downscalers of interval `i`:
handstream takes precedence over jumpstream and jumpstream over plain nps. -/
def specCategoryFactor (M : MathFns F) (h : Hand F) (flags : ChiselFlags) (i : Nat) : F :=
  if flags.hs then M.sqrt (rd h.ohjumpscale i) * rd h.jumpscale i
  else if flags.js then rd h.hsscale i ^ 2 * M.sqrt (rd h.ohjumpscale i) * rd h.jumpscale i
  else if flags.nps then rd h.hsscale i ^ 3 * rd h.ohjumpscale i ^ 2 * rd h.jumpscale i ^ 2
  else M.sqrt (rd h.ohjumpscale i)

/-- The spec's difficulty `d[i]` of interval `i`: the selected base series times
`anchor × roll` times the category combination. -/
def specDifficulty (M : MathFns F) (h : Hand F) (flags : ChiselFlags) (i : Nat) : F :=
  rd (if flags.nps then h.v_itvNPSdiff else h.v_itvMSdiff) i
    * (rd h.anchorscale i * rd h.rollscale i) * specCategoryFactor M h flags i

/-- The spec's expected points of interval `i`: `points[i] × min(1, (skill / d[i])^1.8)`, and
the full points where `d[i]` is zero (or negative). -/
def specIntervalPoints (M : MathFns F) (h : Hand F) (skill : F) (flags : ChiselFlags)
    (i : Nat) : F :=
  ((h.v_itvpoints.getD i 0 : Int) : F) *
    (if specDifficulty M h flags i ≤ 0 then 1
     else min 1 (M.pow (skill / specDifficulty M h flags i) 1.8))

/-- The spec's value of `CalcInternal` without stamina: the sum of the expected points over
the intervals. -/
def specCalcInternal (M : MathFns F) (h : Hand F) (skill : F) (flags : ChiselFlags) : F :=
  ((List.range h.v_itvpoints.length).map (specIntervalPoints M h skill flags)).sum

/-- The scaled jack difficulties `jd × mod` that the loop of `JackLoss` compares with the
skill, one per jack difficulty. -/
def jackScaled (M : MathFns F) (skill : F) : JackState F → List F → List F
  | _, [] => []
  | s, jd :: rest =>
    jd * (JackLossStep M skill s jd).mod :: jackScaled M skill (JackLossStep M skill s jd) rest

/-! ## The entry points -/

/-- C1: for every rate and score goal (and any fuel and any choice of the transcendental
functions) the single-rate entry point `MinaSDCalc` returns on the empty chart, without
running `CalcMain`, and the rating it returns has all eight fields equal to 0. -/
theorem MinaSDCalc_empty_chart [FloorRing F] (M : MathFns F) (fuel : Nat) (musicrate goal : F) :
    ∃ r : DifficultyRating F, MinaSDCalc M fuel [] musicrate goal = some r ∧
      r.overall = 0 ∧ r.stream = 0 ∧ r.jumpstream = 0 ∧ r.handstream = 0 ∧
      r.stamina = 0 ∧ r.jack = 0 ∧ r.chordjack = 0 ∧ r.technical = 0 := by
  refine ⟨DifficultyRating.zero, ?_, rfl, rfl, rfl, rfl, rfl, rfl, rfl, rfl⟩
  unfold MinaSDCalc
  rw [if_pos List.isEmpty_nil]

/-- The rate of step `i` of the sweep is `0.7 + 0.1 × i`. -/
theorem sweepRate_eq (i : Nat) : (sweepRate (7 + i) : F) = 0.7 + 0.1 * (i : F) := by
  unfold sweepRate
  push_cast
  ring

/-- Monadic `List.mapM` into `Option`, one element at a time. -/
theorem mapM_option_cons {α β : Type} (f : α → Option β) (a : α) (l : List α) :
    (a :: l).mapM f = (f a).bind (fun b => (l.mapM f).map (fun bs => b :: bs)) := by
  rw [List.mapM_cons]
  cases f a with
  | none => rfl
  | some b =>
    cases l.mapM f with
    | none => rfl
    | some bs => rfl

/-- Monadic `List.mapM` into `Option` succeeds when every call does; the result lists the values of
the calls in order. -/
theorem mapM_option_some {α β : Type} (f : α → Option β) (g : α → β) :
    ∀ l : List α, (∀ a ∈ l, f a = some (g a)) → l.mapM f = some (l.map g)
  | [], _ => rfl
  | a :: l, h => by
    rw [mapM_option_cons, h a (List.mem_cons_self a l),
      mapM_option_some f g l (fun x hx => h x (List.mem_cons_of_mem a hx))]
    rfl

/-- A successful `List.mapM` into `Option` has one result per element, the result of the
call on that element. -/
theorem mapM_option_getElem {α β : Type} (f : α → Option β) :
    ∀ (l : List α) (out : List β), l.mapM f = some out →
      out.length = l.length ∧ ∀ i (h1 : i < l.length) (h2 : i < out.length), f l[i] = some out[i]
  | [], out, h => by
    have : out = [] := by
      have h2 : some ([] : List β) = some out := h
      exact (Option.some.inj h2).symm
    subst this
    exact ⟨rfl, fun i h1 _ => absurd h1 (Nat.not_lt_zero i)⟩
  | a :: l, out, h => by
    rw [mapM_option_cons] at h
    cases hfa : f a with
    | none => rw [hfa] at h; cases h
    | some b =>
      rw [hfa] at h
      cases hl : l.mapM f with
      | none => rw [hl] at h; cases h
      | some bs =>
        rw [hl] at h
        have hout : b :: bs = out := Option.some.inj h
        subst hout
        obtain ⟨hlen, hall⟩ := mapM_option_getElem f l bs hl
        refine ⟨by simp [hlen], ?_⟩
        intro i h1 h2
        cases i with
        | zero => simpa using hfa
        | succ i => simpa using hall i (by simpa using h1) (by simpa using h2)

/-- Monadic `List.mapM` into `Option` over a mapped list. -/
theorem mapM_option_map {α β γ : Type} (f : β → Option γ) (g : α → β) :
    ∀ l : List α, (l.map g).mapM f = l.mapM (fun a => f (g a))
  | [] => rfl
  | a :: l => by
    rw [List.map_cons, mapM_option_cons, mapM_option_cons, mapM_option_map f g l]

/-- On the empty chart the sweep returns fourteen all-zero ratings. -/
theorem MinaSDCalcAll_nil [FloorRing F] (M : MathFns F) (fuel : Nat) :
    MinaSDCalcAll M fuel ([] : List (NoteInfo F)) =
      some (List.replicate 14 DifficultyRating.zero) := by
  have h : MinaSDCalcAll M fuel ([] : List (NoteInfo F)) =
      some (((List.range (21 - 7)).map (fun k => 7 + k)).map
        (fun _ => (DifficultyRating.zero : DifficultyRating F))) := rfl
  rw [h, List.map_const']
  simp

/-- The sweep is the list of the fourteen single-rate calls at the rates `0.7 + 0.1 × i`. -/
theorem MinaSDCalcAll_eq_mapM [FloorRing F] (M : MathFns F) (fuel : Nat)
    (note_info : List (NoteInfo F)) :
    MinaSDCalcAll M fuel note_info =
      (List.range 14).mapM
        (fun i : Nat => MinaSDCalc M fuel note_info (0.7 + 0.1 * (i : F)) 0.93) := by
  have hrate : (fun i : Nat => MinaSDCalc M fuel note_info (sweepRate (7 + i)) 0.93) =
      (fun i : Nat => MinaSDCalc M fuel note_info (0.7 + 0.1 * (i : F)) 0.93) := by
    funext i
    rw [sweepRate_eq]
  cases note_info with
  | nil =>
    rw [mapM_option_some _ (fun _ => (DifficultyRating.zero : DifficultyRating F))]
    · rw [MinaSDCalcAll_nil, List.map_const']
      simp
    · intro i _
      simp [MinaSDCalc]
  | cons row rest =>
    have h : MinaSDCalcAll M fuel (row :: rest) =
        ((List.range 14).map (fun k => 7 + k)).mapM
          (fun i => MinaSDCalc M fuel (row :: rest) (sweepRate i) 0.93) := rfl
    rw [h, mapM_option_map, hrate]

/-- Monadic `List.mapM` into `Option` fails when the call on one element fails. -/
theorem mapM_option_none {α β : Type} (f : α → Option β) :
    ∀ (l : List α) (a : α), a ∈ l → f a = none → l.mapM f = none
  | [], _, hmem, _ => by simp at hmem
  | b :: l, a, hmem, h => by
    rw [mapM_option_cons]
    rcases List.mem_cons.mp hmem with rfl | hm
    · rw [h]
      rfl
    · rw [mapM_option_none f l a hm h]
      cases f b <;> rfl

/-- The single-rate entry point on the one-row chart with a tap at time 1, at rate 1: `Init`
sets `numitv = 2`, `ProcessFinger` computes the interval index 2 for the row and the write
`all_intervals[2]` is outside the vector; no result is returned. -/
theorem MinaSDCalc_one_row_none (M : MathFns ℚ) (fuel : Nat) (goal : ℚ) :
    MinaSDCalc M fuel [⟨1, 1⟩] 1 goal = none := by
  have hc : (⌈(1 : ℚ) / (1 * IntervalSpan)⌉ : Int) = 2 := by
    norm_num [IntervalSpan]
  have ht : truncToInt ((IntervalSpan : ℚ)⁻¹) = 2 := by
    norm_num [truncToInt, IntervalSpan]
  have hp : ∀ nerv : List (List Nat),
      ProcessFinger (F := ℚ) 2 nerv [⟨1, 1⟩] 0 1 = none := by
    intro nerv
    simp [ProcessFinger, makeRows, ProcessFingerLoop, pushAt, ht]
  have hh : ∀ (c : Calc ℚ) (hand : Hand ℚ), c.numitv = 2 →
      InitHand M c hand [⟨1, 1⟩] 0 1 1 = none := by
    intro c hand hnum
    simp only [InitHand, hnum, hp, Option.bind_eq_bind, Option.none_bind]
  have hi : Init M (Calc.fresh : Calc ℚ) [⟨1, 1⟩] 1 = none := by
    simp only [Init, List.getLast?_singleton, hc, makeRows, Option.bind_eq_bind,
      Option.some_bind]
    rw [hh _ _ rfl]
    rfl
  simp only [MinaSDCalc, CalcMain, hi, List.isEmpty_cons, Option.bind_eq_bind, Option.none_bind]
  rfl

/-- C2, the failing input: the sweep is the sequence of the fourteen single-rate calls at the
rates `0.7 + 0.1 × i` and goal 0.93, and on the empty chart it returns fourteen all-zero
ratings; but on the one-row chart with a tap at time 1 its step `i = 3` runs at rate
`10 / 10 = 1`, where the single-rate call writes outside its interval vector and returns
nothing, so the sweep does not return a list of 14 ratings. -/
theorem MinaSDCalcAll_one_row_chart (M : MathFns ℚ) (fuel : Nat) :
    ((sweepRate (7 + 3) : ℚ) = 1 ∧ (0.7 + 0.1 * ((3 : Nat) : ℚ)) = 1) ∧
    MinaSDCalc M fuel [⟨1, 1⟩] (0.7 + 0.1 * ((3 : Nat) : ℚ)) 0.93 = none ∧
    MinaSDCalcAll M fuel [⟨1, 1⟩] = none ∧
    (∀ note_info : List (NoteInfo ℚ), MinaSDCalcAll M fuel note_info =
      (List.range 14).mapM
        (fun i : Nat => MinaSDCalc M fuel note_info (0.7 + 0.1 * (i : ℚ)) 0.93)) ∧
    MinaSDCalcAll M fuel ([] : List (NoteInfo ℚ)) =
      some (List.replicate 14
        { overall := 0, stream := 0, jumpstream := 0, handstream := 0, stamina := 0,
          jack := 0, chordjack := 0, technical := 0 }) := by
  have hrate : (0.7 + 0.1 * ((3 : Nat) : ℚ)) = 1 := by norm_num
  have hcall : MinaSDCalc M fuel [⟨1, 1⟩] (0.7 + 0.1 * ((3 : Nat) : ℚ)) 0.93 = none := by
    rw [hrate]
    exact MinaSDCalc_one_row_none M fuel 0.93
  refine ⟨⟨by norm_num [sweepRate], hrate⟩, hcall, ?_, MinaSDCalcAll_eq_mapM M fuel,
    MinaSDCalcAll_nil M fuel⟩
  rw [MinaSDCalcAll_eq_mapM]
  exact mapM_option_none _ (List.range 14) 3 (by simp) hcall

/-! ## The solver -/

/-- Without the 100 limit the inner loop of `approximate`, when it ends, ends at a value where
the predicate is false; that value is the start if the predicate is false there, and otherwise
one step below it the predicate is true. -/
theorem approximateWhile_fell (P : F → Bool) (res : F) :
    ∀ (fuel : Nat) (x : F) (e : LoopExit F), approximateWhile P false res fuel x = some e →
      ∃ v, e = LoopExit.fell v ∧ P v = false ∧ (P x = false → v = x) ∧
        (P x = true → P (v - res) = true)
  | 0, _, _, h => by simp [approximateWhile] at h
  | fuel + 1, x, e, h => by
    unfold approximateWhile at h
    cases hx : P x with
    | false =>
      rw [hx] at h
      simp only [Bool.false_eq_true, if_false, Option.some.injEq] at h
      exact ⟨x, h.symm, hx, fun _ => rfl, fun hc => absurd hc (by decide)⟩
    | true =>
      rw [hx] at h
      simp only [if_true, Bool.false_and, Bool.false_eq_true, if_false] at h
      obtain ⟨v, hv, hPv, hstay, hprev⟩ := approximateWhile_fell P res fuel (x + res) e h
      refine ⟨v, hv, hPv, fun hc => absurd hc (by decide), fun _ => ?_⟩
      cases hx' : P (x + res) with
      | true => exact hprev hx'
      | false =>
        rw [hstay hx', add_sub_cancel_right]
        exact hx

/-- After at least one round, `approximate` without the 100 limit returns a value where the
predicate is false; if the predicate was true at the start, it is true one last-round step
below the returned value. -/
theorem approximate_result (P : F → Bool) (fuel : Nat) :
    ∀ (n : Nat) (x r v : F), approximate fuel x r (n + 1) P false = some v →
      P v = false ∧ (P x = true → P (v - 2 * (r / 2 ^ (n + 1))) = true)
  | 0, x, r, v, h => by
    unfold approximate at h
    cases hw : approximateWhile P false r fuel x with
    | none => rw [hw] at h; cases h
    | some e =>
      obtain ⟨w, he, hPw, _, hprev⟩ := approximateWhile_fell P r fuel x e hw
      subst he
      rw [hw] at h
      simp only [approximate, Option.some.injEq] at h
      have hv : v = w := by rw [← h]; ring
      subst hv
      refine ⟨hPw, fun hx => ?_⟩
      have : v - 2 * (r / 2 ^ (0 + 1)) = v - r := by ring
      rw [this]
      exact hprev hx
  | n + 1, x, r, v, h => by
    unfold approximate at h
    cases hw : approximateWhile P false r fuel x with
    | none => rw [hw] at h; cases h
    | some e =>
      obtain ⟨w, he, _, _, hprev⟩ := approximateWhile_fell P r fuel x e hw
      subst he
      rw [hw] at h
      obtain ⟨hPv, hnext⟩ := approximate_result P fuel n (w - r) (r / 2) v h
      refine ⟨hPv, fun hx => ?_⟩
      have : v - 2 * (r / 2 ^ (n + 1 + 1)) = v - 2 * (r / 2 / 2 ^ (n + 1)) := by
        rw [pow_succ (2 : F) (n + 1)]
        field_simp
        ring
      rw [this]
      exact hnext (hprev hx)

/-- C4 as stated fails: with the monotone predicate `x < 1`, start 0, resolution 1 and one
round, `approximate` returns `v = 1` and the step left after the halving is `1/2`, but the
predicate is false at `v + 1/2`. -/
theorem approximate_overshoot_counterexample :
    ∃ v : ℚ, approximate 3 (0 : ℚ) 1 1 (fun x => decide (x < 1)) false = some v ∧
      ¬ ((fun x : ℚ => decide (x < 1)) v = false ∧
         (fun x : ℚ => decide (x < 1)) (v + 1 / 2 ^ 1) = true) := by
  refine ⟨1, ?_, ?_⟩
  · simp [approximate, approximateWhile]
  · norm_num

/-- C4, amended: for every predicate (monotone or not) that is true at the start value,
every resolution and every iteration count `n ≥ 1` for which `approximate` without the 100
limit returns a value `v`, the predicate is false at `v` and true at
`v − 2 × finalResolution`, where `finalResolution = resolution / 2 ^ n` is the step left
after the last halving. -/
theorem approximate_brackets (P : F → Bool) (fuel n : Nat) (x r v : F)
    (hn : 1 ≤ n) (hstart : P x = true) (hret : approximate fuel x r n P false = some v) :
    P v = false ∧ P (v - 2 * (r / 2 ^ n)) = true := by
  obtain ⟨m, rfl⟩ : ∃ m, n = m + 1 := ⟨n - 1, by omega⟩
  obtain ⟨h1, h2⟩ := approximate_result P fuel m x r v hret
  exact ⟨h1, h2 hstart⟩

/-- C4, amended, at a concrete input: predicate `x < 1`, start 0, resolution 1, two rounds;
the value returned is 1. -/
theorem approximate_brackets_witness :
    (1 ≤ 2 ∧ (fun x : ℚ => decide (x < 1)) 0 = true ∧
      approximate 4 (0 : ℚ) 1 2 (fun x => decide (x < 1)) false = some 1) ∧
    ((fun x : ℚ => decide (x < 1)) 1 = false ∧
      (fun x : ℚ => decide (x < 1)) (1 - 2 * (1 / 2 ^ 2)) = true) :=
  have h : approximate 4 (0 : ℚ) 1 2 (fun x => decide (x < 1)) false = some 1 := by
    simp [approximate, approximateWhile]
    norm_num
  ⟨⟨by decide, by simp, h⟩,
    approximate_brackets (fun x : ℚ => decide (x < 1)) 4 2 0 1 1 (by decide) (by simp) h⟩

/-! ## Interval indices -/

/-- C5, the failing input: for the one-row chart with a tap at time 1 and rate 1, `Init` sets
`numitv = ⌈1 / (1 × 0.5)⌉ = 2` while `ProcessFinger` computes the interval index
`trunc((1 / 1) / 0.5) = 2`, which is not smaller than `numitv`; the write
`all_intervals[2]` is outside the vector, `ProcessFinger` does not return a result, and
neither does the entry point. -/
theorem ProcessFinger_index_eq_numitv (M : MathFns ℚ) (fuel : Nat) (goal : ℚ) :
    (⌈(1 : ℚ) / (1 * IntervalSpan)⌉ : Int) = 2 ∧
    truncToInt ((1 : ℚ) / 1 / IntervalSpan) = 2 ∧
    ProcessFinger (F := ℚ) 2 [[], []] [⟨1, 1⟩] 0 1 = none ∧
    MinaSDCalc M fuel [⟨1, 1⟩] 1 goal = none := by
  have hc : (⌈(1 : ℚ) / (1 * IntervalSpan)⌉ : Int) = 2 := by
    norm_num [IntervalSpan]
  have ht : truncToInt ((1 : ℚ) / 1 / IntervalSpan) = 2 := by
    norm_num [truncToInt, IntervalSpan]
  have ht' : truncToInt ((IntervalSpan : ℚ)⁻¹) = 2 := by
    norm_num [truncToInt, IntervalSpan]
  have hp : ∀ nerv : List (List Nat),
      ProcessFinger (F := ℚ) 2 nerv [⟨1, 1⟩] 0 1 = none := by
    intro nerv
    simp [ProcessFinger, makeRows, ProcessFingerLoop, pushAt, ht']
  have hh : ∀ (c : Calc ℚ) (hand : Hand ℚ), c.numitv = 2 →
      InitHand M c hand [⟨1, 1⟩] 0 1 1 = none := by
    intro c hand hnum
    simp only [InitHand, hnum, hp, Option.bind_eq_bind, Option.none_bind]
  have hi : Init M (Calc.fresh : Calc ℚ) [⟨1, 1⟩] 1 = none := by
    simp only [Init, List.getLast?_singleton, hc, makeRows, Option.bind_eq_bind,
      Option.some_bind]
    rw [hh _ _ rfl]
    rfl
  refine ⟨hc, ht, hp _, ?_⟩
  simp only [MinaSDCalc, CalcMain, hi, List.isEmpty_cons, Option.bind_eq_bind, Option.none_bind]
  rfl

/-! ## Pattern downscalers: shared facts -/

/-- Monadic `List.mapM` into `Option` of a call followed by a pure function. -/
theorem mapM_option_fmap {α β γ : Type} (g : α → Option β) (h : β → γ) :
    ∀ l : List α, l.mapM (fun a => (g a).map h) = (l.mapM g).map (List.map h)
  | [] => rfl
  | a :: l => by
    rw [mapM_option_cons, mapM_option_cons, mapM_option_fmap g h l]
    cases g a with
    | none => rfl
    | some b =>
      cases l.mapM g with
      | none => rfl
      | some bs => rfl

/-- The rows of an interval whose indices are in the chart can all be read. -/
theorem lookupRows_of_valid (note_info : List (NoteInfo F)) (interval : List Nat)
    (h : ∀ row ∈ interval, row < note_info.length) :
    lookupRows note_info interval = some (interval.map (fun row => note_info.getD row ⟨0, 0⟩)) := by
  unfold lookupRows
  apply mapM_option_some
  intro row hrow
  rw [List.getD_eq_getElem?_getD, List.getElem?_eq_getElem (h row hrow)]
  rfl

/-- With a valid membership table the rows of every interval can be read, one list per
interval. -/
theorem lookupAll_of_valid (note_info : List (NoteInfo F)) (nerv : List (List Nat))
    (h : validTable note_info nerv) :
    ∃ intervals : List (List (NoteInfo F)),
      nerv.mapM (lookupRows note_info) = some intervals ∧ intervals.length = nerv.length := by
  refine ⟨nerv.map (fun interval => interval.map (fun row => note_info.getD row ⟨0, 0⟩)), ?_, ?_⟩
  · apply mapM_option_some
    intro interval hmem
    exact lookupRows_of_valid note_info interval (h interval hmem)
  · simp

/-- Clamping by `CalcClamp` with ordered bounds returns a value between them. -/
theorem CalcClamp_bounds {α : Type} [LinearOrder α] (x l h : α) (hlh : l ≤ h) :
    l ≤ CalcClamp x l h ∧ CalcClamp x l h ≤ h := by
  unfold CalcClamp
  split_ifs with h1 h2
  · exact ⟨hlh, le_refl h⟩
  · exact ⟨le_refl l, hlh⟩
  · exact ⟨not_lt.mp h2, not_lt.mp h1⟩

/-- The loop of `Smooth` keeps its output between two bounds when the remembered values and
the input are between them. -/
theorem SmoothLoop_bounds (a b : F) :
    ∀ (input : List F) (f2 f3 : F), a ≤ f2 → f2 ≤ b → a ≤ f3 → f3 ≤ b →
      (∀ x ∈ input, a ≤ x ∧ x ≤ b) → ∀ y ∈ SmoothLoop f2 f3 input, a ≤ y ∧ y ≤ b
  | [], _, _, _, _, _, _, _, y, hy => by simp [SmoothLoop] at hy
  | i :: rest, f2, f3, h2a, h2b, h3a, h3b, hin, y, hy => by
    have hi := hin i (List.mem_cons_self i rest)
    simp only [SmoothLoop, List.mem_cons] at hy
    rcases hy with rfl | hy
    · constructor
      · rw [le_div_iff₀ (by norm_num : (0 : F) < 3)]
        linarith [hi.1]
      · rw [div_le_iff₀ (by norm_num : (0 : F) < 3)]
        linarith [hi.2]
    · exact SmoothLoop_bounds a b rest f3 i h3a h3b hi.1 hi.2
        (fun x hx => hin x (List.mem_cons_of_mem i hx)) y hy

/-- The loop of `Smooth` returns one value per input value. -/
theorem SmoothLoop_length : ∀ (input : List F) (f2 f3 : F),
    (SmoothLoop f2 f3 input).length = input.length
  | [], _, _ => rfl
  | i :: rest, _, f3 => by simp [SmoothLoop, SmoothLoop_length rest f3 i]

/-- A downscaler whose per-interval values lie between bounds that enclose the neutral value 1
returns a series between those bounds, of the same length. -/
theorem finishPattern_bounds (a b : F) (ha : a ≤ 1) (hb : 1 ≤ b) (output : List F)
    (h : ∀ x ∈ output, a ≤ x ∧ x ≤ b) :
    (finishPattern output).length = output.length ∧
      ∀ y ∈ finishPattern output, a ≤ y ∧ y ≤ b := by
  unfold finishPattern SmoothPatterns Smooth
  simp only [if_true]
  exact ⟨SmoothLoop_length output 1 1, SmoothLoop_bounds a b output 1 1 ha hb ha hb h⟩

/-- The chord counter of `HSDownscaler` and `JumpDownscaler`: `k` times the number of
`k`-note rows is at most the number of taps. -/
theorem chordCounts_le (k : Nat) (rows : List (NoteInfo F)) :
    k * (chordCounts k rows).2 ≤ (chordCounts k rows).1 := by
  unfold chordCounts
  have key : ∀ (rs : List (NoteInfo F)) (acc : Nat × Nat), k * acc.2 ≤ acc.1 →
      k * (rs.foldl (fun acc row =>
        (acc.1 + column_count row.notes,
          if column_count row.notes = k then acc.2 + 1 else acc.2)) acc).2 ≤
      (rs.foldl (fun acc row =>
        (acc.1 + column_count row.notes,
          if column_count row.notes = k then acc.2 + 1 else acc.2)) acc).1 := by
    intro rs
    induction rs with
    | nil => intro acc h; simpa using h
    | cons row rest ih =>
      intro acc h
      rw [List.foldl_cons]
      apply ih
      by_cases hk : column_count row.notes = k
      · simp only [hk, if_true]
        rw [Nat.mul_add]
        omega
      · simp only [hk, if_false]
        omega
  exact key rows (0, 0) (by simp)

/-- A square root is at least `a` when its argument is at least `a²`. -/
theorem le_sqrt_of_sq_le (sqrt : F → F) (hs : IsSqrt sqrt) (a x : F)
    (hx : a * a ≤ x) : a ≤ sqrt x := by
  have h0 : 0 ≤ x := le_trans (mul_self_nonneg a) hx
  obtain ⟨hn, hsq⟩ := hs x h0
  by_contra hlt
  push_neg at hlt
  have : sqrt x * sqrt x < a * a := mul_self_lt_mul_self hn hlt
  linarith

/-- A square root is at most `a` when its argument is at most `a²`. -/
theorem sqrt_le_of_le_sq (sqrt : F → F) (hs : IsSqrt sqrt) (a x : F) (ha : 0 ≤ a) (h0 : 0 ≤ x)
    (hx : x ≤ a * a) : sqrt x ≤ a := by
  obtain ⟨_, hsq⟩ := hs x h0
  by_contra hlt
  push_neg at hlt
  have : a * a < sqrt x * sqrt x := mul_self_lt_mul_self ha hlt
  linarith

/-- The fourth root taken by two square roots lies in `[lo, 1]` for an argument in
`[lo⁴, 1]`. -/
theorem fourth_root_bounds (sqrt : F → F) (hs : IsSqrt sqrt) (lo r : F)
    (h1 : lo * lo * (lo * lo) ≤ r) (h2 : r ≤ 1) :
    lo ≤ sqrt (sqrt r) ∧ sqrt (sqrt r) ≤ 1 := by
  have hr0 : 0 ≤ r := le_trans (mul_self_nonneg (lo * lo)) h1
  have hin1 : lo * lo ≤ sqrt r :=
    le_sqrt_of_sq_le sqrt hs (lo * lo) r h1
  have hin2 : sqrt r ≤ 1 := sqrt_le_of_le_sq sqrt hs 1 r zero_le_one hr0 (by simpa using h2)
  have hin0 : 0 ≤ sqrt r := (hs r hr0).1
  exact ⟨le_sqrt_of_sq_le sqrt hs lo (sqrt r) hin1,
    sqrt_le_of_le_sq sqrt hs 1 (sqrt r) zero_le_one hin0 (by simpa using hin2)⟩

/-! ## JumpDownscaler, HSDownscaler, Anchorscaler -/

/-- The proportion `chords / taps` of a non-empty interval is between 0 and `1 / k`. -/
theorem chord_ratio_bounds (k : Nat) (hk : 0 < k) (rows : List (NoteInfo F))
    (hne : (chordCounts k rows).1 ≠ 0) :
    0 ≤ ((chordCounts k rows).2 : F) / ((chordCounts k rows).1 : F) ∧
    ((chordCounts k rows).2 : F) / ((chordCounts k rows).1 : F) ≤ 1 / (k : F) := by
  have hle := chordCounts_le k rows
  have hpos : (0 : F) < ((chordCounts k rows).1 : F) := by
    exact_mod_cast Nat.pos_of_ne_zero hne
  have hk' : (0 : F) < (k : F) := by exact_mod_cast hk
  have hle' : (k : F) * ((chordCounts k rows).2 : F) ≤ ((chordCounts k rows).1 : F) := by
    exact_mod_cast hle
  constructor
  · exact div_nonneg (Nat.cast_nonneg _) (le_of_lt hpos)
  · rw [div_le_iff₀ hpos, div_mul_eq_mul_div, le_div_iff₀ hk']
    linarith

/-- The value `JumpDownscaler` computes for one interval lies in `[0.955, 1]`. -/
theorem JumpRaw_bounds (M : MathFns F) (hs : IsSqrt M.sqrt) (rows : List (NoteInfo F)) :
    0.955 ≤ JumpRaw M rows ∧ JumpRaw M rows ≤ 1 := by
  unfold JumpRaw
  by_cases h0 : (chordCounts 2 rows).1 = 0
  · simp only [h0, if_true]
    norm_num
  · simp only [h0, if_false]
    obtain ⟨hp0, hp1⟩ := chord_ratio_bounds 2 (by decide) rows h0
    apply fourth_root_bounds M.sqrt hs
    · norm_num at hp1 ⊢
      linarith
    · linarith [div_nonneg hp0 (by norm_num : (0 : F) ≤ 3)]

/-- The value `HSDownscaler` computes for one interval lies in `[0.903, 1]`. -/
theorem HSRaw_bounds (M : MathFns F) (hs : IsSqrt M.sqrt) (rows : List (NoteInfo F)) :
    0.903 ≤ HSRaw M rows ∧ HSRaw M rows ≤ 1 := by
  unfold HSRaw
  by_cases h0 : (chordCounts 3 rows).1 = 0
  · simp only [h0, if_true]
    norm_num
  · simp only [h0, if_false]
    obtain ⟨hp0, hp1⟩ := chord_ratio_bounds 3 (by decide) rows h0
    apply fourth_root_bounds M.sqrt hs
    · norm_num at hp1 ⊢
      linarith
    · linarith

/-- The value `Anchorscaler` computes for one interval lies in `[0.8, 1.05]`. -/
theorem AnchorRaw_bounds (M : MathFns F) (firstNote secondNote : Nat)
    (rows : List (NoteInfo F)) :
    0.8 ≤ AnchorRaw M firstNote secondNote rows ∧ AnchorRaw M firstNote secondNote rows ≤ 1.05 := by
  unfold AnchorRaw
  simp only []
  split_ifs
  · norm_num
  · exact CalcClamp_bounds _ _ _ (by norm_num)

/-- C7: for every chart and every membership table with valid row indices, `JumpDownscaler`
returns a series with one multiplier per interval, each in `[0.955, 1]` after the smoothing
with neutral 1, provided `sqrt` is a square root; the number of 2-note rows of an interval,
doubled, is at most its tap count. -/
theorem JumpDownscaler_bounds (M : MathFns F) (hs : IsSqrt M.sqrt)
    (note_info : List (NoteInfo F)) (nerv : List (List Nat))
    (hvalid : validTable note_info nerv) :
    (∀ rows : List (NoteInfo F), 2 * (chordCounts 2 rows).2 ≤ (chordCounts 2 rows).1) ∧
    ∃ out, JumpDownscaler M note_info nerv = some out ∧ out.length = nerv.length ∧
      ∀ x ∈ out, 0.955 ≤ x ∧ x ≤ 1 := by
  refine ⟨chordCounts_le 2, ?_⟩
  obtain ⟨intervals, hlook, hlen⟩ := lookupAll_of_valid note_info nerv hvalid
  have hb := finishPattern_bounds (0.955 : F) 1 (by norm_num) (le_refl 1)
    (intervals.map (JumpRaw M)) (by
      intro x hx
      obtain ⟨rows, _, rfl⟩ := List.mem_map.mp hx
      exact JumpRaw_bounds M hs rows)
  refine ⟨finishPattern (intervals.map (JumpRaw M)), ?_, ?_, hb.2⟩
  · unfold JumpDownscaler
    rw [mapM_option_fmap, hlook]
    rfl
  · rw [hb.1, List.length_map, hlen]

/-- C8: for every chart and every membership table with valid row indices, `HSDownscaler`
returns a series with one multiplier per interval, each in `[0.903, 1]` after the smoothing
with neutral 1, provided `sqrt` is a square root; the number of 3-note rows of an interval,
tripled, is at most its tap count. -/
theorem HSDownscaler_bounds (M : MathFns F) (hs : IsSqrt M.sqrt)
    (note_info : List (NoteInfo F)) (nerv : List (List Nat))
    (hvalid : validTable note_info nerv) :
    (∀ rows : List (NoteInfo F), 3 * (chordCounts 3 rows).2 ≤ (chordCounts 3 rows).1) ∧
    ∃ out, HSDownscaler M note_info nerv = some out ∧ out.length = nerv.length ∧
      ∀ x ∈ out, 0.903 ≤ x ∧ x ≤ 1 := by
  refine ⟨chordCounts_le 3, ?_⟩
  obtain ⟨intervals, hlook, hlen⟩ := lookupAll_of_valid note_info nerv hvalid
  have hb := finishPattern_bounds (0.903 : F) 1 (by norm_num) (le_refl 1)
    (intervals.map (HSRaw M)) (by
      intro x hx
      obtain ⟨rows, _, rfl⟩ := List.mem_map.mp hx
      exact HSRaw_bounds M hs rows)
  refine ⟨finishPattern (intervals.map (HSRaw M)), ?_, ?_, hb.2⟩
  · unfold HSDownscaler
    rw [mapM_option_fmap, hlook]
    rfl
  · rw [hb.1, List.length_map, hlen]

/-- C9: for every chart, every pair of column masks, every starting `fingerbias` and every
membership table with valid row indices, `Anchorscaler` returns a series with one multiplier
per interval, each in `[0.8, 1.05]` after the smoothing with neutral 1, whatever `sqrt`
returns. -/
theorem Anchorscaler_bounds (M : MathFns F) (note_info : List (NoteInfo F))
    (nerv : List (List Nat)) (fingerbias : F) (firstNote secondNote : Nat)
    (hvalid : validTable note_info nerv) :
    ∃ out fb, Anchorscaler M note_info nerv fingerbias firstNote secondNote = some (out, fb) ∧
      out.length = nerv.length ∧ ∀ x ∈ out, 0.8 ≤ x ∧ x ≤ 1.05 := by
  obtain ⟨intervals, hlook, hlen⟩ := lookupAll_of_valid note_info nerv hvalid
  have hb := finishPattern_bounds (0.8 : F) 1.05 (by norm_num) (by norm_num)
    (intervals.map (AnchorRaw M firstNote secondNote)) (by
      intro x hx
      obtain ⟨rows, _, rfl⟩ := List.mem_map.mp hx
      exact AnchorRaw_bounds M firstNote secondNote rows)
  refine ⟨finishPattern (intervals.map (AnchorRaw M firstNote secondNote)),
    intervals.foldl (fun fb rows => fb + anchorBias firstNote secondNote rows) fingerbias,
    ?_, ?_, hb.2⟩
  · unfold Anchorscaler
    rw [hlook]
    rfl
  · rw [hb.1, List.length_map, hlen]

/-- The real square root is a square root in the sense used by the bounds. -/
theorem IsSqrt_real : IsSqrt Real.sqrt :=
  fun x hx => ⟨Real.sqrt_nonneg x, Real.mul_self_sqrt hx⟩

/-- C7, at a concrete input: a two-row chart over the reals with the real square root; both
rows are in interval 0 and interval 1 is empty. -/
theorem JumpDownscaler_bounds_witness :
    (IsSqrt Real.sqrt ∧
      validTable ([⟨3, 0⟩, ⟨1, 1 / 4⟩] : List (NoteInfo ℝ)) [[0, 1], []]) ∧
    ∃ out : List ℝ,
      JumpDownscaler ⟨Real.sqrt, fun x y => x ^ y, fun _ => 1⟩ [⟨3, 0⟩, ⟨1, 1 / 4⟩] [[0, 1], []]
        = some out ∧
      out.length = ([[0, 1], []] : List (List Nat)).length ∧ ∀ x ∈ out, 0.955 ≤ x ∧ x ≤ 1 :=
  have hv : validTable ([⟨3, 0⟩, ⟨1, 1 / 4⟩] : List (NoteInfo ℝ)) [[0, 1], []] := by
    unfold validTable
    decide
  ⟨⟨IsSqrt_real, hv⟩,
    (JumpDownscaler_bounds ⟨Real.sqrt, fun x y => x ^ y, fun _ => 1⟩ IsSqrt_real
      [⟨3, 0⟩, ⟨1, 1 / 4⟩] [[0, 1], []] hv).2⟩

/-- C8, at a concrete input: a two-row chart over the reals with the real square root; the
first row is a 3-note chord. -/
theorem HSDownscaler_bounds_witness :
    (IsSqrt Real.sqrt ∧
      validTable ([⟨7, 0⟩, ⟨1, 1 / 4⟩] : List (NoteInfo ℝ)) [[0, 1], []]) ∧
    ∃ out : List ℝ,
      HSDownscaler ⟨Real.sqrt, fun x y => x ^ y, fun _ => 1⟩ [⟨7, 0⟩, ⟨1, 1 / 4⟩] [[0, 1], []]
        = some out ∧
      out.length = ([[0, 1], []] : List (List Nat)).length ∧ ∀ x ∈ out, 0.903 ≤ x ∧ x ≤ 1 :=
  have hv : validTable ([⟨7, 0⟩, ⟨1, 1 / 4⟩] : List (NoteInfo ℝ)) [[0, 1], []] := by
    unfold validTable
    decide
  ⟨⟨IsSqrt_real, hv⟩,
    (HSDownscaler_bounds ⟨Real.sqrt, fun x y => x ^ y, fun _ => 1⟩ IsSqrt_real
      [⟨7, 0⟩, ⟨1, 1 / 4⟩] [[0, 1], []] hv).2⟩

/-- C9, at a concrete input: a two-row chart over the reals, the masks of the left hand and
`fingerbias` starting at 0. -/
theorem Anchorscaler_bounds_witness :
    validTable ([⟨3, 0⟩, ⟨1, 1 / 4⟩] : List (NoteInfo ℝ)) [[0, 1], []] ∧
    ∃ (out : List ℝ) (fb : ℝ),
      Anchorscaler ⟨Real.sqrt, fun x y => x ^ y, fun _ => 1⟩ [⟨3, 0⟩, ⟨1, 1 / 4⟩] [[0, 1], []]
        0 1 2 = some (out, fb) ∧
      out.length = ([[0, 1], []] : List (List Nat)).length ∧ ∀ x ∈ out, 0.8 ≤ x ∧ x ≤ 1.05 :=
  have hv : validTable ([⟨3, 0⟩, ⟨1, 1 / 4⟩] : List (NoteInfo ℝ)) [[0, 1], []] := by
    unfold validTable
    decide
  ⟨hv, Anchorscaler_bounds ⟨Real.sqrt, fun x y => x ^ y, fun _ => 1⟩
    [⟨3, 0⟩, ⟨1, 1 / 4⟩] [[0, 1], []] 0 1 2 hv⟩

/-! ## Intervals without taps -/

/-- Entry `i` of the loop of `Smooth` is the mean of the input at `i` and the two values
before it, where the remembered values `f2`, `f3` precede the input. -/
theorem SmoothLoop_getD : ∀ (input : List F) (f2 f3 : F) (i : Nat), i < input.length →
    (SmoothLoop f2 f3 input).getD i 0 =
      ((f2 :: f3 :: input).getD i 0 + (f2 :: f3 :: input).getD (i + 1) 0 + input.getD i 0) / 3
  | [], _, _, i, h => absurd h (Nat.not_lt_zero i)
  | x :: rest, f2, f3, 0, _ => by simp [SmoothLoop]
  | x :: rest, f2, f3, j + 1, h => by
    have ih := SmoothLoop_getD rest f3 x j (by simpa using h)
    simp only [SmoothLoop, List.getD_cons_succ]
    exact ih

/-- Where the value a downscaler computed for interval `i` is 1, the value it returns for
that interval is the mean of 1 and the computed values of the two intervals before it. -/
theorem finishPattern_getD_of_one (raw : List F) (i : Nat) (hi : i < raw.length)
    (h1 : raw.getD i 0 = 1) : (finishPattern raw).getD i 0 = smoothedNeutralAt raw i := by
  unfold finishPattern SmoothPatterns Smooth smoothedNeutralAt
  simp only [if_true]
  rw [SmoothLoop_getD raw 1 1 i hi, h1]

/-- A left fold whose step leaves the start value unchanged on every element returns the
start value. -/
theorem foldl_fixed {α β : Type} (f : β → α → β) (init : β) :
    ∀ l : List α, (∀ x ∈ l, f init x = init) → l.foldl f init = init
  | [], _ => rfl
  | a :: l, h => by
    rw [List.foldl_cons, h a (List.mem_cons_self a l)]
    exact foldl_fixed f init l (fun x hx => h x (List.mem_cons_of_mem a hx))

/-- Rows without notes leave the counters of `OHJumpDownscaler` at zero. -/
theorem ohjumpCounts_no_taps (firstNote secondNote : Nat) (rows : List (NoteInfo F))
    (h : ∀ row ∈ rows, row.notes = 0) : ohjumpCounts firstNote secondNote rows = (0, 0) := by
  unfold ohjumpCounts
  apply foldl_fixed
  intro row hrow
  simp [hasNote, h row hrow]

/-- Rows without notes leave the counters of `Anchorscaler` at zero. -/
theorem anchorCounts_no_taps (firstNote secondNote : Nat) (rows : List (NoteInfo F))
    (h : ∀ row ∈ rows, row.notes = 0) : anchorCounts firstNote secondNote rows = (0, 0) := by
  unfold anchorCounts
  apply foldl_fixed
  intro row hrow
  simp [hasNote, h row hrow]

/-- Rows without notes leave the tap counter of `HSDownscaler` and `JumpDownscaler` at
zero. -/
theorem chordCounts_no_taps (k : Nat) (hk : 0 < k) (rows : List (NoteInfo F))
    (h : ∀ row ∈ rows, row.notes = 0) : chordCounts k rows = (0, 0) := by
  unfold chordCounts
  apply foldl_fixed
  intro row hrow
  have hk' : ¬ (0 = k) := by omega
  simp [column_count, h row hrow, hk']

/-- The value a downscaler reads at an index of a mapped series. -/
theorem getD_map_of_lt {α : Type} (g : α → F) (d : α) :
    ∀ (l : List α) (i : Nat), i < l.length → (l.map g).getD i 0 = g (l.getD i d)
  | [], i, h => absurd h (Nat.not_lt_zero i)
  | _ :: _, 0, _ => by simp
  | _ :: l, j + 1, h => by
    simp only [List.map_cons, List.getD_cons_succ]
    exact getD_map_of_lt g d l j (by simpa using h)

/-- C10 as stated fails: with the real square root, for the one-row chart whose row is a
2-note chord in interval 0, interval 1 contains no taps, yet the multiplier `JumpDownscaler`
returns for interval 1 is smaller than 1, because the smoothing averages it with the value of
interval 0. -/
theorem JumpDownscaler_zero_tap_counterexample :
    ∃ out : List ℝ,
      JumpDownscaler ⟨Real.sqrt, fun x y => x ^ y, fun _ => 1⟩ [⟨3, 0⟩] [[0], []] = some out ∧
      ([[0], []] : List (List Nat)).getD 1 [0] = [] ∧
      out.getD 1 0 < 1 := by
  have hr : Real.sqrt (Real.sqrt (1 - 1 / 2 / 3)) < 1 := by
    have h1 : Real.sqrt (1 - 1 / 2 / 3) < 1 := by
      rw [Real.sqrt_lt' (by norm_num)]
      norm_num
    rw [Real.sqrt_lt' (by norm_num)]
    simpa using h1
  refine ⟨[(1 + 1 + Real.sqrt (Real.sqrt (1 - 1 / 2 / 3))) / 3,
    (1 + Real.sqrt (Real.sqrt (1 - 1 / 2 / 3)) + 1) / 3], ?_, rfl, ?_⟩
  · have hlook : ([[0], []] : List (List Nat)).mapM
        (lookupRows ([⟨3, 0⟩] : List (NoteInfo ℝ))) = some [[⟨3, 0⟩], []] := rfl
    unfold JumpDownscaler
    rw [mapM_option_fmap, hlook]
    simp [finishPattern, SmoothPatterns, Smooth, SmoothLoop, JumpRaw, chordCounts, column_count]
  · simp only [List.getD_cons_succ, List.getD_cons_zero]
    linarith

/-- C10, amended: in each of the five downscalers the multiplier computed for an interval
without taps is exactly 1 before the smoothing, and the multiplier returned for it is the
mean of that 1 and the computed multipliers of the two preceding intervals (1 where there is
no such interval). -/
theorem downscalers_zero_tap_interval (M : MathFns F) (note_info : List (NoteInfo F))
    (nerv : List (List Nat)) (firstNote secondNote : Nat) (fingerbias : F) (f1 f2 : Finger F)
    (intervals : List (List (NoteInfo F))) (gaps : List (List F × List F)) (i : Nat)
    (hlook : nerv.mapM (lookupRows note_info) = some intervals)
    (hzip : zipRows f1 f2 = some gaps)
    (hi : i < intervals.length) (hj : i < gaps.length)
    (hrows : ∀ row ∈ intervals.getD i [], row.notes = 0)
    (hgaps : gaps.getD i ([], []) = ([], [])) :
    (OHJumpRaw M firstNote secondNote (intervals.getD i []) = 1 ∧
      AnchorRaw M firstNote secondNote (intervals.getD i []) = 1 ∧
      HSRaw M (intervals.getD i []) = 1 ∧
      JumpRaw M (intervals.getD i []) = 1 ∧
      RollRaw M (gaps.getD i ([], [])) = 1) ∧
    (∃ out, OHJumpDownscaler M note_info nerv firstNote secondNote = some out ∧
      out.getD i 0 = smoothedNeutralAt (intervals.map (OHJumpRaw M firstNote secondNote)) i) ∧
    (∃ out fb, Anchorscaler M note_info nerv fingerbias firstNote secondNote = some (out, fb) ∧
      out.getD i 0 = smoothedNeutralAt (intervals.map (AnchorRaw M firstNote secondNote)) i) ∧
    (∃ out, HSDownscaler M note_info nerv = some out ∧
      out.getD i 0 = smoothedNeutralAt (intervals.map (HSRaw M)) i) ∧
    (∃ out, JumpDownscaler M note_info nerv = some out ∧
      out.getD i 0 = smoothedNeutralAt (intervals.map (JumpRaw M)) i) ∧
    (∃ out, RollDownscaler M f1 f2 = some out ∧
      out.getD i 0 = smoothedNeutralAt (gaps.map (RollRaw M)) i) := by
  have hoh : OHJumpRaw M firstNote secondNote (intervals.getD i []) = 1 := by
    unfold OHJumpRaw
    rw [ohjumpCounts_no_taps firstNote secondNote _ hrows]
    simp
  have han : AnchorRaw M firstNote secondNote (intervals.getD i []) = 1 := by
    unfold AnchorRaw
    rw [anchorCounts_no_taps firstNote secondNote _ hrows]
    simp
  have hhs : HSRaw M (intervals.getD i []) = 1 := by
    unfold HSRaw
    rw [chordCounts_no_taps 3 (by decide) _ hrows]
    simp
  have hju : JumpRaw M (intervals.getD i []) = 1 := by
    unfold JumpRaw
    rw [chordCounts_no_taps 2 (by decide) _ hrows]
    simp
  have hro : RollRaw M (gaps.getD i ([], [])) = 1 := by
    rw [hgaps]
    simp [RollRaw]
  have hat : ∀ g : List (NoteInfo F) → F, g (intervals.getD i []) = 1 →
      (finishPattern (intervals.map g)).getD i 0 = smoothedNeutralAt (intervals.map g) i := by
    intro g hg
    apply finishPattern_getD_of_one
    · simpa using hi
    · rw [getD_map_of_lt g [] intervals i hi, hg]
  refine ⟨⟨hoh, han, hhs, hju, hro⟩, ?_, ?_, ?_, ?_, ?_⟩
  · refine ⟨finishPattern (intervals.map (OHJumpRaw M firstNote secondNote)), ?_, hat _ hoh⟩
    unfold OHJumpDownscaler
    rw [mapM_option_fmap, hlook]
    rfl
  · refine ⟨finishPattern (intervals.map (AnchorRaw M firstNote secondNote)),
      intervals.foldl (fun fb rows => fb + anchorBias firstNote secondNote rows) fingerbias,
      ?_, hat _ han⟩
    unfold Anchorscaler
    rw [hlook]
    rfl
  · refine ⟨finishPattern (intervals.map (HSRaw M)), ?_, hat _ hhs⟩
    unfold HSDownscaler
    rw [mapM_option_fmap, hlook]
    rfl
  · refine ⟨finishPattern (intervals.map (JumpRaw M)), ?_, hat _ hju⟩
    unfold JumpDownscaler
    rw [mapM_option_fmap, hlook]
    rfl
  · refine ⟨finishPattern (gaps.map (RollRaw M)), ?_, ?_⟩
    · unfold RollDownscaler
      rw [hzip]
      rfl
    · apply finishPattern_getD_of_one
      · simpa using hj
      · rw [getD_map_of_lt (RollRaw M) ([], []) gaps i hj, hro]

/-- C10, amended, at a concrete input: a one-row chart over the rationals whose row is a
2-note chord in interval 0; interval 1 has no taps and no gaps. -/
theorem downscalers_zero_tap_interval_witness :
    (([[0], []] : List (List Nat)).mapM (lookupRows ([⟨3, 0⟩] : List (NoteInfo ℚ))) =
        some [[⟨3, 0⟩], []] ∧
      zipRows ([[100], []] : Finger ℚ) ([[100], []] : Finger ℚ) =
        some [([100], [100]), ([], [])]) ∧
    JumpRaw (F := ℚ) ⟨id, fun x _ => x, id⟩
      (([[⟨3, 0⟩], []] : List (List (NoteInfo ℚ))).getD 1 []) = 1 :=
  have hlook : ([[0], []] : List (List Nat)).mapM (lookupRows ([⟨3, 0⟩] : List (NoteInfo ℚ))) =
      some [[⟨3, 0⟩], []] := rfl
  have hzip : zipRows ([[100], []] : Finger ℚ) ([[100], []] : Finger ℚ) =
      some [([100], [100]), ([], [])] := by
    simp [zipRows]
  ⟨⟨hlook, hzip⟩,
    (downscalers_zero_tap_interval (F := ℚ) ⟨id, fun x _ => x, id⟩ [⟨3, 0⟩] [[0], []] 1 2 0
      [[100], []] [[100], []] [[⟨3, 0⟩], []] [([100], [100]), ([], [])] 1 hlook hzip
      (by decide) (by decide) (by simp) (by simp)).1.2.2.2.1⟩

/-! ## Divisors -/

/-- Running `InitHand` on the one-row chart whose row at time 1 has no notes, with two intervals and
an empty membership table: it returns, adds two intervals without points to the hand, and
leaves the interval count and the table as they were. -/
theorem InitHand_tapless (M : MathFns ℚ) (c : Calc ℚ) (hand : Hand ℚ) (f1 f2 : Nat)
    (hnum : c.numitv = 2) (hnerv : c.nervIntervals = [[], []]) :
    ∃ h' c', InitHand M c hand [⟨0, 1⟩] f1 f2 1 = some (h', c') ∧
      h'.v_itvpoints = hand.v_itvpoints ++ [0, 0] ∧ c'.numitv = 2 ∧
      c'.nervIntervals = [[], []] ∧ c'.left_hand = c.left_hand ∧
      c'.right_hand = c.right_hand := by
  have hp : ∀ (nerv : List (List Nat)) (t : Nat),
      ProcessFinger (F := ℚ) 2 nerv [⟨0, 1⟩] t 1 = some ([[], []], nerv) := by
    intro nerv t
    simp [ProcessFinger, makeRows, ProcessFingerLoop]
  have hd : ∃ h', InitDiff hand [[], []] [[], []] = some (h', [[], []], [[], []]) ∧
      h'.v_itvpoints = hand.v_itvpoints := by
    simp [InitDiff, zipRows, InitDiffRow, CalcMSEstimate]
  obtain ⟨h1, hd1, hd2⟩ := hd
  have hpts : InitPoints h1 [[], []] [[], []] =
      some { h1 with v_itvpoints := h1.v_itvpoints ++ [0, 0] } := by
    simp [InitPoints, zipRows]
  have hlook : ([[], []] : List (List Nat)).mapM
      (lookupRows ([⟨0, 1⟩] : List (NoteInfo ℚ))) = some [[], []] := rfl
  have hoh : OHJumpDownscaler M [⟨0, 1⟩] [[], []] (1 <<< f1) (1 <<< f2) =
      some (finishPattern ([[], []].map (OHJumpRaw M (1 <<< f1) (1 <<< f2)))) := by
    unfold OHJumpDownscaler
    rw [mapM_option_fmap, hlook]
    rfl
  have han : Anchorscaler M [⟨0, 1⟩] [[], []] c.fingerbias (1 <<< f1) (1 <<< f2) =
      some (finishPattern ([[], []].map (AnchorRaw M (1 <<< f1) (1 <<< f2))),
        ([[], []] : List (List (NoteInfo ℚ))).foldl
          (fun fb rows => fb + anchorBias (1 <<< f1) (1 <<< f2) rows) c.fingerbias) := by
    unfold Anchorscaler
    rw [hlook]
    rfl
  have hro : RollDownscaler M ([[], []] : Finger ℚ) [[], []] =
      some (finishPattern ([([], []), ([], [])].map (RollRaw M))) := rfl
  have hhs : HSDownscaler M [⟨0, 1⟩] [[], []] =
      some (finishPattern ([[], []].map (HSRaw M))) := by
    unfold HSDownscaler
    rw [mapM_option_fmap, hlook]
    rfl
  have hju : JumpDownscaler M [⟨0, 1⟩] [[], []] =
      some (finishPattern ([[], []].map (JumpRaw M))) := by
    unfold JumpDownscaler
    rw [mapM_option_fmap, hlook]
    rfl
  simp only [InitHand, hnum, hnerv, hp, hd1, hpts, hoh, han, hro, hhs, hju,
    Option.bind_eq_bind, Option.some_bind, Option.pure_def]
  exact ⟨_, _, rfl, by simp [hd2], rfl, rfl, rfl, rfl⟩

/-- C6, the failing input: for the non-empty chart whose single row, at time 1, has no notes
and rate 1, the tap count by which `chord_proportion` divides is 0, and `Init` returns with
`MaxPoints = 0`, the divisor of `CalcScoreForPlayerSkill`. -/
theorem tapless_chart_zero_divisors (M : MathFns ℚ) :
    (chord_counts ([⟨0, 1⟩] : List (NoteInfo ℚ)) 2).1 = 0 ∧
    ∃ c, Init M (Calc.fresh : Calc ℚ) [⟨0, 1⟩] 1 = some c ∧ c.MaxPoints = 0 := by
  have hc : (⌈(1 : ℚ) / (1 * IntervalSpan)⌉ : Int) = 2 := by
    norm_num [IntervalSpan]
  constructor
  · simp [chord_counts, column_count]
  · obtain ⟨l, cl, hl, hlp, hln, hlt, _, hlr⟩ := InitHand_tapless M
      { (Calc.fresh : Calc ℚ) with numitv := 2, nervIntervals := [[], []] }
      (Calc.fresh : Calc ℚ).left_hand 0 1 rfl rfl
    obtain ⟨r, cr, hr, hrp, _, _, hrl, _⟩ := InitHand_tapless M
      { cl with left_hand := l } cl.right_hand 2 3 hln hlt
    have hinit : Init M (Calc.fresh : Calc ℚ) [⟨0, 1⟩] 1 = (do
        let l ← InitHand M
          { (Calc.fresh : Calc ℚ) with numitv := 2, nervIntervals := [[], []] }
          (Calc.fresh : Calc ℚ).left_hand [⟨0, 1⟩] 0 1 1
        let c2 : Calc ℚ := { l.2 with left_hand := l.1 }
        let r ← InitHand M c2 c2.right_hand [⟨0, 1⟩] 2 3 1
        let c3 : Calc ℚ := { r.2 with right_hand := r.1 }
        let pts ← zipRows c3.left_hand.v_itvpoints c3.right_hand.v_itvpoints
        pure { c3 with
          j0 := SequenceJack [⟨0, 1⟩] 0 1
          j1 := SequenceJack [⟨0, 1⟩] 1 1
          j2 := SequenceJack [⟨0, 1⟩] 2 1
          j3 := SequenceJack [⟨0, 1⟩] 3 1
          MaxPoints := pts.foldl (fun acc p => acc + ((p.1 + p.2 : Int) : ℚ)) 0
          fingerbias := c3.fingerbias / ((2 * c3.nervIntervals.length : Nat) : ℚ) }) := by
      simp only [Init, List.getLast?_singleton, hc, makeRows, Option.bind_eq_bind,
        Option.some_bind]
      rfl
    rw [hinit, hl]
    simp only [Option.bind_eq_bind, Option.some_bind]
    rw [hr]
    simp only [Option.bind_eq_bind, Option.some_bind]
    have h1 : cr.left_hand.v_itvpoints = [0, 0] := by
      rw [hrl, hlp]
      rfl
    have h2 : r.v_itvpoints = [0, 0] := by
      rw [hrp, hlr]
      rfl
    rw [h1, h2]
    exact ⟨_, rfl, by simp⟩

/-! ## The stamina cap -/

/-- C17 as stated fails: when stream, jack, jumpstream and handstream are all 1/2 the cap
`1.1 × max` is 0.55, and a stamina of 1/2 leaves the step as 1, the lower bound of the clamp,
which is above the cap. -/
theorem capStamina_counterexample :
    (capStamina (⟨0, 1 / 2, 1 / 2, 1 / 2, 1 / 2, 1 / 2, 0, 0⟩ : DifficultyRating ℚ)).stamina = 1 ∧
    ¬ ((capStamina (⟨0, 1 / 2, 1 / 2, 1 / 2, 1 / 2, 1 / 2, 0, 0⟩ : DifficultyRating ℚ)).stamina
        ≤ max (max (1 / 2 : ℚ) (1 / 2)) (max (1 / 2) (1 / 2)) * 1.1) := by
  have h : (capStamina (⟨0, 1 / 2, 1 / 2, 1 / 2, 1 / 2, 1 / 2, 0, 0⟩ :
      DifficultyRating ℚ)).stamina = 1 := by
    norm_num [capStamina, CalcClamp]
  rw [h]
  constructor
  · rfl
  · norm_num

/-- C17, amended: for all values entering the stamina cap step, the stamina after the step is
at most `1.1 × max(stream, jack, jumpstream, handstream)` or it is exactly 1, the lower bound
of the clamp; in every case it is at most the larger of 1 and that cap. -/
theorem capStamina_le (d : DifficultyRating F) :
    ((capStamina d).stamina ≤ max (max d.stream d.jack) (max d.jumpstream d.handstream) * 1.1 ∨
      (capStamina d).stamina = 1) ∧
    (capStamina d).stamina ≤
      max 1 (max (max d.stream d.jack) (max d.jumpstream d.handstream) * 1.1) := by
  have hval : (capStamina d).stamina =
      CalcClamp d.stamina 1 (max (max d.stream d.jack) (max d.jumpstream d.handstream) * 1.1) :=
    rfl
  rw [hval]
  unfold CalcClamp
  split_ifs with h1 h2
  · exact ⟨Or.inl (le_refl _), le_max_right _ _⟩
  · exact ⟨Or.inr rfl, le_max_left _ _⟩
  · exact ⟨Or.inl (not_lt.mp h1), le_trans (not_lt.mp h1) (le_max_right _ _)⟩

/-! ## The gaps rewritten by RollDownscaler -/

/-- C20 as stated fails: for the two gaps 40 and 1000, with mean 520, the gap 40 is smaller
than 60% of the mean and stays as it is, while the gap 1000, which is not smaller than 60%
of the mean, is replaced by the mean. -/
theorem rollGaps_counterexample :
    rollGaps ([40, 1000] : List ℚ) = [40, 520] ∧
    (40 : ℚ) < 0.6 * mean ([40, 1000] : List ℚ) ∧
    ¬ ((1000 : ℚ) < 0.6 * mean ([40, 1000] : List ℚ)) := by
  have hm : mean ([40, 1000] : List ℚ) = 520 := by
    norm_num [mean]
  refine ⟨?_, ?_, ?_⟩
  · unfold rollGaps
    simp only [hm, List.map_cons, List.map_nil]
    norm_num
  · rw [hm]
    norm_num
  · rw [hm]
    norm_num

/-- C20, amended: in `RollDownscaler`, for every interval with at least two gaps, all of them
positive, before the coefficient of variation is computed every gap `g` with
`mean / g < 0.6`, that is every gap larger than `mean / 0.6`, is replaced by the mean of the
interval's gaps, and no other gap is changed; the value stored for the interval is computed
from the gaps so rewritten. -/
theorem rollGaps_replaces_large (M : MathFns F) (r : List F × List F)
    (h2 : 2 ≤ r.1.length + r.2.length) (hpos : ∀ g ∈ r.1 ++ r.2, 0 < g) :
    rollGaps (r.1 ++ r.2) =
      (r.1 ++ r.2).map (fun g => if mean (r.1 ++ r.2) < 0.6 * g then mean (r.1 ++ r.2) else g) ∧
    (rollGaps (r.1 ++ r.2)).length = r.1.length + r.2.length ∧
    RollRaw M r =
      (if cv M (rollGaps (r.1 ++ r.2)) + 0.85 ≥ 1 then
        min (M.sqrt (M.sqrt (cv M (rollGaps (r.1 ++ r.2)) + 0.85))) 1.075
      else (cv M (rollGaps (r.1 ++ r.2)) + 0.85) * (cv M (rollGaps (r.1 ++ r.2)) + 0.85)
        * (cv M (rollGaps (r.1 ++ r.2)) + 0.85)) := by
  refine ⟨?_, ?_, ?_⟩
  · unfold rollGaps
    apply List.map_congr_left
    intro g hg
    have hg0 : 0 < g := hpos g hg
    have hiff : mean (r.1 ++ r.2) / g < 0.6 ↔ mean (r.1 ++ r.2) < 0.6 * g := by
      rw [div_lt_iff₀ hg0]
    by_cases hc : mean (r.1 ++ r.2) / g < 0.6
    · rw [if_pos hc, if_pos (hiff.mp hc)]
    · rw [if_neg hc, if_neg (fun h => hc (hiff.mpr h))]
  · simp [rollGaps]
  · unfold RollRaw
    rw [if_neg (by omega)]

/-- C20, amended, at a concrete input: the gaps 40 (first finger) and 1000 (second finger)
over the rationals. -/
theorem rollGaps_replaces_large_witness :
    (2 ≤ ([40] : List ℚ).length + ([1000] : List ℚ).length ∧
      ∀ g ∈ ([40] : List ℚ) ++ [1000], 0 < g) ∧
    rollGaps (([40] : List ℚ) ++ [1000]) =
      (([40] : List ℚ) ++ [1000]).map
        (fun g => if mean (([40] : List ℚ) ++ [1000]) < 0.6 * g
          then mean (([40] : List ℚ) ++ [1000]) else g) :=
  have hpos : ∀ g ∈ ([40] : List ℚ) ++ [1000], 0 < g := by
    intro g hg
    simp at hg
    rcases hg with rfl | rfl <;> norm_num
  ⟨⟨by decide, hpos⟩,
    (rollGaps_replaces_large (F := ℚ) ⟨id, fun x _ => x, id⟩ ([40], [1000])
      (by decide) hpos).1⟩

/-! ## Termination of the solver with the 100 limit -/

/-- With the 100 limit the inner loop of `approximate` ends within `fuel + 1` evaluations of
the predicate, whatever the predicate returns, once `fuel` steps take the value above 100;
a value at which it falls out of the loop is not below the start. -/
theorem approximateWhile_limit_some (P : F → Bool) (res : F) (hres : 0 < res) :
    ∀ (fuel : Nat) (x : F), 100 < x + (fuel : F) * res →
      ∃ e, approximateWhile P true res (fuel + 1) x = some e ∧
        ∀ v, e = LoopExit.fell v → x ≤ v
  | 0, x, h => by
    unfold approximateWhile
    have hx : x > 100 := by simpa using h
    cases hP : P x with
    | false =>
      refine ⟨LoopExit.fell x, by simp, ?_⟩
      intro v hv
      cases hv
      exact le_refl x
    | true =>
      refine ⟨LoopExit.returned x, by simp [hx], ?_⟩
      intro v hv
      cases hv
  | k + 1, x, h => by
    unfold approximateWhile
    cases hP : P x with
    | false =>
      refine ⟨LoopExit.fell x, by simp, ?_⟩
      intro v hv
      cases hv
      exact le_refl x
    | true =>
      by_cases hx : x > 100
      · refine ⟨LoopExit.returned x, by simp [hx], ?_⟩
        intro v hv
        cases hv
      · have hnext : 100 < (x + res) + (k : F) * res := by
          have : ((k + 1 : Nat) : F) = (k : F) + 1 := by push_cast; ring
          rw [this] at h
          linarith
        obtain ⟨e, he, hv⟩ := approximateWhile_limit_some P res hres k (x + res) hnext
        refine ⟨e, by simp [hx, he], ?_⟩
        intro v hev
        have := hv v hev
        linarith

/-- With the 100 limit `approximate` returns for every predicate when each inner loop may
evaluate the predicate `fuel + 1` times and `fuel` steps of the last round's size take the
value from two resolutions below the start to above 100. -/
theorem approximate_limit_some (P : F → Bool) (fuel : Nat) :
    ∀ (n : Nat) (x r : F), 0 < r → 100 < x - 2 * r + (fuel : F) * (r / 2 ^ n) →
      ∃ v, approximate (fuel + 1) x r n P true = some v
  | 0, x, r, _, _ => ⟨x + 2 * r, rfl⟩
  | n + 1, x, r, hr, h => by
    have hpow : (0 : F) < 2 ^ (n + 1) := by positivity
    have hle : r / 2 ^ (n + 1) ≤ r := by
      rw [div_le_iff₀ hpow]
      have : (1 : F) ≤ 2 ^ (n + 1) := one_le_pow₀ (by norm_num)
      nlinarith
    have hfuel : (0 : F) ≤ (fuel : F) := Nat.cast_nonneg fuel
    have hfirst : 100 < x + (fuel : F) * r := by
      have : (fuel : F) * (r / 2 ^ (n + 1)) ≤ (fuel : F) * r :=
        mul_le_mul_of_nonneg_left hle hfuel
      linarith
    obtain ⟨e, he, hv⟩ := approximateWhile_limit_some P r hr fuel x hfirst
    unfold approximate
    rw [he]
    cases e with
    | returned v => exact ⟨v, rfl⟩
    | fell v =>
      have hxv : x ≤ v := hv v rfl
      have hhalf : r / 2 / 2 ^ n = r / 2 ^ (n + 1) := by
        rw [pow_succ, div_div, mul_comm]
      have hnext : 100 < (v - r) - 2 * (r / 2) + (fuel : F) * (r / 2 / 2 ^ n) := by
        rw [hhalf]
        linarith
      exact approximate_limit_some P fuel n (v - r) (r / 2) (by linarith) hnext

/-- C19: for every start value and every positive resolution there is a number `N` of
predicate evaluations per inner loop within which `approximate`, run with the 100 limit and
7 rounds, returns, whatever the predicate returns; in particular `Chisel` returns for every
`Calc` state, score goal and flag set. -/
theorem Chisel_terminates [Archimedean F] (player_skill resolution : F)
    (hres : 0 < resolution) :
    ∃ N : Nat,
      (∀ (P : F → Bool) (fuel : Nat), N ≤ fuel →
        ∃ v, approximate fuel player_skill resolution 7 P true = some v) ∧
      (∀ (M : MathFns F) (c : Calc F) (score_goal : F) (flags : ChiselFlags) (fuel : Nat),
        N ≤ fuel → ∃ v, Chisel M fuel c player_skill resolution score_goal flags = some v) := by
  have hstep : (0 : F) < resolution / 2 ^ 7 := by positivity
  obtain ⟨m, hm⟩ := exists_nat_gt ((100 - player_skill + 2 * resolution) / (resolution / 2 ^ 7))
  have key : ∀ (P : F → Bool) (fuel : Nat), m + 1 ≤ fuel →
      ∃ v, approximate fuel player_skill resolution 7 P true = some v := by
    intro P fuel hfuel
    obtain ⟨k, rfl⟩ : ∃ k, fuel = k + 1 := ⟨fuel - 1, by omega⟩
    apply approximate_limit_some P k 7 player_skill resolution hres
    have hk : (m : F) ≤ (k : F) := by exact_mod_cast (by omega : m ≤ k)
    rw [div_lt_iff₀ hstep] at hm
    have : (m : F) * (resolution / 2 ^ 7) ≤ (k : F) * (resolution / 2 ^ 7) :=
      mul_le_mul_of_nonneg_right hk (le_of_lt hstep)
    linarith
  refine ⟨m + 1, key, ?_⟩
  intro M c score_goal flags fuel hfuel
  exact key _ fuel hfuel

/-- C19, at a concrete input: the start value 0.1 and the resolution 10.24 of the five
solves of `CalcMain`, over the rationals. -/
theorem Chisel_terminates_witness :
    (0 : ℚ) < 10.24 ∧
    ∃ N : Nat,
      (∀ (P : ℚ → Bool) (fuel : Nat), N ≤ fuel →
        ∃ v, approximate fuel (0.1 : ℚ) 10.24 7 P true = some v) ∧
      (∀ (M : MathFns ℚ) (c : Calc ℚ) (score_goal : ℚ) (flags : ChiselFlags) (fuel : Nat),
        N ≤ fuel → ∃ v, Chisel M fuel c 0.1 10.24 score_goal flags = some v) :=
  ⟨by norm_num, Chisel_terminates (F := ℚ) 0.1 10.24 (by norm_num)⟩

/-! ## SequenceJack -/

/-- The loop of `SequenceJack` computes the local jack difficulty of every three successive
gaps, where the two remembered gaps precede the gaps of the taps still to come. -/
theorem SequenceJackLoop_eq (t : Nat) (music_rate : F) :
    ∀ (rows : List (NoteInfo F)) (last i2 i3 : F),
      SequenceJackLoop t music_rate last i2 i3 rows =
        jackWindows (i2 :: i3 :: gapsFrom last (tapTimes rows t music_rate))
  | [], _, _, _ => rfl
  | row :: rest, last, i2, i3 => by
    unfold SequenceJackLoop
    by_cases hb : row.notes &&& (1 <<< t) ≠ 0
    · have ht : tapTimes (row :: rest) t music_rate =
          row.rowTime / music_rate :: tapTimes rest t music_rate := by
        simp [tapTimes, hb]
      rw [if_pos hb, ht]
      simp only [gapsFrom, jackWindows]
      rw [SequenceJackLoop_eq t music_rate rest]
      congr 1
      unfold jackValue
      rw [← mul_div_assoc, mul_comm (1000 * (row.rowTime / music_rate - last)) 1.4]
      norm_num
    · have ht : tapTimes (row :: rest) t music_rate = tapTimes rest t music_rate := by
        simp only [tapTimes]
        rw [List.filter_cons_of_neg (by simpa using hb)]
      rw [if_neg hb, ht]
      exact SequenceJackLoop_eq t music_rate rest last i2 i3

/-- One gap per time. -/
theorem gapsFrom_length : ∀ (times : List F) (last : F), (gapsFrom last times).length = times.length
  | [], _ => rfl
  | _ :: rest, _ => by simp [gapsFrom, gapsFrom_length rest]

/-- One local jack difficulty per gap after the first two. -/
theorem jackWindows_length : ∀ (l : List F) (a b : F), (jackWindows (a :: b :: l)).length = l.length
  | [], _, _ => rfl
  | g :: rest, _, b => by simp [jackWindows, jackWindows_length rest b g]

/-- Times that ascend strictly from `last` have positive gaps. -/
theorem gapsFrom_pos : ∀ (times : List F) (last : F), List.Chain (fun a b => a < b) last times →
    ∀ g ∈ gapsFrom last times, 0 < g
  | [], _, _, g, hg => by simp [gapsFrom] at hg
  | time :: rest, last, hc, g, hg => by
    rw [List.chain_cons] at hc
    simp only [gapsFrom, List.mem_cons] at hg
    rcases hg with rfl | hg
    · linarith [hc.1]
    · exact gapsFrom_pos rest time hc.2 g hg

/-- The local jack difficulty of two non-negative gaps followed by a positive one is positive
and at most 50. -/
theorem jackValue_bounds (g1 g2 g3 : F) (h1 : 0 ≤ g1) (h2 : 0 ≤ g2) (h3 : 0 < g3) :
    0 < jackValue g1 g2 g3 ∧ jackValue g1 g2 g3 ≤ 50 := by
  unfold jackValue
  have ha : 0 < min ((g1 + g2 + g3) / 3) (1.4 * g3) := by
    apply lt_min
    · apply div_pos _ (by norm_num)
      linarith
    · apply mul_pos (by norm_num) h3
  exact ⟨lt_min (div_pos (by norm_num) ha) (by norm_num), min_le_right _ _⟩

/-- The local jack difficulties of positive gaps preceded by two non-negative gaps are
positive and at most 50. -/
theorem jackWindows_bounds : ∀ (l : List F) (a b : F), 0 ≤ a → 0 ≤ b → (∀ g ∈ l, 0 < g) →
    ∀ v ∈ jackWindows (a :: b :: l), 0 < v ∧ v ≤ 50
  | [], _, _, _, _, _, v, hv => by simp [jackWindows] at hv
  | g :: rest, a, b, ha, hb, hl, v, hv => by
    have hg : 0 < g := hl g (List.mem_cons_self g rest)
    simp only [jackWindows, List.mem_cons] at hv
    rcases hv with rfl | hv
    · exact jackValue_bounds a b g ha hb hg
    · exact jackWindows_bounds rest b g hb (le_of_lt hg)
        (fun x hx => hl x (List.mem_cons_of_mem g hx)) v hv

/-- C18: for every chart with strictly ascending non-negative timestamps, every column and
every positive rate, `SequenceJack` returns one value per tap of the column, in chart order:
the value of a tap is `min(2800 / a, 50)` with `a` the smaller of the mean of the three most
recent gaps and 1.4 times the most recent gap (the first tap measured from time -5 s, and 0
standing for a gap before the first), and every value `v` satisfies `0 < v ≤ 50`. -/
theorem SequenceJack_values (note_info : List (NoteInfo F)) (t : Nat) (music_rate : F)
    (hasc : List.Pairwise (fun a b : NoteInfo F => a.rowTime < b.rowTime) note_info)
    (hnn : ∀ row ∈ note_info, 0 ≤ row.rowTime) (hrate : 0 < music_rate) :
    (SequenceJack note_info t music_rate).length =
      note_info.countP (fun row => decide (row.notes &&& (1 <<< t) ≠ 0)) ∧
    SequenceJack note_info t music_rate =
      jackWindows (0 :: 0 :: gapsFrom (-5) (tapTimes note_info t music_rate)) ∧
    ∀ v ∈ SequenceJack note_info t music_rate, 0 < v ∧ v ≤ 50 := by
  have heq : SequenceJack note_info t music_rate =
      jackWindows (0 :: 0 :: gapsFrom (-5) (tapTimes note_info t music_rate)) :=
    SequenceJackLoop_eq t music_rate note_info (-5) 0 0
  have hchain : List.Chain (fun a b : F => a < b) (-5) (tapTimes note_info t music_rate) := by
    rw [List.chain_iff_pairwise, List.pairwise_cons]
    constructor
    · intro time htime
      obtain ⟨row, hrow, rfl⟩ := List.mem_map.mp htime
      have h0 : 0 ≤ row.rowTime := hnn row (List.mem_of_mem_filter hrow)
      have : 0 ≤ row.rowTime / music_rate := div_nonneg h0 (le_of_lt hrate)
      linarith
    · unfold tapTimes
      rw [List.pairwise_map]
      apply List.Pairwise.imp _ (List.Pairwise.filter _ hasc)
      intro a b hab
      exact div_lt_div_of_pos_right hab hrate
  refine ⟨?_, heq, ?_⟩
  · rw [heq, jackWindows_length, gapsFrom_length]
    simp [tapTimes, List.countP_eq_length_filter]
  · rw [heq]
    exact jackWindows_bounds _ 0 0 (le_refl 0) (le_refl 0)
      (gapsFrom_pos _ (-5) hchain)

/-- C18, at a concrete input: three rows over the rationals, column 0 tapped in the first and
the third row, at rate 1. -/
theorem SequenceJack_values_witness :
    (List.Pairwise (fun a b : NoteInfo ℚ => a.rowTime < b.rowTime)
        [⟨1, 0⟩, ⟨2, 1 / 4⟩, ⟨3, 1 / 2⟩] ∧
      (∀ row ∈ ([⟨1, 0⟩, ⟨2, 1 / 4⟩, ⟨3, 1 / 2⟩] : List (NoteInfo ℚ)), 0 ≤ row.rowTime) ∧
      (0 : ℚ) < 1) ∧
    (SequenceJack ([⟨1, 0⟩, ⟨2, 1 / 4⟩, ⟨3, 1 / 2⟩] : List (NoteInfo ℚ)) 0 1).length =
      ([⟨1, 0⟩, ⟨2, 1 / 4⟩, ⟨3, 1 / 2⟩] : List (NoteInfo ℚ)).countP
        (fun row => decide (row.notes &&& (1 <<< 0) ≠ 0)) :=
  have hasc : List.Pairwise (fun a b : NoteInfo ℚ => a.rowTime < b.rowTime)
      [⟨1, 0⟩, ⟨2, 1 / 4⟩, ⟨3, 1 / 2⟩] := by
    simp only [List.pairwise_cons, List.mem_cons, List.mem_singleton, forall_eq_or_imp,
      forall_eq, List.not_mem_nil, false_implies, implies_true, List.Pairwise.nil, and_true]
    norm_num
  have hnn : ∀ row ∈ ([⟨1, 0⟩, ⟨2, 1 / 4⟩, ⟨3, 1 / 2⟩] : List (NoteInfo ℚ)),
      0 ≤ row.rowTime := by
    intro row hrow
    simp only [List.mem_cons, List.mem_singleton, List.not_mem_nil, or_false] at hrow
    rcases hrow with rfl | rfl | rfl <;> norm_num
  ⟨⟨hasc, hnn, by norm_num⟩,
    (SequenceJack_values [⟨1, 0⟩, ⟨2, 1 / 4⟩, ⟨3, 1 / 2⟩] 0 1 hasc hnn (by norm_num)).1⟩

/-! ## ProcessFinger -/

/-- Appending to the list at an index inside the vector succeeds. -/
theorem pushAt_of_lt {α : Type} (v : List (List α)) (k : Nat) (hk : k < v.length) (x : α) :
    pushAt v (k : Int) x = some (v.set k (v.getD k [] ++ [x])) := by
  show pushAt v (Int.ofNat k) x = _
  simp only [pushAt, hk, dite_true]
  rw [List.getD_eq_getElem v [] hk]

/-- Reading a vector after one of its lists got a new element. -/
theorem getD_set_append {α : Type} (v : List (List α)) (k : Nat) (hk : k < v.length) (x : α)
    (j : Nat) :
    (v.set k (v.getD k [] ++ [x])).getD j [] =
      if j = k then v.getD j [] ++ [x] else v.getD j [] := by
  rw [List.getD_eq_getElem?_getD, List.getElem?_set]
  by_cases hjk : k = j
  · subst hjk
    simp [hk]
  · have hjk' : ¬ j = k := fun h => hjk h.symm
    simp [hjk, hjk', List.getD_eq_getElem?_getD]

/-- Appending one element to one list of a vector adds 1 to the total length. -/
theorem sum_length_set_append {α : Type} (x : α) :
    ∀ (v : List (List α)) (k : Nat), k < v.length →
      ((v.set k (v.getD k [] ++ [x])).map List.length).sum = (v.map List.length).sum + 1
  | [], k, h => absurd h (Nat.not_lt_zero k)
  | a :: v, 0, _ => by
    simp
    omega
  | a :: v, k + 1, h => by
    have ih := sum_length_set_append x v k (by simpa using h)
    simp only [List.set_cons_succ, List.getD_cons_succ, List.map_cons, List.sum_cons, ih]
    omega

/-- The test of column `t` in a row mask reads bit `t`. -/
theorem hasBit_iff (n t : Nat) : n &&& (1 <<< t) ≠ 0 ↔ n / 2 ^ t % 2 = 1 := by
  rw [Nat.one_shiftLeft, Nat.and_two_pow, Nat.testBit_to_div_mod]
  by_cases h : n / 2 ^ t % 2 = 1
  · simp [h]
  · simp [h]

/-- The gaps of interval `j` when a tap is put in front of the list of taps. -/
theorem gapsOfInterval_cons (j : Nat) (idx : Int) (gap : F) (taps : List (Int × F)) :
    gapsOfInterval j ((idx, gap) :: taps) =
      if idx = (j : Int) then gap :: gapsOfInterval j taps else gapsOfInterval j taps := by
  unfold gapsOfInterval
  by_cases h : idx = (j : Int)
  · simp [h]
  · simp [h]

/-- The loop of `ProcessFinger`, run on rows whose interval indices are all among the `n`
intervals: it returns; both vectors keep their `n` intervals; interval `k` has got, after
what it held, the gaps of the taps of the column that fall in it, in chart order; one gap
was stored per tap; the membership table has got only indices of the rows walked, and is
unchanged for a column other than 0. -/
theorem ProcessFingerLoop_spec [FloorRing F] (t : Nat) (music_rate : F) (n : Nat) :
    ∀ (rows : List (NoteInfo F)) (i : Nat) (last : F) (all : Finger F) (nerv : List (List Nat)),
      all.length = n → nerv.length = n →
      (∀ row ∈ rows,
        0 ≤ intervalIndex music_rate row ∧ intervalIndex music_rate row < (n : Int)) →
      ∃ all' nerv', ProcessFingerLoop t music_rate rows i last all nerv = some (all', nerv') ∧
        all'.length = n ∧ nerv'.length = n ∧
        (∀ k, all'.getD k [] =
          all.getD k [] ++ gapsOfInterval k (tapGapsFrom t music_rate last rows)) ∧
        (all'.map List.length).sum = (all.map List.length).sum +
          rows.countP (fun row => decide (row.notes &&& (1 <<< t) ≠ 0)) ∧
        (∀ iv ∈ nerv', ∀ r ∈ iv, (∃ iv0 ∈ nerv, r ∈ iv0) ∨ (i ≤ r ∧ r < i + rows.length)) ∧
        (t ≠ 0 → nerv' = nerv)
  | [], i, last, all, nerv, hall, hnerv, _ => by
    refine ⟨all, nerv, rfl, hall, hnerv, ?_, ?_, ?_, fun _ => rfl⟩
    · intro k
      simp [tapGapsFrom, gapsOfInterval]
    · simp
    · intro iv hiv r hr
      exact Or.inl ⟨iv, hiv, hr⟩
  | row :: rest, i, last, all, nerv, hall, hnerv, hrange => by
    obtain ⟨hk0, hkn⟩ := hrange row (List.mem_cons_self row rest)
    obtain ⟨k, hk⟩ : ∃ k : Nat, intervalIndex music_rate row = (k : Int) :=
      ⟨(intervalIndex music_rate row).toNat, (Int.toNat_of_nonneg hk0).symm⟩
    have hkn' : k < n := by
      rw [hk] at hkn
      exact_mod_cast hkn
    have hk' : truncToInt (row.rowTime / music_rate / IntervalSpan) = (k : Int) := hk
    have hA : ∃ all1 last1,
        (if row.notes &&& (1 <<< t) ≠ 0 then
          (pushAt all (truncToInt (row.rowTime / music_rate / IntervalSpan))
            (CalcClamp (1000 * (row.rowTime / music_rate - last)) 40 5000)).map
              (fun a => (a, row.rowTime / music_rate))
          else some (all, last)) = some (all1, last1) ∧
        all1.length = n ∧
        (∀ j, all1.getD j [] ++ gapsOfInterval j (tapGapsFrom t music_rate last1 rest) =
          all.getD j [] ++ gapsOfInterval j (tapGapsFrom t music_rate last (row :: rest))) ∧
        (all1.map List.length).sum +
            rest.countP (fun row => decide (row.notes &&& (1 <<< t) ≠ 0)) =
          (all.map List.length).sum +
            (row :: rest).countP (fun row => decide (row.notes &&& (1 <<< t) ≠ 0)) := by
      by_cases hb : row.notes &&& (1 <<< t) ≠ 0
      · refine ⟨all.set k (all.getD k [] ++
            [CalcClamp (1000 * (row.rowTime / music_rate - last)) 40 5000]),
          row.rowTime / music_rate, ?_, ?_, ?_, ?_⟩
        · rw [if_pos hb, hk', pushAt_of_lt all k (by omega)]
          rfl
        · simpa using hall
        · intro j
          rw [getD_set_append all k (by omega)]
          simp only [tapGapsFrom, if_pos hb]
          rw [gapsOfInterval_cons, hk]
          by_cases hjk : j = k
          · subst hjk
            simp
          · have : ¬ ((k : Int) = (j : Int)) := by
              intro h
              exact hjk (by exact_mod_cast h.symm)
            simp [hjk, this]
        · rw [sum_length_set_append _ all k (by omega), List.countP_cons]
          rw [if_pos (by simpa using hb)]
          omega
      · refine ⟨all, last, by rw [if_neg hb], hall, ?_, ?_⟩
        · intro j
          simp only [tapGapsFrom, if_neg hb]
        · rw [List.countP_cons]
          rw [if_neg (by simpa using hb)]
          rfl
    have hB : ∃ nerv1,
        (if t = 0 ∧ row.notes ≠ 0 then
          pushAt nerv (truncToInt (row.rowTime / music_rate / IntervalSpan)) i
          else some nerv) = some nerv1 ∧
        nerv1.length = n ∧
        (∀ iv ∈ nerv1, ∀ r ∈ iv, (∃ iv0 ∈ nerv, r ∈ iv0) ∨ r = i) ∧
        (t ≠ 0 → nerv1 = nerv) := by
      by_cases hc : t = 0 ∧ row.notes ≠ 0
      · refine ⟨nerv.set k (nerv.getD k [] ++ [i]), ?_, by simpa using hnerv, ?_, ?_⟩
        · rw [if_pos hc, hk', pushAt_of_lt nerv k (by omega)]
        · intro iv hiv r hr
          rcases List.mem_or_eq_of_mem_set hiv with hmem | heq
          · exact Or.inl ⟨iv, hmem, hr⟩
          · rw [heq, List.mem_append] at hr
            rcases hr with hr | hr
            · left
              have hlt : k < nerv.length := by omega
              refine ⟨nerv[k], List.getElem_mem hlt, ?_⟩
              rw [List.getD_eq_getElem nerv [] hlt] at hr
              exact hr
            · right
              simpa using hr
        · intro ht
          exact absurd hc.1 ht
      · refine ⟨nerv, by rw [if_neg hc], hnerv, ?_, fun _ => rfl⟩
        intro iv hiv r hr
        exact Or.inl ⟨iv, hiv, hr⟩
    obtain ⟨all1, last1, hA1, hA2, hA3, hA4⟩ := hA
    obtain ⟨nerv1, hB1, hB2, hB3, hB4⟩ := hB
    obtain ⟨all', nerv', hL, hL1, hL2, hL3, hL4, hL5, hL6⟩ :=
      ProcessFingerLoop_spec t music_rate n rest (i + 1) last1 all1 nerv1 hA2 hB2
        (fun r hr => hrange r (List.mem_cons_of_mem row hr))
    refine ⟨all', nerv', ?_, hL1, hL2, ?_, ?_, ?_, ?_⟩
    · rw [ProcessFingerLoop]
      simp only []
      rw [hA1]
      simp only []
      rw [hB1]
      exact hL
    · intro j
      rw [hL3 j, hA3 j]
    · rw [hL4, hA4]
    · intro iv hiv r hr
      rcases hL5 iv hiv r hr with ⟨iv1, hiv1, hr1⟩ | ⟨h1, h2⟩
      · rcases hB3 iv1 hiv1 r hr1 with h | h
        · exact Or.inl h
        · right
          rw [h, List.length_cons]
          omega
      · right
        rw [List.length_cons]
        omega
    · intro ht
      rw [hL6 ht, hB4 ht]

/-- Every gap among the taps of a column is clamped into `[40, 5000]`. -/
theorem tapGapsFrom_bounds [FloorRing F] (t : Nat) (music_rate : F) :
    ∀ (rows : List (NoteInfo F)) (last : F), ∀ p ∈ tapGapsFrom t music_rate last rows,
      40 ≤ p.2 ∧ p.2 ≤ 5000
  | [], _, p, hp => by simp [tapGapsFrom] at hp
  | row :: rest, last, p, hp => by
    unfold tapGapsFrom at hp
    by_cases hb : row.notes &&& (1 <<< t) ≠ 0
    · rw [if_pos hb, List.mem_cons] at hp
      rcases hp with rfl | hp
      · exact CalcClamp_bounds _ 40 5000 (by norm_num)
      · exact tapGapsFrom_bounds t music_rate rest _ p hp
    · rw [if_neg hb] at hp
      exact tapGapsFrom_bounds t music_rate rest last p hp

/-- C13: for every chart, column and rate, when the interval index of every row is among the
`n` intervals, `ProcessFinger` returns `n` gap lists; the list of interval `k` holds, in
chart order, exactly one gap for each tap of the column whose row falls in interval `k`,
namely `CalcClamp(1000 × (t / rate − previous tap time of the column), 40, 5000)` with the
first tap measured from -5 s; every stored gap lies in `[40, 5000]`. -/
theorem ProcessFinger_gaps [FloorRing F] (note_info : List (NoteInfo F)) (t : Nat)
    (music_rate : F) (numitv : Int) (n : Nat) (nerv : List (List Nat))
    (hnum : numitv = (n : Int)) (hnerv : nerv.length = n)
    (hrange : intervalsInRange note_info music_rate numitv) :
    ∃ all nerv', ProcessFinger numitv nerv note_info t music_rate = some (all, nerv') ∧
      all.length = n ∧
      (∀ k, all.getD k [] = gapsOfInterval k (tapGapsFrom t music_rate (-5) note_info)) ∧
      (∀ gaps ∈ all, ∀ g ∈ gaps, 40 ≤ g ∧ g ≤ 5000) ∧
      (all.map List.length).sum =
        note_info.countP (fun row => decide (row.notes &&& (1 <<< t) ≠ 0)) := by
  subst hnum
  obtain ⟨all, nerv', hL, hlen, _, hget, hsum, _, _⟩ :=
    ProcessFingerLoop_spec t music_rate n note_info 0 (-5) (List.replicate n []) nerv
      (List.length_replicate n []) hnerv hrange
  have hget' : ∀ k, all.getD k [] =
      gapsOfInterval k (tapGapsFrom t music_rate (-5) note_info) := by
    intro k
    rw [hget k]
    have : (List.replicate n ([] : List F)).getD k [] = [] := by
      rw [List.getD_eq_getElem?_getD, List.getElem?_replicate]
      split_ifs <;> rfl
    rw [this, List.nil_append]
  refine ⟨all, nerv', ?_, hlen, hget', ?_, ?_⟩
  · show (match makeRows (Int.ofNat n) with
      | none => none
      | some all_intervals =>
        ProcessFingerLoop t music_rate note_info 0 (-5) all_intervals nerv) = _
    exact hL
  · intro gaps hgaps g hg
    obtain ⟨k, hk, rfl⟩ := List.getElem_of_mem hgaps
    have hq : all[k] = all.getD k [] := (List.getD_eq_getElem all [] hk).symm
    rw [hq, hget' k] at hg
    unfold gapsOfInterval at hg
    obtain ⟨q, hq1, rfl⟩ := List.mem_map.mp hg
    exact tapGapsFrom_bounds t music_rate note_info (-5) q (List.mem_of_mem_filter hq1)
  · rw [hsum]
    simp

/-- C13, at a concrete input: two taps of column 0 at times 1/4 and 3/4 over the rationals,
rate 1 and two intervals. -/
theorem ProcessFinger_gaps_witness :
    (((2 : Int) = ((2 : Nat) : Int)) ∧ ([[], []] : List (List Nat)).length = 2 ∧
      intervalsInRange ([⟨1, 1 / 4⟩, ⟨1, 3 / 4⟩] : List (NoteInfo ℚ)) 1 2) ∧
    ∃ all nerv', ProcessFinger 2 [[], []] ([⟨1, 1 / 4⟩, ⟨1, 3 / 4⟩] : List (NoteInfo ℚ)) 0 1 =
        some (all, nerv') ∧
      all.length = 2 ∧
      (∀ k, all.getD k [] = gapsOfInterval k
        (tapGapsFrom 0 1 (-5) ([⟨1, 1 / 4⟩, ⟨1, 3 / 4⟩] : List (NoteInfo ℚ)))) ∧
      (∀ gaps ∈ all, ∀ g ∈ gaps, 40 ≤ g ∧ g ≤ 5000) ∧
      (all.map List.length).sum =
        ([⟨1, 1 / 4⟩, ⟨1, 3 / 4⟩] : List (NoteInfo ℚ)).countP
          (fun row => decide (row.notes &&& (1 <<< 0) ≠ 0)) :=
  have hr : intervalsInRange ([⟨1, 1 / 4⟩, ⟨1, 3 / 4⟩] : List (NoteInfo ℚ)) 1 2 := by
    intro row hrow
    simp only [List.mem_cons, List.mem_singleton, List.not_mem_nil, or_false] at hrow
    rcases hrow with rfl | rfl <;> norm_num [intervalIndex, truncToInt, IntervalSpan]
  ⟨⟨rfl, rfl, hr⟩, ProcessFinger_gaps [⟨1, 1 / 4⟩, ⟨1, 3 / 4⟩] 0 1 2 2 [[], []] rfl rfl hr⟩

/-! ## Init -/

/-- Reading `f2[i]` for every index of `f1` succeeds when `f2` is at least as long. -/
theorem zipRows_eq_zip {α β : Type} : ∀ (l1 : List α) (l2 : List β), l1.length ≤ l2.length →
    zipRows l1 l2 = some (l1.zip l2)
  | [], _, _ => by simp [zipRows]
  | _ :: _, [], h => by simp at h
  | a :: l1, b :: l2, h => by
    simp [zipRows, zipRows_eq_zip l1 l2 (by simpa using h)]

/-- The gap list that `CalcMSEstimate` leaves has the length of the one it got. -/
theorem CalcMSEstimate_length (input : List F) :
    (CalcMSEstimate input).2.length = input.length := by
  cases input with
  | nil => rfl
  | cons a rest =>
    unfold CalcMSEstimate
    simp only []
    have hs : (List.insertionSort (fun a b => a ≤ b) (a :: rest)).length = (a :: rest).length :=
      List.length_insertionSort _ _
    cases hsort : List.insertionSort (fun a b => a ≤ b) (a :: rest) with
    | nil => rw [hsort] at hs; exact hs
    | cons b r => rw [hsort] at hs; simpa using hs

/-- The loop of `DifficultyMSSmooth` returns one value per input value. -/
theorem DifficultyMSSmoothLoop_length : ∀ (input : List F) (f2 : F),
    (DifficultyMSSmoothLoop f2 input).length = input.length
  | [], _ => rfl
  | i :: rest, _ => by simp [DifficultyMSSmoothLoop, DifficultyMSSmoothLoop_length rest i]

/-- A downscaler returns one value per value it computed. -/
theorem finishPattern_length (output : List F) :
    (finishPattern output).length = output.length := by
  unfold finishPattern SmoothPatterns Smooth
  simp only [if_true]
  exact SmoothLoop_length output 1 1

/-- The points of two fingers with equally many intervals add up to the number of their
gaps. -/
theorem sum_points_zip : ∀ (f1 f2 : List (List F)), f1.length = f2.length →
    ((f1.zip f2).map (fun r => (r.1.length : Int) + (r.2.length : Int))).sum =
      (((f1.map List.length).sum + (f2.map List.length).sum : Nat) : Int)
  | [], [], _ => rfl
  | [], _ :: _, h => by simp at h
  | _ :: _, [], h => by simp at h
  | a :: f1, b :: f2, h => by
    have ih := sum_points_zip f1 f2 (by simpa using h)
    simp only [List.zip_cons_cons, List.map_cons, List.sum_cons, ih]
    push_cast
    ring

/-- On two fingers with `n` intervals each, `InitDiff` returns: both difficulty series have
`n` entries, the points are untouched, and both fingers keep their `n` intervals and the
number of gaps in each interval. -/
theorem InitDiff_spec (hand : Hand F) (f1 f2 : Finger F) (n : Nat) (h1 : f1.length = n)
    (h2 : f2.length = n) :
    ∃ h' f1' f2', InitDiff hand f1 f2 = some (h', f1', f2') ∧
      h'.v_itvNPSdiff.length = n ∧ h'.v_itvMSdiff.length = n ∧
      h'.v_itvpoints = hand.v_itvpoints ∧
      f1'.length = n ∧ f2'.length = n ∧
      f1'.map List.length = f1.map List.length ∧
      f2'.map List.length = f2.map List.length := by
  have hz : zipRows f1 f2 = some (f1.zip f2) := zipRows_eq_zip f1 f2 (by omega)
  have hzl : (f1.zip f2).length = n := by simp [h1, h2]
  have hdrop : f2.drop f1.length = [] := List.drop_eq_nil_of_le (by omega)
  refine ⟨{ hand with
      v_itvNPSdiff := Smooth (((f1.zip f2).map InitDiffRow).map (fun o => o.1.1)) 0
      v_itvMSdiff :=
        if SmoothDifficulty then
          DifficultyMSSmooth (((f1.zip f2).map InitDiffRow).map (fun o => o.1.2))
        else ((f1.zip f2).map InitDiffRow).map (fun o => o.1.2) },
    ((f1.zip f2).map InitDiffRow).map (fun o => o.2.1),
    ((f1.zip f2).map InitDiffRow).map (fun o => o.2.2) ++ f2.drop f1.length,
    by unfold InitDiff; rw [hz], ?_, ?_, rfl, ?_, ?_, ?_, ?_⟩
  · unfold Smooth
    rw [SmoothLoop_length]
    simp [hzl]
  · unfold SmoothDifficulty DifficultyMSSmooth
    simp only [if_true]
    rw [DifficultyMSSmoothLoop_length]
    simp [hzl]
  · simp [hzl]
  · rw [hdrop]
    simp [hzl]
  · rw [List.map_map, List.map_map]
    have : ((List.length ∘ fun o : (F × F) × (List F × List F) => o.2.1) ∘ InitDiffRow) =
        (fun r : List F × List F => r.1.length) := by
      funext r
      exact CalcMSEstimate_length r.1
    rw [this]
    have hfst : (f1.zip f2).map (fun r => r.1.length) = ((f1.zip f2).map Prod.fst).map List.length := by
      rw [List.map_map]
      rfl
    rw [hfst, List.map_fst_zip f1 f2 (by omega)]
  · rw [hdrop, List.append_nil, List.map_map, List.map_map]
    have : ((List.length ∘ fun o : (F × F) × (List F × List F) => o.2.2) ∘ InitDiffRow) =
        (fun r : List F × List F => r.2.length) := by
      funext r
      exact CalcMSEstimate_length r.2
    rw [this]
    have hsnd : (f1.zip f2).map (fun r => r.2.length) = ((f1.zip f2).map Prod.snd).map List.length := by
      rw [List.map_map]
      rfl
    rw [hsnd, List.map_snd_zip f1 f2 (by omega)]

/-- On two fingers with `n` intervals each, `InitPoints` appends `n` values to the points,
whose sum is the number of gaps of both fingers, and changes nothing else. -/
theorem InitPoints_spec (hand : Hand F) (f1 f2 : Finger F) (n : Nat) (h1 : f1.length = n)
    (h2 : f2.length = n) :
    ∃ pts : List Int, InitPoints hand f1 f2 =
        some { hand with v_itvpoints := hand.v_itvpoints ++ pts } ∧
      pts.length = n ∧
      pts.sum = (((f1.map List.length).sum + (f2.map List.length).sum : Nat) : Int) := by
  refine ⟨(f1.zip f2).map (fun r => (r.1.length : Int) + (r.2.length : Int)), ?_, ?_, ?_⟩
  · unfold InitPoints
    rw [zipRows_eq_zip f1 f2 (by omega)]
  · simp [h1, h2]
  · exact sum_points_zip f1 f2 (by omega)

/-- With a valid membership table a downscaler that computes `g` per interval returns one
value per interval. -/
theorem patternSeries_of_valid (g : List (NoteInfo F) → F) (note_info : List (NoteInfo F))
    (nerv : List (List Nat)) (h : validTable note_info nerv) :
    ∃ out, (nerv.mapM (fun interval => (lookupRows note_info interval).map g)).map
        finishPattern = some out ∧ out.length = nerv.length := by
  obtain ⟨intervals, hlook, hlen⟩ := lookupAll_of_valid note_info nerv h
  refine ⟨finishPattern (intervals.map g), ?_, ?_⟩
  · rw [mapM_option_fmap, hlook]
    rfl
  · rw [finishPattern_length, List.length_map, hlen]

/-- With a valid membership table `Anchorscaler` returns one value per interval. -/
theorem Anchorscaler_of_valid (M : MathFns F) (note_info : List (NoteInfo F))
    (nerv : List (List Nat)) (fingerbias : F) (firstNote secondNote : Nat)
    (h : validTable note_info nerv) :
    ∃ out, Anchorscaler M note_info nerv fingerbias firstNote secondNote = some out ∧
      out.1.length = nerv.length := by
  obtain ⟨intervals, hlook, hlen⟩ := lookupAll_of_valid note_info nerv h
  refine ⟨(finishPattern (intervals.map (AnchorRaw M firstNote secondNote)),
    intervals.foldl (fun fb rows => fb + anchorBias firstNote secondNote rows) fingerbias),
    ?_, ?_⟩
  · unfold Anchorscaler
    rw [hlook]
    rfl
  · rw [finishPattern_length, List.length_map, hlen]

/-- On two fingers with `n` intervals each, `RollDownscaler` returns `n` values. -/
theorem RollDownscaler_spec (M : MathFns F) (f1 f2 : Finger F) (n : Nat) (h1 : f1.length = n)
    (h2 : f2.length = n) :
    ∃ out, RollDownscaler M f1 f2 = some out ∧ out.length = n := by
  refine ⟨finishPattern ((f1.zip f2).map (RollRaw M)), ?_, ?_⟩
  · unfold RollDownscaler
    rw [zipRows_eq_zip f1 f2 (by omega)]
    rfl
  · rw [finishPattern_length]
    simp [h1, h2]

/-- Running `ProcessFinger` with `n` intervals on rows whose interval indices are all among
them: it returns `n` gap lists holding one gap per tap of the column, and a membership table
that has `n` intervals and is valid if the one it got was. -/
theorem ProcessFinger_run [FloorRing F] (note_info : List (NoteInfo F)) (t : Nat)
    (music_rate : F) (n : Nat) (nerv : List (List Nat)) (hnerv : nerv.length = n)
    (hrange : intervalsInRange note_info music_rate (n : Int)) :
    ∃ all nerv', ProcessFinger (n : Int) nerv note_info t music_rate = some (all, nerv') ∧
      all.length = n ∧ nerv'.length = n ∧
      (all.map List.length).sum =
        note_info.countP (fun row => decide (row.notes &&& (1 <<< t) ≠ 0)) ∧
      (validTable note_info nerv → validTable note_info nerv') := by
  obtain ⟨all, nerv', hL, hlen, hlen', _, hsum, hmem, _⟩ :=
    ProcessFingerLoop_spec t music_rate n note_info 0 (-5) (List.replicate n []) nerv
      (List.length_replicate n []) hnerv hrange
  refine ⟨all, nerv', ?_, hlen, hlen', ?_, ?_⟩
  · show (match makeRows (Int.ofNat n) with
      | none => none
      | some all_intervals =>
        ProcessFingerLoop t music_rate note_info 0 (-5) all_intervals nerv) = _
    exact hL
  · rw [hsum]
    simp
  · intro hval iv hiv r hr
    rcases hmem iv hiv r hr with ⟨iv0, hiv0, hr0⟩ | ⟨_, h2⟩
    · exact hval iv0 hiv0 r hr0
    · omega

/-- Running `InitHand` for the columns `f1`, `f2` on a `Calc` with `n` intervals, a valid
membership table of `n` intervals and a chart whose interval indices are all in range: it
returns; the hand has got `n` new points, whose sum is the number of taps of the two columns,
and all its other series have `n` entries; the `Calc` keeps its interval count, its hands and
a valid membership table of `n` intervals. -/
theorem InitHand_spec [FloorRing F] (M : MathFns F) (c : Calc F) (hand : Hand F)
    (note_info : List (NoteInfo F)) (f1 f2 : Nat) (music_rate : F) (n : Nat)
    (hnum : c.numitv = (n : Int)) (hnerv : c.nervIntervals.length = n)
    (hval : validTable note_info c.nervIntervals)
    (hrange : intervalsInRange note_info music_rate (n : Int)) :
    ∃ (h' : Hand F) (c' : Calc F) (pts : List Int),
      InitHand M c hand note_info f1 f2 music_rate = some (h', c') ∧
      h'.v_itvpoints = hand.v_itvpoints ++ pts ∧ pts.length = n ∧
      pts.sum = ((note_info.countP (fun row => decide (row.notes &&& (1 <<< f1) ≠ 0)) +
        note_info.countP (fun row => decide (row.notes &&& (1 <<< f2) ≠ 0)) : Nat) : Int) ∧
      (h'.v_itvNPSdiff.length = n ∧ h'.v_itvMSdiff.length = n ∧ h'.ohjumpscale.length = n ∧
        h'.anchorscale.length = n ∧ h'.rollscale.length = n ∧ h'.hsscale.length = n ∧
        h'.jumpscale.length = n) ∧
      (c'.numitv = (n : Int) ∧ c'.nervIntervals.length = n ∧
        validTable note_info c'.nervIntervals ∧ c'.left_hand = c.left_hand ∧
        c'.right_hand = c.right_hand) := by
  obtain ⟨all1, nerv1, hp1, ha1, hn1, hs1, hv1⟩ :=
    ProcessFinger_run note_info f1 music_rate n c.nervIntervals hnerv hrange
  obtain ⟨all2, nerv2, hp2, ha2, hn2, hs2, hv2⟩ :=
    ProcessFinger_run note_info f2 music_rate n nerv1 hn1 hrange
  have hvalid2 : validTable note_info nerv2 := hv2 (hv1 hval)
  obtain ⟨hd, g1, g2, hdiff, hd1, hd2, hd3, hg1, hg2, hg1', hg2'⟩ :=
    InitDiff_spec hand all1 all2 n ha1 ha2
  obtain ⟨pts, hpts, hptsl, hptss⟩ := InitPoints_spec hd g1 g2 n hg1 hg2
  obtain ⟨oh, hoh, hohl⟩ := patternSeries_of_valid
    (OHJumpRaw M (1 <<< f1) (1 <<< f2)) note_info nerv2 hvalid2
  obtain ⟨an, han, hanl⟩ := Anchorscaler_of_valid M note_info nerv2 c.fingerbias
    (1 <<< f1) (1 <<< f2) hvalid2
  obtain ⟨ro, hro, hrol⟩ := RollDownscaler_spec M g1 g2 n hg1 hg2
  obtain ⟨hs, hhs, hhsl⟩ := patternSeries_of_valid (HSRaw M) note_info nerv2 hvalid2
  obtain ⟨ju, hju, hjul⟩ := patternSeries_of_valid (JumpRaw M) note_info nerv2 hvalid2
  have hoh' : OHJumpDownscaler M note_info nerv2 (1 <<< f1) (1 <<< f2) = some oh := hoh
  have hhs' : HSDownscaler M note_info nerv2 = some hs := hhs
  have hju' : JumpDownscaler M note_info nerv2 = some ju := hju
  refine ⟨{ hd with
      v_itvpoints := hd.v_itvpoints ++ pts, ohjumpscale := oh, anchorscale := an.1,
      rollscale := ro, hsscale := hs, jumpscale := ju },
    { c with nervIntervals := nerv2, fingerbias := an.2 }, pts, ?_, ?_, hptsl, ?_, ?_, ?_⟩
  · simp only [InitHand, hnum, hp1, hp2, hdiff, hpts, hoh', han, hro, hhs', hju',
      Option.bind_eq_bind, Option.some_bind, Option.pure_def]
  · show hd.v_itvpoints ++ pts = hand.v_itvpoints ++ pts
    rw [hd3]
  · rw [hptss, hg1', hg2', hs1, hs2]
  · exact ⟨hd1, hd2, by rw [hohl, hn2], by rw [hanl, hn2], hrol, by rw [hhsl, hn2],
      by rw [hjul, hn2]⟩
  · exact ⟨hnum, hn2, hvalid2, rfl, rfl⟩

/-- The taps that the four columns find in a row are the taps `column_count` counts. -/
theorem row_taps (n : Nat) :
    (if decide (n &&& (1 <<< 0) ≠ 0) then 1 else 0) +
      (if decide (n &&& (1 <<< 1) ≠ 0) then 1 else 0) +
      ((if decide (n &&& (1 <<< 2) ≠ 0) then 1 else 0) +
        (if decide (n &&& (1 <<< 3) ≠ 0) then 1 else 0)) = column_count n := by
  have h0 := hasBit_iff n 0
  have h1 := hasBit_iff n 1
  have h2 := hasBit_iff n 2
  have h3 := hasBit_iff n 3
  simp only [h0, h1, h2, h3, decide_eq_true_eq]
  unfold column_count
  norm_num
  split_ifs <;> omega

/-- The taps of the four columns of a chart are the taps `column_count` counts in its rows. -/
theorem countP_columns : ∀ note_info : List (NoteInfo F),
    note_info.countP (fun row => decide (row.notes &&& (1 <<< 0) ≠ 0)) +
      note_info.countP (fun row => decide (row.notes &&& (1 <<< 1) ≠ 0)) +
      (note_info.countP (fun row => decide (row.notes &&& (1 <<< 2) ≠ 0)) +
        note_info.countP (fun row => decide (row.notes &&& (1 <<< 3) ≠ 0))) =
    (note_info.map (fun row => column_count row.notes)).sum
  | [] => rfl
  | row :: rest => by
    have ih := countP_columns rest
    have hrow := row_taps row.notes
    simp only [List.countP_cons, List.map_cons, List.sum_cons]
    omega

/-- The loop of `Init` that totals `MaxPoints` adds the points of both hands. -/
theorem foldl_points : ∀ (l1 l2 : List Int) (acc : F), l1.length = l2.length →
    (l1.zip l2).foldl (fun acc p => acc + ((p.1 + p.2 : Int) : F)) acc =
      acc + ((l1.sum + l2.sum : Int) : F)
  | [], [], acc, _ => by simp
  | [], _ :: _, _, h => by simp at h
  | _ :: _, [], _, h => by simp at h
  | a :: l1, b :: l2, acc, h => by
    rw [List.zip_cons_cons, List.foldl_cons, foldl_points l1 l2 _ (by simpa using h)]
    simp only [List.sum_cons]
    push_cast
    ring

/-- A non-negative interval count makes that many empty rows. -/
theorem makeRows_natCast {α : Type} (n : Nat) :
    makeRows ((n : Nat) : Int) = some (List.replicate n ([] : List α)) := rfl

/-- Running `Init` on a new `Calc` for a non-empty chart whose interval indices are all in
range of the interval count: it returns a `Calc` with that interval count, a valid membership
table and series of that many entries in both hands; the points of each hand add up to the
taps of its two columns and `MaxPoints` to the taps of the chart. -/
theorem Init_spec [FloorRing F] (M : MathFns F) (note_info : List (NoteInfo F))
    (music_rate : F) (hne : note_info ≠ [])
    (hrange : intervalsInRange note_info music_rate (intervalCount note_info music_rate)) :
    ∃ (c : Calc F) (n : Nat), Init M Calc.fresh note_info music_rate = some c ∧
      (c.numitv = (n : Int) ∧ c.numitv = intervalCount note_info music_rate ∧
        c.nervIntervals.length = n ∧ validTable note_info c.nervIntervals) ∧
      (c.left_hand.v_itvpoints.length = n ∧ c.left_hand.v_itvNPSdiff.length = n ∧
        c.left_hand.v_itvMSdiff.length = n ∧ c.left_hand.ohjumpscale.length = n ∧
        c.left_hand.anchorscale.length = n ∧ c.left_hand.rollscale.length = n ∧
        c.left_hand.hsscale.length = n ∧ c.left_hand.jumpscale.length = n) ∧
      (c.right_hand.v_itvpoints.length = n ∧ c.right_hand.v_itvNPSdiff.length = n ∧
        c.right_hand.v_itvMSdiff.length = n ∧ c.right_hand.ohjumpscale.length = n ∧
        c.right_hand.anchorscale.length = n ∧ c.right_hand.rollscale.length = n ∧
        c.right_hand.hsscale.length = n ∧ c.right_hand.jumpscale.length = n) ∧
      (c.left_hand.v_itvpoints.sum =
          ((note_info.countP (fun row => decide (row.notes &&& (1 <<< 0) ≠ 0)) +
            note_info.countP (fun row => decide (row.notes &&& (1 <<< 1) ≠ 0)) : Nat) : Int) ∧
        c.right_hand.v_itvpoints.sum =
          ((note_info.countP (fun row => decide (row.notes &&& (1 <<< 2) ≠ 0)) +
            note_info.countP (fun row => decide (row.notes &&& (1 <<< 3) ≠ 0)) : Nat) : Int) ∧
        c.MaxPoints = (((note_info.map (fun row => column_count row.notes)).sum : Nat) : F)) := by
  obtain ⟨back, hback⟩ : ∃ back, note_info.getLast? = some back := by
    cases h : note_info.getLast? with
    | none => exact absurd (List.getLast?_eq_none_iff.mp h) hne
    | some b => exact ⟨b, rfl⟩
  have hcount : intervalCount note_info music_rate =
      ⌈back.rowTime / (music_rate * IntervalSpan)⌉ := by
    unfold intervalCount
    rw [hback]
  have hbmem : back ∈ note_info := List.mem_of_getLast?_eq_some hback
  have hpos : 0 ≤ intervalCount note_info music_rate := by
    have := hrange back hbmem
    omega
  obtain ⟨n, hn⟩ : ∃ n : Nat, intervalCount note_info music_rate = (n : Int) :=
    ⟨(intervalCount note_info music_rate).toNat, (Int.toNat_of_nonneg hpos).symm⟩
  have hceil : ⌈back.rowTime / (music_rate * IntervalSpan)⌉ = (n : Int) := by
    rw [← hcount, hn]
  rw [hn] at hrange
  have hval0 : validTable note_info (List.replicate n ([] : List Nat)) := by
    intro iv hiv r hr
    rw [List.eq_of_mem_replicate hiv] at hr
    simp at hr
  obtain ⟨l, cl, ptsL, hl, hl1, hl2, hl3, hl4, hl5n, hl5l, hl5v, _, hl5r⟩ :=
    InitHand_spec M
      { (Calc.fresh : Calc F) with numitv := (n : Int), nervIntervals := List.replicate n [] }
      (Calc.fresh : Calc F).left_hand note_info 0 1 music_rate n rfl
      (List.length_replicate n []) hval0 hrange
  obtain ⟨r, cr, ptsR, hr, hr1, hr2, hr3, hr4, hr5n, hr5l, hr5v, hr5lh, _⟩ :=
    InitHand_spec M { cl with left_hand := l } cl.right_hand note_info 2 3 music_rate n
      hl5n hl5l hl5v hrange
  have hlp : l.v_itvpoints = ptsL := by
    rw [hl1]
    rfl
  have hrp : r.v_itvpoints = ptsR := by
    rw [hr1, hl5r]
    rfl
  have hcrl : cr.left_hand = l := hr5lh
  have hz : zipRows cr.left_hand.v_itvpoints r.v_itvpoints = some (ptsL.zip ptsR) := by
    rw [hcrl, hlp, hrp]
    exact zipRows_eq_zip ptsL ptsR (by omega)
  refine ⟨{ cr with
      right_hand := r
      j0 := SequenceJack note_info 0 music_rate
      j1 := SequenceJack note_info 1 music_rate
      j2 := SequenceJack note_info 2 music_rate
      j3 := SequenceJack note_info 3 music_rate
      MaxPoints := (ptsL.zip ptsR).foldl (fun acc p => acc + ((p.1 + p.2 : Int) : F)) 0
      fingerbias := cr.fingerbias / ((2 * cr.nervIntervals.length : Nat) : F) }, n, ?_, ?_, ?_,
    ?_, ?_⟩
  · simp only [Init, hback, hceil, makeRows_natCast, hl, hr, hz, Option.bind_eq_bind,
      Option.some_bind, Option.pure_def]
  · exact ⟨hr5n, by rw [hn]; exact hr5n, hr5l, hr5v⟩
  · show cr.left_hand.v_itvpoints.length = n ∧ _
    rw [hcrl]
    exact ⟨by rw [hlp, hl2], hl4⟩
  · exact ⟨by rw [hrp, hr2], hr4⟩
  · show cr.left_hand.v_itvpoints.sum = _ ∧ r.v_itvpoints.sum = _ ∧
      (ptsL.zip ptsR).foldl (fun acc p => acc + ((p.1 + p.2 : Int) : F)) 0 = _
    rw [hcrl, hlp, hrp, foldl_points ptsL ptsR 0 (by omega), hl3, hr3, ← countP_columns]
    refine ⟨rfl, rfl, ?_⟩
    push_cast
    ring

/-- C11: on a non-empty chart whose interval indices are all in range of the interval count,
`Init`, run on a new `Calc`, returns, and `MaxPoints` equals the total number of taps of the
chart, the sum over all rows of `column_count(row.notes)`; the points of the left hand add up
to the taps of columns 0 and 1 and those of the right hand to the taps of columns 2 and 3, as
counted after `InitDiff` has sorted and inflated the gap lists. -/
theorem Init_MaxPoints [FloorRing F] (M : MathFns F) (note_info : List (NoteInfo F))
    (music_rate : F) (hne : note_info ≠ [])
    (hrange : intervalsInRange note_info music_rate (intervalCount note_info music_rate)) :
    ∃ c : Calc F, Init M Calc.fresh note_info music_rate = some c ∧
      c.MaxPoints = (((note_info.map (fun row => column_count row.notes)).sum : Nat) : F) ∧
      c.left_hand.v_itvpoints.sum =
        ((note_info.countP (fun row => decide (row.notes &&& (1 <<< 0) ≠ 0)) +
          note_info.countP (fun row => decide (row.notes &&& (1 <<< 1) ≠ 0)) : Nat) : Int) ∧
      c.right_hand.v_itvpoints.sum =
        ((note_info.countP (fun row => decide (row.notes &&& (1 <<< 2) ≠ 0)) +
          note_info.countP (fun row => decide (row.notes &&& (1 <<< 3) ≠ 0)) : Nat) : Int) := by
  obtain ⟨c, n, hc, _, _, _, hl, hr, hm⟩ := Init_spec M note_info music_rate hne hrange
  exact ⟨c, hc, hm, hl, hr⟩

/-- A two-row chart over the rationals, with taps in columns 0, 1 and 0, 2, has its interval
indices 0 and 1 in range of its interval count 2 at rate 1. -/
theorem two_row_chart_in_range :
    intervalsInRange ([⟨3, 1 / 4⟩, ⟨5, 3 / 4⟩] : List (NoteInfo ℚ)) 1
      (intervalCount ([⟨3, 1 / 4⟩, ⟨5, 3 / 4⟩] : List (NoteInfo ℚ)) 1) := by
  have hc : intervalCount ([⟨3, 1 / 4⟩, ⟨5, 3 / 4⟩] : List (NoteInfo ℚ)) 1 = 2 := by
    norm_num [intervalCount, IntervalSpan]
    rw [Int.ceil_eq_iff]
    norm_num
  rw [hc]
  intro row hrow
  simp only [List.mem_cons, List.mem_singleton, List.not_mem_nil, or_false] at hrow
  rcases hrow with rfl | rfl <;> norm_num [intervalIndex, truncToInt, IntervalSpan]

/-- C11, at a concrete input: the two-row chart with four taps, at rate 1. -/
theorem Init_MaxPoints_witness :
    (([⟨3, 1 / 4⟩, ⟨5, 3 / 4⟩] : List (NoteInfo ℚ)) ≠ [] ∧
      intervalsInRange ([⟨3, 1 / 4⟩, ⟨5, 3 / 4⟩] : List (NoteInfo ℚ)) 1
        (intervalCount ([⟨3, 1 / 4⟩, ⟨5, 3 / 4⟩] : List (NoteInfo ℚ)) 1)) ∧
    ∃ c : Calc ℚ, Init ⟨id, fun x _ => x, id⟩ Calc.fresh
        ([⟨3, 1 / 4⟩, ⟨5, 3 / 4⟩] : List (NoteInfo ℚ)) 1 = some c ∧
      c.MaxPoints = 4 :=
  ⟨⟨by simp, two_row_chart_in_range⟩, by
    obtain ⟨c, hc, hm, _, _⟩ := Init_MaxPoints (F := ℚ) ⟨id, fun x _ => x, id⟩
      [⟨3, 1 / 4⟩, ⟨5, 3 / 4⟩] 1 (by simp) two_row_chart_in_range
    refine ⟨c, hc, ?_⟩
    rw [hm]
    norm_num [column_count]⟩

/-- C12: on a non-empty chart whose interval indices are all in range of the interval count,
`Init`, run on a new `Calc`, returns, and for both hands the series `v_itvNPSdiff`,
`v_itvMSdiff`, `v_itvpoints`, `ohjumpscale`, `anchorscale`, `rollscale`, `hsscale` and
`jumpscale`, and the membership table `nervIntervals`, all have length exactly `numitv`, so
every index below the length of a difficulty series is an index of every series that
`CalcInternal` reads. -/
theorem Init_series_lengths [FloorRing F] (M : MathFns F) (note_info : List (NoteInfo F))
    (music_rate : F) (hne : note_info ≠ [])
    (hrange : intervalsInRange note_info music_rate (intervalCount note_info music_rate)) :
    ∃ (c : Calc F) (n : Nat), Init M Calc.fresh note_info music_rate = some c ∧
      c.numitv = (n : Int) ∧ c.nervIntervals.length = n ∧
      (c.left_hand.v_itvNPSdiff.length = n ∧ c.left_hand.v_itvMSdiff.length = n ∧
        c.left_hand.v_itvpoints.length = n ∧ c.left_hand.ohjumpscale.length = n ∧
        c.left_hand.anchorscale.length = n ∧ c.left_hand.rollscale.length = n ∧
        c.left_hand.hsscale.length = n ∧ c.left_hand.jumpscale.length = n) ∧
      (c.right_hand.v_itvNPSdiff.length = n ∧ c.right_hand.v_itvMSdiff.length = n ∧
        c.right_hand.v_itvpoints.length = n ∧ c.right_hand.ohjumpscale.length = n ∧
        c.right_hand.anchorscale.length = n ∧ c.right_hand.rollscale.length = n ∧
        c.right_hand.hsscale.length = n ∧ c.right_hand.jumpscale.length = n) := by
  obtain ⟨c, n, hc, ⟨hnum, _, hnerv, _⟩, ⟨l1, l2, l3, l4, l5, l6, l7, l8⟩,
    ⟨r1, r2, r3, r4, r5, r6, r7, r8⟩, _⟩ := Init_spec M note_info music_rate hne hrange
  exact ⟨c, n, hc, hnum, hnerv, ⟨l2, l3, l1, l4, l5, l6, l7, l8⟩,
    ⟨r2, r3, r1, r4, r5, r6, r7, r8⟩⟩

/-- C12, at a concrete input: the two-row chart at rate 1, which has two intervals. -/
theorem Init_series_lengths_witness :
    (([⟨3, 1 / 4⟩, ⟨5, 3 / 4⟩] : List (NoteInfo ℚ)) ≠ [] ∧
      intervalsInRange ([⟨3, 1 / 4⟩, ⟨5, 3 / 4⟩] : List (NoteInfo ℚ)) 1
        (intervalCount ([⟨3, 1 / 4⟩, ⟨5, 3 / 4⟩] : List (NoteInfo ℚ)) 1)) ∧
    ∃ (c : Calc ℚ) (n : Nat), Init ⟨id, fun x _ => x, id⟩ Calc.fresh
        ([⟨3, 1 / 4⟩, ⟨5, 3 / 4⟩] : List (NoteInfo ℚ)) 1 = some c ∧
      c.numitv = (n : Int) ∧ c.nervIntervals.length = n ∧
      c.left_hand.v_itvNPSdiff.length = n ∧ c.right_hand.jumpscale.length = n :=
  ⟨⟨by simp, two_row_chart_in_range⟩, by
    obtain ⟨c, n, hc, hnum, hnerv, hl, hr⟩ := Init_series_lengths (F := ℚ)
      ⟨id, fun x _ => x, id⟩ [⟨3, 1 / 4⟩, ⟨5, 3 / 4⟩] 1 (by simp) two_row_chart_in_range
    exact ⟨c, n, hc, hnum, hnerv, hl.1, hr.2.2.2.2.2.2.2⟩⟩

/-! ## The end of CalcMain -/

/-- A left fold with `max` returns its start value or an element of the list, and is at least
the start value and every element. -/
theorem foldl_max_spec : ∀ (l : List F) (init : F),
    (l.foldl max init = init ∨ l.foldl max init ∈ l) ∧ init ≤ l.foldl max init ∧
      ∀ x ∈ l, x ≤ l.foldl max init
  | [], init => ⟨Or.inl rfl, le_refl init, fun x hx => by simp at hx⟩
  | a :: l, init => by
    obtain ⟨h1, h2, h3⟩ := foldl_max_spec l (max init a)
    rw [List.foldl_cons]
    refine ⟨?_, le_trans (le_max_left init a) h2, ?_⟩
    · rcases h1 with h | h
      · rcases max_choice init a with hm | hm
        · left
          rw [h, hm]
        · right
          rw [h, hm]
          exact List.mem_cons_self a l
      · right
        exact List.mem_cons_of_mem a h
    · intro x hx
      rcases List.mem_cons.mp hx with rfl | hx
      · exact le_trans (le_max_right init x) h2
      · exact h3 x hx

/-- The rating that the last lines of `CalcMain` build has as `overall` the value of
`highest_difficulty` on that same rating. -/
theorem gateAndFinish_overall (highest score_goal : F) (d : DifficultyRating F) :
    (gateAndFinish highest score_goal d).overall =
      highest_difficulty (gateAndFinish highest score_goal d) := rfl

/-- Every rating that `CalcMain` returns is built by its last lines, the gate and the final
corrections, from the value `highest` of line 303 and the rating of line 309. -/
theorem CalcMain_some_shape [FloorRing F] (M : MathFns F) (fuel : Nat) (c0 : Calc F)
    (note_info : List (NoteInfo F)) (music_rate score_goal : F) (r : DifficultyRating F)
    (h : CalcMain M fuel c0 note_info music_rate score_goal = some r) :
    ∃ (highest : F) (d : DifficultyRating F), r = gateAndFinish highest score_goal d := by
  simp only [CalcMain, finishRating, Option.bind_eq_bind, Option.bind_eq_some,
    Option.pure_def, Option.some.injEq] at h
  obtain ⟨c, _, back, _, s, _, d, _, overall, _, hr⟩ := h
  exact ⟨_, _, hr.symm⟩

/-- C15, the failing input: when the value `highest` of line 303 is 0 and the score goal is
0.1, below the minimum required percentage `CalcClamp(0.5 + 0 / 100, 0, 0.9) = 0.5`, the
rating is zeroed, but the test `highest == difficulty.technical` then holds, both proximity
subtractions of 4.5 are applied and the rating that `CalcMain` builds has the technical field
`-9 × 1.025 = -9.225`, not 0. -/
theorem gateAndFinish_zero_highest (d : DifficultyRating ℚ) :
    (1 / 10 : ℚ) < CalcClamp (0.5 + ((0 : ℚ) / 100)) 0 0.9 ∧
    gateAndFinish (0 : ℚ) (1 / 10) d =
      { overall := 0, stream := 0, jumpstream := 0, handstream := 0, stamina := 0,
        jack := 0, chordjack := 0, technical := -9.225 } := by
  have hgate : (1 / 10 : ℚ) < CalcClamp (0.5 + ((0 : ℚ) / 100)) 0 0.9 := by
    norm_num [CalcClamp]
  refine ⟨hgate, ?_⟩
  unfold gateAndFinish
  simp only [if_pos hgate]
  norm_num [DifficultyRating.zero, CalcClamp, highest_difficulty]

/-- With a predicate that is false everywhere `approximate` returns after one evaluation per
round. -/
theorem approximate_of_false (P : F → Bool) (hP : ∀ x, P x = false) (fuel : Nat)
    (limit_at_100 : Bool) :
    ∀ (n : Nat) (x r : F), ∃ v, approximate (fuel + 1) x r n P limit_at_100 = some v
  | 0, x, r => ⟨x + 2 * r, rfl⟩
  | n + 1, x, r => by
    obtain ⟨v, hv⟩ := approximate_of_false P hP fuel limit_at_100 n (x - r) (r / 2)
    refine ⟨v, ?_⟩
    rw [approximate]
    have hw : approximateWhile P limit_at_100 r (fuel + 1) x = some (LoopExit.fell x) := by
      rw [approximateWhile, hP x]
      rfl
    rw [hw]
    exact hv

/-- A run of `CalcMain` that returns: the one-row chart over the rationals whose row, at time
3/4, has no notes, at rate 1 and score goal 0, with an `erfc` that is constantly 2 and one
predicate evaluation per loop. -/
theorem CalcMain_returns_example :
    ∃ r : DifficultyRating ℚ,
      CalcMain ⟨id, fun x _ => x, fun _ => 2⟩ 1 Calc.fresh [⟨0, 3 / 4⟩] 1 0 = some r := by
  have hrange : intervalsInRange ([⟨0, 3 / 4⟩] : List (NoteInfo ℚ)) 1
      (intervalCount ([⟨0, 3 / 4⟩] : List (NoteInfo ℚ)) 1) := by
    have hc : intervalCount ([⟨0, 3 / 4⟩] : List (NoteInfo ℚ)) 1 = 2 := by
      norm_num [intervalCount, IntervalSpan]
      rw [Int.ceil_eq_iff]
      norm_num
    rw [hc]
    intro row hrow
    simp only [List.mem_singleton] at hrow
    subst hrow
    norm_num [intervalIndex, truncToInt, IntervalSpan]
  obtain ⟨c, n, hc, _, _, _, _, _, hmax⟩ :=
    Init_spec (F := ℚ) ⟨id, fun x _ => x, fun _ => 2⟩ [⟨0, 3 / 4⟩] 1 (by simp) hrange
  have hmax0 : c.MaxPoints = 0 := by
    rw [hmax]
    norm_num [column_count]
  have hchisel : ∀ (x r : ℚ) (flags : ChiselFlags),
      ∃ v, Chisel ⟨id, fun x _ => x, fun _ => 2⟩ 1 c x r 0 flags = some v := by
    intro x r flags
    unfold Chisel
    apply approximate_of_false _ _ 0
    intro y
    simp [CalcScoreForPlayerSkill, hmax0]
  have hagg : ∀ (sk : List ℚ) (x r : ℚ),
      ∃ v, AggregateScores ⟨id, fun x _ => x, fun _ => 2⟩ 1 sk x r = some v := by
    intro sk x r
    unfold AggregateScores
    apply approximate_of_false _ _ 0
    intro y
    simp
  choose f hf using hchisel
  choose g hg using hagg
  have hsolve : ∃ s, solveSkills ⟨id, fun x _ => x, fun _ => 2⟩ 1 c 0 = some s := by
    simp only [solveSkills, hf, Option.bind_eq_bind, Option.some_bind, Option.pure_def]
    split_ifs <;> exact ⟨_, rfl⟩
  obtain ⟨s, hs⟩ := hsolve
  simp only [CalcMain, hc, hs, capSkills, finishRating, hg, List.getLast?_singleton,
    Option.bind_eq_bind, Option.some_bind, Option.pure_def]
  exact ⟨_, rfl⟩

/-! ## Runs of CalcMain that return -/

/-- More fuel does not change the exit of the inner loop of `approximate`. -/
theorem approximateWhile_mono (P : F → Bool) (l : Bool) (res : F) :
    ∀ (fuel : Nat) (x : F) (e : LoopExit F), approximateWhile P l res fuel x = some e →
      ∀ fuel2 : Nat, fuel ≤ fuel2 → approximateWhile P l res fuel2 x = some e
  | 0, x, e, h => by simp [approximateWhile] at h
  | fuel + 1, x, e, h => by
    intro fuel2 hf
    obtain ⟨k, rfl⟩ : ∃ k, fuel2 = k + 1 := ⟨fuel2 - 1, by omega⟩
    rw [approximateWhile] at h ⊢
    split_ifs at h ⊢ with h1 h2
    · exact h
    · exact approximateWhile_mono P l res fuel (x + res) e h k (by omega)
    · exact h

/-- More fuel does not change the result of `approximate`. -/
theorem approximate_mono (P : F → Bool) (l : Bool) (fuel fuel2 : Nat) (hf : fuel ≤ fuel2) :
    ∀ (n : Nat) (x r v : F), approximate fuel x r n P l = some v →
      approximate fuel2 x r n P l = some v
  | 0, x, r, v, h => h
  | n + 1, x, r, v, h => by
    unfold approximate at h ⊢
    cases hw : approximateWhile P l r fuel x with
    | none => simp [hw] at h
    | some e =>
      rw [approximateWhile_mono P l r fuel x e hw fuel2 hf]
      rw [hw] at h
      cases e with
      | returned w => exact h
      | fell w => exact approximate_mono P l fuel fuel2 hf n (w - r) (r / 2) v h

/-- With the 100 limit `approximate` returns one value for every large enough fuel, whatever
the predicate. -/
theorem approximate_limit_returns [Archimedean F] (P : F → Bool) (x r : F) (hr : 0 < r)
    (n : Nat) : ∃ v, ReturnsWith (fun fuel => approximate fuel x r n P true) v := by
  have hstep : (0 : F) < r / 2 ^ n := by positivity
  obtain ⟨m, hm⟩ := exists_nat_gt ((100 - x + 2 * r) / (r / 2 ^ n))
  rw [div_lt_iff₀ hstep] at hm
  obtain ⟨v, hv⟩ := approximate_limit_some P m n x r hr (by linarith)
  exact ⟨v, m + 1, fun fuel hfuel => approximate_mono P true (m + 1) fuel hfuel n x r v hv⟩

/-- Without the 100 limit the inner loop of `approximate` falls out of the loop within
`fuel + 1` evaluations of a predicate that is false from `B` on, once `fuel` steps take the
value to `B`; the value at which it falls out is not below the start. -/
theorem approximateWhile_bounded_some (P : F → Bool) (B : F) (hB : ∀ y, B ≤ y → P y = false)
    (res : F) (hres : 0 < res) :
    ∀ (fuel : Nat) (x : F), B ≤ x + (fuel : F) * res →
      ∃ v, approximateWhile P false res (fuel + 1) x = some (LoopExit.fell v) ∧ x ≤ v
  | 0, x, h => by
    have hx : P x = false := hB x (by simpa using h)
    exact ⟨x, by simp [approximateWhile, hx], le_refl x⟩
  | k + 1, x, h => by
    rw [approximateWhile]
    cases hP : P x with
    | false => exact ⟨x, by simp, le_refl x⟩
    | true =>
      have hnext : B ≤ (x + res) + (k : F) * res := by
        have : ((k + 1 : Nat) : F) = (k : F) + 1 := by push_cast; ring
        rw [this] at h
        linarith
      obtain ⟨v, hv, hxv⟩ := approximateWhile_bounded_some P B hB res hres k (x + res) hnext
      exact ⟨v, by simpa using hv, by linarith⟩

/-- Without the 100 limit `approximate` returns for a predicate that is false from `B` on when
each inner loop may evaluate the predicate `fuel + 1` times and `fuel` steps of the last
round's size take the value from two resolutions below the start to `B`. -/
theorem approximate_bounded_some (P : F → Bool) (B : F) (hB : ∀ y, B ≤ y → P y = false)
    (fuel : Nat) :
    ∀ (n : Nat) (x r : F), 0 < r → B ≤ x - 2 * r + (fuel : F) * (r / 2 ^ n) →
      ∃ v, approximate (fuel + 1) x r n P false = some v
  | 0, x, r, _, _ => ⟨x + 2 * r, rfl⟩
  | n + 1, x, r, hr, h => by
    have hpow : (0 : F) < 2 ^ (n + 1) := by positivity
    have hle : r / 2 ^ (n + 1) ≤ r := by
      rw [div_le_iff₀ hpow]
      have : (1 : F) ≤ 2 ^ (n + 1) := one_le_pow₀ (by norm_num)
      nlinarith
    have hfuel : (0 : F) ≤ (fuel : F) := Nat.cast_nonneg fuel
    have hfirst : B ≤ x + (fuel : F) * r := by
      have : (fuel : F) * (r / 2 ^ (n + 1)) ≤ (fuel : F) * r :=
        mul_le_mul_of_nonneg_left hle hfuel
      linarith
    obtain ⟨v, he, hxv⟩ := approximateWhile_bounded_some P B hB r hr fuel x hfirst
    unfold approximate
    rw [he]
    have hhalf : r / 2 / 2 ^ n = r / 2 ^ (n + 1) := by
      rw [pow_succ, div_div, mul_comm]
    have hnext : B ≤ (v - r) - 2 * (r / 2) + (fuel : F) * (r / 2 / 2 ^ n) := by
      rw [hhalf]
      linarith
    exact approximate_bounded_some P B hB fuel n (v - r) (r / 2) (by linarith) hnext

/-- Without the 100 limit `approximate` returns one value for every large enough fuel when the
predicate is false from some value on. -/
theorem approximate_bounded_returns [Archimedean F] (P : F → Bool) (B : F)
    (hB : ∀ y, B ≤ y → P y = false) (x r : F) (hr : 0 < r) (n : Nat) :
    ∃ v, ReturnsWith (fun fuel => approximate fuel x r n P false) v := by
  have hstep : (0 : F) < r / 2 ^ n := by positivity
  obtain ⟨m, hm⟩ := exists_nat_gt ((B - x + 2 * r) / (r / 2 ^ n))
  rw [div_lt_iff₀ hstep] at hm
  obtain ⟨v, hv⟩ := approximate_bounded_some P B hB m n x r hr (by linarith)
  exact ⟨v, m + 1, fun fuel hfuel => approximate_mono P false (m + 1) fuel hfuel n x r v hv⟩

/-- Every call of `Chisel` with a positive resolution returns one value for every large enough
fuel. -/
theorem Chisel_returns [Archimedean F] (M : MathFns F) (c : Calc F)
    (player_skill resolution score_goal : F) (flags : ChiselFlags) (hres : 0 < resolution) :
    ∃ v, ReturnsWith (fun fuel => Chisel M fuel c player_skill resolution score_goal flags) v :=
  approximate_limit_returns _ player_skill resolution hres 7

/-- With an `erfc` that is at least 16/11 far enough to the left, `AggregateScores` on at most
eight skill values and with a positive resolution returns one value for every large enough
fuel. -/
theorem AggregateScores_returns [Archimedean F] (M : MathFns F) (herfc : ErfcTail M.erfc)
    (skillsets : List F) (hlen : skillsets.length ≤ 8) (rating resolution : F)
    (hres : 0 < resolution) :
    ∃ v, ReturnsWith (fun fuel => AggregateScores M fuel skillsets rating resolution) v := by
  obtain ⟨y0, hy0⟩ := herfc
  obtain ⟨_, _, hmax⟩ := foldl_max_spec skillsets 0
  apply approximate_bounded_returns _ (skillsets.foldl max 0 - 2 * y0) _ rating resolution hres
  intro y hy
  have hterm : ∀ t ∈ skillsets.map (fun i => 2 / M.erfc (0.5 * (i - y)) - 1), t ≤ 3 / 8 := by
    intro t ht
    obtain ⟨i, hi, rfl⟩ := List.mem_map.mp ht
    have hiy : 0.5 * (i - y) ≤ y0 := by
      have := hmax i hi
      norm_num
      linarith
    have he := hy0 _ hiy
    have hpos : (0 : F) < M.erfc (0.5 * (i - y)) := lt_of_lt_of_le (by norm_num) he
    have : 2 / M.erfc (0.5 * (i - y)) ≤ 11 / 8 := by
      rw [div_le_iff₀ hpos]
      linarith
    linarith
  have hsum := List.sum_le_card_nsmul _ _ hterm
  rw [List.length_map, nsmul_eq_mul] at hsum
  have hl : ((skillsets.length : Nat) : F) ≤ 8 := by exact_mod_cast hlen
  have : ¬ (3 : F) < (skillsets.map (fun i => 2 / M.erfc (0.5 * (i - y)) - 1)).sum := by
    apply not_lt.mpr
    have : ((skillsets.length : Nat) : F) * (3 / 8) ≤ 8 * (3 / 8) :=
      mul_le_mul_of_nonneg_right hl (by norm_num)
    linarith
  simpa using this

/-- With enough fuel `solveSkills` returns: each of its six solves runs with the 100 limit. -/
theorem solveSkills_returns [Archimedean F] (M : MathFns F) (c : Calc F) (score_goal : F) :
    ∃ s, ReturnsWith (fun fuel => solveSkills M fuel c score_goal) s := by
  obtain ⟨stream, n1, h1⟩ := Chisel_returns M c 0.1 10.24 score_goal CHISEL_NPS (by norm_num)
  obtain ⟨js, n2, h2⟩ :=
    Chisel_returns M c 0.1 10.24 score_goal (CHISEL_NPS.or CHISEL_JS) (by norm_num)
  obtain ⟨hs, n3, h3⟩ :=
    Chisel_returns M c 0.1 10.24 score_goal (CHISEL_NPS.or CHISEL_HS) (by norm_num)
  obtain ⟨tech0, n4, h4⟩ := Chisel_returns M c 0.1 10.24 score_goal CHISEL_NONE (by norm_num)
  obtain ⟨jack, n5, h5⟩ :=
    Chisel_returns M c 0.1 10.24 score_goal (CHISEL_NPS.or CHISEL_JACK) (by norm_num)
  have hstam : ∀ (x : F) (flags : ChiselFlags),
      ∃ v, ReturnsWith (fun fuel => Chisel M fuel c x 2.56 score_goal flags) v :=
    fun x flags => Chisel_returns M c x 2.56 score_goal flags (by norm_num)
  choose st hst using hstam
  choose nst hnst using hst
  obtain ⟨tech, htech⟩ : ∃ tech : F, tech = tech0 * CalcClamp (tech0 / max stream jack) 0.85 1 :=
    ⟨_, rfl⟩
  obtain ⟨x, flags, hx⟩ : ∃ (x : F) (flags : ChiselFlags),
      ∀ (fuel : Nat) (k : F → Option (Solved F)),
      (if stream > tech ∨ js > tech ∨ hs > tech then
        if stream > js ∧ stream > hs then
          (Chisel M fuel c (stream - 0.1) 2.56 score_goal (CHISEL_STAM.or CHISEL_NPS)).bind k
        else if js > hs then
          (Chisel M fuel c (js - 0.1) 2.56 score_goal
            ((CHISEL_STAM.or CHISEL_NPS).or CHISEL_JS)).bind k
        else
          (Chisel M fuel c (hs - 0.1) 2.56 score_goal
            ((CHISEL_STAM.or CHISEL_NPS).or CHISEL_HS)).bind k
      else
        (Chisel M fuel c (tech - 0.1) 2.56 score_goal CHISEL_STAM).bind k) =
        (Chisel M fuel c x 2.56 score_goal flags).bind k := by
    split_ifs
    · exact ⟨_, _, fun _ _ => rfl⟩
    · exact ⟨_, _, fun _ _ => rfl⟩
    · exact ⟨_, _, fun _ _ => rfl⟩
    · exact ⟨_, _, fun _ _ => rfl⟩
  refine ⟨⟨stream, js * 0.95, hs * 0.95, st x flags * 0.9, tech * 0.95, jack, jack * 0.75⟩,
    max (max (max n1 n2) (max n3 n4)) (max n5 (nst x flags)), fun fuel hfuel => ?_⟩
  have e1 := h1 fuel (by omega)
  have e2 := h2 fuel (by omega)
  have e3 := h3 fuel (by omega)
  have e4 := h4 fuel (by omega)
  have e5 := h5 fuel (by omega)
  have e6 := hnst x flags fuel (by omega)
  simp only at e1 e2 e3 e4 e5 e6
  simp only [solveSkills, e1, e2, e3, e4, e5, Option.bind_eq_bind, Option.some_bind,
    Option.pure_def]
  rw [← htech, hx fuel, e6]
  rfl

/-- With enough fuel `capSkills` returns when `erfc` has the tail property. -/
theorem capSkills_returns [Archimedean F] (M : MathFns F) (herfc : ErfcTail M.erfc)
    (sc : Scalers F) (score_goal : F) (d : DifficultyRating F) :
    ∃ d2, ReturnsWith (fun fuel => capSkills M fuel sc score_goal d) d2 := by
  obtain ⟨overall, n, h⟩ := AggregateScores_returns M herfc (skillset_vector d)
    (le_of_eq rfl) 0 10.24 (by norm_num)
  have e0 := h n (le_refl n)
  simp only at e0
  obtain ⟨d2, hd2⟩ : ∃ d2, capSkills M n sc score_goal d = some d2 := by
    simp only [capSkills, e0, Option.bind_eq_bind, Option.some_bind, Option.pure_def]
    exact ⟨_, rfl⟩
  refine ⟨d2, n, fun fuel hfuel => ?_⟩
  have e := h fuel hfuel
  simp only at e
  simp only [capSkills, e0, Option.bind_eq_bind, Option.some_bind, Option.pure_def] at hd2
  simp only [capSkills, e, Option.bind_eq_bind, Option.some_bind, Option.pure_def]
  exact hd2

/-- With enough fuel `finishRating` returns when `erfc` has the tail property, and its result
is built by `gateAndFinish`. -/
theorem finishRating_returns [Archimedean F] (M : MathFns F) (herfc : ErfcTail M.erfc)
    (score_goal : F) (d : DifficultyRating F) (b : Bool) :
    ∃ (highest : F) (d2 : DifficultyRating F),
      ReturnsWith (fun fuel => finishRating M fuel score_goal d b)
        (gateAndFinish highest score_goal d2) := by
  obtain ⟨overall, n, h⟩ := AggregateScores_returns M herfc (skillset_vector d)
    (le_of_eq rfl) 0 10.24 (by norm_num)
  have e0 := h n (le_refl n)
  simp only at e0
  obtain ⟨highest, d2, hd2⟩ : ∃ (highest : F) (d2 : DifficultyRating F),
      finishRating M n score_goal d b = some (gateAndFinish highest score_goal d2) := by
    simp only [finishRating, e0, Option.bind_eq_bind, Option.some_bind, Option.pure_def]
    exact ⟨_, _, rfl⟩
  refine ⟨highest, d2, n, fun fuel hfuel => ?_⟩
  have e := h fuel hfuel
  simp only at e
  simp only [finishRating, e0, Option.bind_eq_bind, Option.some_bind, Option.pure_def] at hd2
  simp only [finishRating, e, Option.bind_eq_bind, Option.some_bind, Option.pure_def]
  exact hd2

/-- On a non-empty chart whose interval indices are all in range, and with an `erfc` that has
the tail property, `CalcMain` run on a new `Calc` returns one rating for every large enough
fuel, and that rating is built by `gateAndFinish`. -/
theorem CalcMain_returns [FloorRing F] [Archimedean F] (M : MathFns F)
    (herfc : ErfcTail M.erfc) (note_info : List (NoteInfo F)) (music_rate score_goal : F)
    (hne : note_info ≠ [])
    (hrange : intervalsInRange note_info music_rate (intervalCount note_info music_rate)) :
    ∃ (highest : F) (d : DifficultyRating F),
      ReturnsWith (fun fuel => CalcMain M fuel Calc.fresh note_info music_rate score_goal)
        (gateAndFinish highest score_goal d) := by
  obtain ⟨c, _, hc, _⟩ := Init_spec M note_info music_rate hne hrange
  obtain ⟨back, hback⟩ : ∃ back, note_info.getLast? = some back :=
    ⟨_, List.getLast?_eq_getLast note_info hne⟩
  obtain ⟨s, n1, h1⟩ := solveSkills_returns M c score_goal
  obtain ⟨d, n2, h2⟩ := capSkills_returns M herfc (calcScalers note_info back.rowTime)
    score_goal (correctSkills M (calcScalers note_info back.rowTime) c.fingerbias score_goal s).1
  obtain ⟨highest, d2, n3, h3⟩ := finishRating_returns M herfc score_goal d
    (correctSkills M (calcScalers note_info back.rowTime) c.fingerbias score_goal s).2
  refine ⟨highest, d2, max n1 (max n2 n3), fun fuel hfuel => ?_⟩
  have e1 := h1 fuel (by omega)
  have e2 := h2 fuel (by omega)
  have e3 := h3 fuel (by omega)
  simp only at e1 e2 e3
  simp only [CalcMain, hc, hback, e1, e2, e3, Option.bind_eq_bind, Option.some_bind]

/-- The value of `highest_difficulty` is at least each of the seven category fields and equal
to one of them. -/
theorem highest_difficulty_spec (d : DifficultyRating F) :
    (d.stream ≤ highest_difficulty d ∧ d.jumpstream ≤ highest_difficulty d ∧
      d.handstream ≤ highest_difficulty d ∧ d.stamina ≤ highest_difficulty d ∧
      d.jack ≤ highest_difficulty d ∧ d.chordjack ≤ highest_difficulty d ∧
      d.technical ≤ highest_difficulty d) ∧
    (highest_difficulty d = d.stream ∨ highest_difficulty d = d.jumpstream ∨
      highest_difficulty d = d.handstream ∨ highest_difficulty d = d.stamina ∨
      highest_difficulty d = d.jack ∨ highest_difficulty d = d.chordjack ∨
      highest_difficulty d = d.technical) := by
  obtain ⟨h1, h2, h3⟩ := foldl_max_spec
    [d.jumpstream, d.handstream, d.stamina, d.jack, d.chordjack, d.technical] d.stream
  have hd : highest_difficulty d = List.foldl max d.stream
      [d.jumpstream, d.handstream, d.stamina, d.jack, d.chordjack, d.technical] := rfl
  rw [hd]
  refine ⟨⟨h2, h3 _ (by simp), h3 _ (by simp), h3 _ (by simp), h3 _ (by simp),
    h3 _ (by simp), h3 _ (by simp)⟩, ?_⟩
  rcases h1 with h | h
  · exact Or.inl h
  · simp only [List.mem_cons, List.mem_singleton, List.not_mem_nil, or_false] at h
    exact Or.inr h

/-- C16: for every chart with at least one tap, every rate and every score goal, every rating
that `CalcMain`, run on a new `Calc`, returns has as `overall` the maximum of its own seven
category fields stream, jumpstream, handstream, stamina, jack, chordjack and technical: the
value of `highest_difficulty` on the returned rating, at least as large as each of the seven
and equal to one of them. And when the interval indices of the chart are in range and `erfc`
has the tail property that lets `AggregateScores` end, `Init` returns a `Calc` whose
`MaxPoints`, the divisor of the score, is the positive number of taps, and `CalcMain` does
return such a rating, the same for every large enough fuel. -/
theorem CalcMain_overall_is_max [FloorRing F] [Archimedean F] (M : MathFns F)
    (note_info : List (NoteInfo F)) (music_rate score_goal : F)
    (htaps : 0 < (note_info.map (fun row => column_count row.notes)).sum) :
    (∀ (fuel : Nat) (r : DifficultyRating F),
      CalcMain M fuel Calc.fresh note_info music_rate score_goal = some r →
        r.overall = highest_difficulty r ∧
        (r.stream ≤ r.overall ∧ r.jumpstream ≤ r.overall ∧ r.handstream ≤ r.overall ∧
          r.stamina ≤ r.overall ∧ r.jack ≤ r.overall ∧ r.chordjack ≤ r.overall ∧
          r.technical ≤ r.overall) ∧
        (r.overall = r.stream ∨ r.overall = r.jumpstream ∨ r.overall = r.handstream ∨
          r.overall = r.stamina ∨ r.overall = r.jack ∨ r.overall = r.chordjack ∨
          r.overall = r.technical)) ∧
    (intervalsInRange note_info music_rate (intervalCount note_info music_rate) →
      ErfcTail M.erfc →
      (∃ c : Calc F, Init M Calc.fresh note_info music_rate = some c ∧ 0 < c.MaxPoints) ∧
      ∃ r : DifficultyRating F,
        ReturnsWith (fun fuel => CalcMain M fuel Calc.fresh note_info music_rate score_goal) r ∧
        r.overall = highest_difficulty r ∧
        (r.stream ≤ r.overall ∧ r.jumpstream ≤ r.overall ∧ r.handstream ≤ r.overall ∧
          r.stamina ≤ r.overall ∧ r.jack ≤ r.overall ∧ r.chordjack ≤ r.overall ∧
          r.technical ≤ r.overall)) := by
  have hne : note_info ≠ [] := by
    intro h
    rw [h] at htaps
    simp at htaps
  have hmax : ∀ (fuel : Nat) (r : DifficultyRating F),
      CalcMain M fuel Calc.fresh note_info music_rate score_goal = some r →
        r.overall = highest_difficulty r ∧
        (r.stream ≤ r.overall ∧ r.jumpstream ≤ r.overall ∧ r.handstream ≤ r.overall ∧
          r.stamina ≤ r.overall ∧ r.jack ≤ r.overall ∧ r.chordjack ≤ r.overall ∧
          r.technical ≤ r.overall) ∧
        (r.overall = r.stream ∨ r.overall = r.jumpstream ∨ r.overall = r.handstream ∨
          r.overall = r.stamina ∨ r.overall = r.jack ∨ r.overall = r.chordjack ∨
          r.overall = r.technical) := by
    intro fuel r h
    obtain ⟨highest, d, rfl⟩ :=
      CalcMain_some_shape M fuel Calc.fresh note_info music_rate score_goal r h
    have ho := gateAndFinish_overall highest score_goal d
    have hs := highest_difficulty_spec (gateAndFinish highest score_goal d)
    rw [← ho] at hs
    exact ⟨ho, hs.1, hs.2⟩
  refine ⟨hmax, fun hrange herfc => ⟨?_, ?_⟩⟩
  · obtain ⟨c, _, hc, _, _, _, _, _, hpoints⟩ := Init_spec M note_info music_rate hne hrange
    refine ⟨c, hc, ?_⟩
    rw [hpoints]
    exact_mod_cast htaps
  · obtain ⟨highest, d, n, hret⟩ :=
      CalcMain_returns M herfc note_info music_rate score_goal hne hrange
    have hp := hmax n _ (hret n (le_refl n))
    exact ⟨_, ⟨n, hret⟩, hp.1, hp.2.1⟩

/-- C16, at a concrete input: the two-row chart with four taps at rate 1 and score goal 0.93,
over the rationals, with an `erfc` that is constantly 2. -/
theorem CalcMain_overall_is_max_witness :
    (0 < (([⟨3, 1 / 4⟩, ⟨5, 3 / 4⟩] : List (NoteInfo ℚ)).map
        (fun row => column_count row.notes)).sum ∧
      intervalsInRange ([⟨3, 1 / 4⟩, ⟨5, 3 / 4⟩] : List (NoteInfo ℚ)) 1
        (intervalCount ([⟨3, 1 / 4⟩, ⟨5, 3 / 4⟩] : List (NoteInfo ℚ)) 1) ∧
      ErfcTail (fun _ : ℚ => (2 : ℚ))) ∧
    ∃ r : DifficultyRating ℚ,
      ReturnsWith (fun fuel => CalcMain ⟨id, fun x _ => x, fun _ => 2⟩ fuel Calc.fresh
        ([⟨3, 1 / 4⟩, ⟨5, 3 / 4⟩] : List (NoteInfo ℚ)) 1 (93 / 100)) r ∧
      r.overall = highest_difficulty r ∧ r.jack ≤ r.overall :=
  ⟨⟨by decide, two_row_chart_in_range, ⟨0, fun _ _ => by norm_num⟩⟩,
    Exists.elim
      ((CalcMain_overall_is_max (F := ℚ) ⟨id, fun x _ => x, fun _ => 2⟩
        [⟨3, 1 / 4⟩, ⟨5, 3 / 4⟩] 1 (93 / 100) (by decide)).2 two_row_chart_in_range
        ⟨0, fun _ _ => by norm_num⟩).2
      (fun r hr => ⟨r, hr.1, hr.2.1, hr.2.2.2.2.2.2.1⟩)⟩

/-! ## The entry point as a function of its arguments -/

/-- The `Calc` that `InitHand` returns is the one it was given with a new membership table and
a new `fingerbias`; the hand it returns and these two members do not depend on the other
members of the `Calc`, nor on the series of the hand other than `v_itvpoints`. -/
theorem InitHand_frame [FloorRing F] (M : MathFns F) (c c' : Calc F) (hand hand' : Hand F)
    (note_info : List (NoteInfo F)) (f1 f2 : Nat) (music_rate : F)
    (hnum : c.numitv = c'.numitv) (hnerv : c.nervIntervals = c'.nervIntervals)
    (hfb : c.fingerbias = c'.fingerbias) (hpts : hand.v_itvpoints = hand'.v_itvpoints) :
    InitHand M c hand note_info f1 f2 music_rate =
      (InitHand M c' hand' note_info f1 f2 music_rate).map
        (fun p => (p.1,
          { c with nervIntervals := p.2.nervIntervals, fingerbias := p.2.fingerbias })) := by
  simp only [InitHand, InitDiff, InitPoints, hnum, hnerv, hfb, hpts, Option.bind_eq_bind,
    Option.pure_def]
  cases ProcessFinger c'.numitv c'.nervIntervals note_info f1 music_rate with
  | none => rfl
  | some p1 =>
    simp only [Option.some_bind]
    cases ProcessFinger c'.numitv p1.2 note_info f2 music_rate with
    | none => rfl
    | some p2 =>
      simp only [Option.some_bind]
      cases zipRows p1.1 p2.1 with
      | none => rfl
      | some rows =>
        simp only [Option.some_bind]
        generalize zipRows (List.map (fun o => o.2.1) (List.map InitDiffRow rows))
          (List.map (fun o => o.2.2) (List.map InitDiffRow rows) ++
            List.drop (List.length p1.1) p2.1) = z
        generalize RollDownscaler M (List.map (fun o => o.2.1) (List.map InitDiffRow rows))
          (List.map (fun o => o.2.2) (List.map InitDiffRow rows) ++
            List.drop (List.length p1.1) p2.1) = oro
        cases z with
        | none => rfl
        | some pts =>
          simp only [Option.some_bind]
          cases OHJumpDownscaler M note_info p2.2 (1 <<< f1) (1 <<< f2) with
          | none => rfl
          | some oh =>
            simp only [Option.some_bind]
            cases Anchorscaler M note_info p2.2 c'.fingerbias (1 <<< f1) (1 <<< f2) with
            | none => rfl
            | some an =>
              simp only [Option.some_bind]
              cases oro with
              | none => rfl
              | some ro =>
                simp only [Option.some_bind]
                cases HSDownscaler M note_info p2.2 with
                | none => rfl
                | some hs =>
                  simp only [Option.some_bind]
                  cases JumpDownscaler M note_info p2.2 with
                  | none => rfl
                  | some ju => rfl

/-- The `Calc` that `InitHand` returns differs from the one it was given in the membership
table and `fingerbias` only. -/
theorem InitHand_calc [FloorRing F] (M : MathFns F) (c : Calc F) (hand : Hand F)
    (note_info : List (NoteInfo F)) (f1 f2 : Nat) (music_rate : F) (p : Hand F × Calc F)
    (h : InitHand M c hand note_info f1 f2 music_rate = some p) :
    p.2 = { c with nervIntervals := p.2.nervIntervals, fingerbias := p.2.fingerbias } := by
  have h2 := InitHand_frame M c c hand hand note_info f1 f2 music_rate rfl rfl rfl rfl
  rw [h, Option.map_some'] at h2
  exact congrArg Prod.snd (Option.some.inj h2)

/-- What `Init` returns depends on the `Calc` it is run on only through the start values of the
accumulators: `fingerbias`, to which `Anchorscaler` adds, and the `v_itvpoints` of the two
hands, to which `InitPoints` appends. The interval count, `MaxPoints`, the membership table,
the other hand series and the jack sequences are overwritten before they are read. -/
theorem Init_frame [FloorRing F] (M : MathFns F) (c c' : Calc F)
    (note_info : List (NoteInfo F)) (music_rate : F)
    (hfb : c.fingerbias = c'.fingerbias)
    (hl : c.left_hand.v_itvpoints = c'.left_hand.v_itvpoints)
    (hr : c.right_hand.v_itvpoints = c'.right_hand.v_itvpoints) :
    Init M c note_info music_rate = Init M c' note_info music_rate := by
  simp only [Init, Option.bind_eq_bind, Option.pure_def]
  cases note_info.getLast? with
  | none => rfl
  | some back =>
    simp only [Option.some_bind]
    cases (makeRows ⌈back.rowTime / (music_rate * IntervalSpan)⌉ : Option (List (List Nat))) with
    | none => rfl
    | some nerv =>
      simp only [Option.some_bind]
      rw [InitHand_frame M
        { c with numitv := ⌈back.rowTime / (music_rate * IntervalSpan)⌉, nervIntervals := nerv }
        { c' with numitv := ⌈back.rowTime / (music_rate * IntervalSpan)⌉, nervIntervals := nerv }
        c.left_hand c'.left_hand note_info 0 1 music_rate rfl rfl hfb hl]
      cases hL : InitHand M
        { c' with numitv := ⌈back.rowTime / (music_rate * IntervalSpan)⌉, nervIntervals := nerv }
        c'.left_hand note_info 0 1 music_rate with
      | none => rfl
      | some l =>
        have hl2 := InitHand_calc M _ _ note_info 0 1 music_rate l hL
        obtain ⟨lh, lc⟩ := l
        simp only at hl2
        simp only [Option.map_some', Option.some_bind]
        obtain ⟨n, mp, l, r, fb, nv, k0, k1, k2, k3⟩ := lc
        simp only [Calc.mk.injEq, true_and, and_true] at hl2
        obtain ⟨e1, e2, e3, e4, e5, e6, e7, e8⟩ := hl2
        subst e1 e2 e3 e4 e5 e6 e7 e8
        rw [InitHand_frame M
          { numitv := ⌈back.rowTime / (music_rate * IntervalSpan)⌉, MaxPoints := c.MaxPoints,
            left_hand := lh, right_hand := c.right_hand, fingerbias := fb, nervIntervals := nv,
            j0 := c.j0, j1 := c.j1, j2 := c.j2, j3 := c.j3 }
          { numitv := ⌈back.rowTime / (music_rate * IntervalSpan)⌉, MaxPoints := c'.MaxPoints,
            left_hand := lh, right_hand := c'.right_hand, fingerbias := fb, nervIntervals := nv,
            j0 := c'.j0, j1 := c'.j1, j2 := c'.j2, j3 := c'.j3 }
          c.right_hand c'.right_hand note_info 2 3 music_rate rfl rfl rfl hr]
        cases hR : InitHand M
          { numitv := ⌈back.rowTime / (music_rate * IntervalSpan)⌉, MaxPoints := c'.MaxPoints,
            left_hand := lh, right_hand := c'.right_hand, fingerbias := fb, nervIntervals := nv,
            j0 := c'.j0, j1 := c'.j1, j2 := c'.j2, j3 := c'.j3 }
          c'.right_hand note_info 2 3 music_rate with
        | none => rfl
        | some r =>
          have hr2 := InitHand_calc M _ _ note_info 2 3 music_rate r hR
          obtain ⟨rh, rc⟩ := r
          simp only at hr2
          simp only [Option.map_some', Option.some_bind]
          obtain ⟨n, mp, l, r, fb2, nv2, k0, k1, k2, k3⟩ := rc
          simp only [Calc.mk.injEq, true_and, and_true] at hr2
          obtain ⟨e1, e2, e3, e4, e5, e6, e7, e8⟩ := hr2
          subst e1 e2 e3 e4 e5 e6 e7 e8
          rfl

/-- The rating that `CalcMain` returns depends on the `Calc` it is run on only through the
start values of `fingerbias` and of the `v_itvpoints` of the two hands. -/
theorem CalcMain_frame [FloorRing F] (M : MathFns F) (fuel : Nat) (c c' : Calc F)
    (note_info : List (NoteInfo F)) (music_rate score_goal : F)
    (hfb : c.fingerbias = c'.fingerbias)
    (hl : c.left_hand.v_itvpoints = c'.left_hand.v_itvpoints)
    (hr : c.right_hand.v_itvpoints = c'.right_hand.v_itvpoints) :
    CalcMain M fuel c note_info music_rate score_goal =
      CalcMain M fuel c' note_info music_rate score_goal := by
  unfold CalcMain
  rw [Init_frame M c c' note_info music_rate hfb hl hr]

/-- More fuel does not change what `Chisel` returns. -/
theorem Chisel_mono (M : MathFns F) (c : Calc F) (player_skill resolution score_goal : F)
    (flags : ChiselFlags) (fuel fuel2 : Nat) (hf : fuel ≤ fuel2) (v : F)
    (h : Chisel M fuel c player_skill resolution score_goal flags = some v) :
    Chisel M fuel2 c player_skill resolution score_goal flags = some v :=
  approximate_mono _ true fuel fuel2 hf 7 player_skill resolution v h

/-- More fuel does not change what `AggregateScores` returns. -/
theorem AggregateScores_mono (M : MathFns F) (skillsets : List F) (rating resolution : F)
    (fuel fuel2 : Nat) (hf : fuel ≤ fuel2) (v : F)
    (h : AggregateScores M fuel skillsets rating resolution = some v) :
    AggregateScores M fuel2 skillsets rating resolution = some v :=
  approximate_mono _ false fuel fuel2 hf 11 rating resolution v h

/-- More fuel does not change what `solveSkills` returns. -/
theorem solveSkills_mono (M : MathFns F) (c : Calc F) (score_goal : F) (fuel fuel2 : Nat)
    (hf : fuel ≤ fuel2) (s : Solved F) (h : solveSkills M fuel c score_goal = some s) :
    solveSkills M fuel2 c score_goal = some s := by
  simp only [solveSkills, Option.bind_eq_bind, Option.bind_eq_some, Option.pure_def] at h ⊢
  obtain ⟨stream, h1, js, h2, hs, h3, tech0, h4, jack, h5, h6⟩ := h
  refine ⟨stream, Chisel_mono M c _ _ _ _ fuel fuel2 hf _ h1,
    js, Chisel_mono M c _ _ _ _ fuel fuel2 hf _ h2,
    hs, Chisel_mono M c _ _ _ _ fuel fuel2 hf _ h3,
    tech0, Chisel_mono M c _ _ _ _ fuel fuel2 hf _ h4,
    jack, Chisel_mono M c _ _ _ _ fuel fuel2 hf _ h5, ?_⟩
  split_ifs at h6 ⊢ <;>
    (simp only [Option.bind_eq_some] at h6 ⊢
     obtain ⟨stam, h7, h8⟩ := h6
     exact ⟨stam, Chisel_mono M c _ _ _ _ fuel fuel2 hf _ h7, h8⟩)

/-- More fuel does not change what `capSkills` returns. -/
theorem capSkills_mono (M : MathFns F) (sc : Scalers F) (score_goal : F)
    (d : DifficultyRating F) (fuel fuel2 : Nat) (hf : fuel ≤ fuel2) (d2 : DifficultyRating F)
    (h : capSkills M fuel sc score_goal d = some d2) :
    capSkills M fuel2 sc score_goal d = some d2 := by
  simp only [capSkills, Option.bind_eq_bind, Option.bind_eq_some, Option.pure_def] at h ⊢
  obtain ⟨overall, h1, h2⟩ := h
  exact ⟨overall, AggregateScores_mono M _ _ _ fuel fuel2 hf _ h1, h2⟩

/-- More fuel does not change what `finishRating` returns. -/
theorem finishRating_mono (M : MathFns F) (score_goal : F) (d : DifficultyRating F) (b : Bool)
    (fuel fuel2 : Nat) (hf : fuel ≤ fuel2) (d2 : DifficultyRating F)
    (h : finishRating M fuel score_goal d b = some d2) :
    finishRating M fuel2 score_goal d b = some d2 := by
  simp only [finishRating, Option.bind_eq_bind, Option.bind_eq_some, Option.pure_def] at h ⊢
  obtain ⟨overall, h1, h2⟩ := h
  exact ⟨overall, AggregateScores_mono M _ _ _ fuel fuel2 hf _ h1, h2⟩

/-- More fuel does not change the rating that `CalcMain` returns. -/
theorem CalcMain_mono [FloorRing F] (M : MathFns F) (c0 : Calc F)
    (note_info : List (NoteInfo F)) (music_rate score_goal : F) (fuel fuel2 : Nat)
    (hf : fuel ≤ fuel2) (r : DifficultyRating F)
    (h : CalcMain M fuel c0 note_info music_rate score_goal = some r) :
    CalcMain M fuel2 c0 note_info music_rate score_goal = some r := by
  simp only [CalcMain, Option.bind_eq_bind, Option.bind_eq_some] at h ⊢
  obtain ⟨c, hc, back, hb, s, hs, d, hd, hfin⟩ := h
  exact ⟨c, hc, back, hb, s, solveSkills_mono M c score_goal fuel fuel2 hf s hs, d,
    capSkills_mono M _ score_goal _ fuel fuel2 hf d hd,
    finishRating_mono M score_goal d _ fuel fuel2 hf r hfin⟩

/-- More fuel does not change the rating that the single-rate entry point returns. -/
theorem MinaSDCalc_mono [FloorRing F] (M : MathFns F) (note_info : List (NoteInfo F))
    (musicrate goal : F) (fuel fuel2 : Nat) (hf : fuel ≤ fuel2) (r : DifficultyRating F)
    (h : MinaSDCalc M fuel note_info musicrate goal = some r) :
    MinaSDCalc M fuel2 note_info musicrate goal = some r := by
  unfold MinaSDCalc at h ⊢
  split_ifs at h ⊢
  · exact h
  · exact CalcMain_mono M _ note_info musicrate goal fuel fuel2 hf r h

/-- On a non-empty chart whose interval indices are all in range, and with an `erfc` that has
the tail property, the single-rate entry point returns one rating for every large enough
fuel. -/
theorem MinaSDCalc_returns [FloorRing F] [Archimedean F] (M : MathFns F)
    (herfc : ErfcTail M.erfc) (note_info : List (NoteInfo F)) (musicrate goal : F)
    (hne : note_info ≠ [])
    (hrange : intervalsInRange note_info musicrate (intervalCount note_info musicrate)) :
    ∃ r : DifficultyRating F,
      ReturnsWith (fun fuel => MinaSDCalc M fuel note_info musicrate goal) r := by
  obtain ⟨highest, d, n, h⟩ := CalcMain_returns M herfc note_info musicrate goal hne hrange
  refine ⟨gateAndFinish highest goal d, n, fun fuel hfuel => ?_⟩
  have e := h fuel hfuel
  simp only at e
  show MinaSDCalc M fuel note_info musicrate goal = _
  unfold MinaSDCalc
  rw [if_neg (by simpa using hne)]
  exact e

/-- C3: the rating that the single-rate entry point returns is a function of the chart, the
rate and the score goal alone. Two invocations on equal arguments that return, with whatever
fuel, return equal ratings. On a non-empty chart the entry point runs `CalcMain` on a new
`Calc`, and `CalcMain` run on any other `Calc` whose accumulators start at their initial
values, `fingerbias` at 0 and the two `v_itvpoints` empty, gives the same result, whatever the
interval count, `MaxPoints`, membership table, other hand series and jack sequences that
`Calc` holds. And on a non-empty chart whose interval indices are in range the entry point
does return a rating, the same for every large enough fuel. -/
theorem MinaSDCalc_pure [FloorRing F] [Archimedean F] (M : MathFns F)
    (chart : List (NoteInfo F)) (rate goal : F) :
    (∀ (fuel1 fuel2 : Nat) (r1 r2 : DifficultyRating F),
      MinaSDCalc M fuel1 chart rate goal = some r1 →
      MinaSDCalc M fuel2 chart rate goal = some r2 → r1 = r2) ∧
    (∀ (fuel : Nat) (c0 : Calc F), chart ≠ [] → c0.fingerbias = 0 →
      c0.left_hand.v_itvpoints = [] → c0.right_hand.v_itvpoints = [] →
      CalcMain M fuel c0 chart rate goal = MinaSDCalc M fuel chart rate goal) ∧
    (chart ≠ [] → intervalsInRange chart rate (intervalCount chart rate) → ErfcTail M.erfc →
      ∃ r : DifficultyRating F,
        ReturnsWith (fun fuel => MinaSDCalc M fuel chart rate goal) r) := by
  refine ⟨?_, ?_, ?_⟩
  · intro fuel1 fuel2 r1 r2 h1 h2
    have e1 := MinaSDCalc_mono M chart rate goal fuel1 (max fuel1 fuel2) (le_max_left _ _) r1 h1
    have e2 := MinaSDCalc_mono M chart rate goal fuel2 (max fuel1 fuel2) (le_max_right _ _) r2 h2
    rw [e1] at e2
    exact Option.some.inj e2
  · intro fuel c0 hne hfb hl hr
    unfold MinaSDCalc
    rw [if_neg (by simpa using hne)]
    exact CalcMain_frame M fuel c0 Calc.fresh chart rate goal hfb hl hr
  · intro hne hrange herfc
    exact MinaSDCalc_returns M herfc chart rate goal hne hrange

/-- C3, at a concrete input: the two-row chart with four taps at rate 1 and score goal 0.93,
over the rationals, with an `erfc` that is constantly 2. The entry point returns a rating `r`;
`CalcMain` run on a `Calc` that holds an interval count of 7, `MaxPoints` 3, a membership
table, hand series and jack sequences of an earlier run, with `fingerbias` 0 and empty
`v_itvpoints`, returns that same `r`, and so does every other invocation that returns. -/
theorem MinaSDCalc_pure_witness :
    (([⟨3, 1 / 4⟩, ⟨5, 3 / 4⟩] : List (NoteInfo ℚ)) ≠ [] ∧
      intervalsInRange ([⟨3, 1 / 4⟩, ⟨5, 3 / 4⟩] : List (NoteInfo ℚ)) 1
        (intervalCount ([⟨3, 1 / 4⟩, ⟨5, 3 / 4⟩] : List (NoteInfo ℚ)) 1) ∧
      ErfcTail (fun _ : ℚ => (2 : ℚ))) ∧
    ∃ r : DifficultyRating ℚ,
      ReturnsWith (fun fuel => MinaSDCalc ⟨id, fun x _ => x, fun _ => 2⟩ fuel
        ([⟨3, 1 / 4⟩, ⟨5, 3 / 4⟩] : List (NoteInfo ℚ)) 1 (93 / 100)) r ∧
      ReturnsWith (fun fuel => CalcMain ⟨id, fun x _ => x, fun _ => 2⟩ fuel
        ⟨7, 3, ⟨[1], [1], [1], [1], [1], [], [1], [1]⟩, ⟨[2], [2], [2], [2], [2], [], [2], [2]⟩,
          0, [[5], [6]], [1], [2], [3], [4]⟩
        ([⟨3, 1 / 4⟩, ⟨5, 3 / 4⟩] : List (NoteInfo ℚ)) 1 (93 / 100)) r ∧
      ∀ (fuel : Nat) (r2 : DifficultyRating ℚ),
        MinaSDCalc ⟨id, fun x _ => x, fun _ => 2⟩ fuel
          ([⟨3, 1 / 4⟩, ⟨5, 3 / 4⟩] : List (NoteInfo ℚ)) 1 (93 / 100) = some r2 → r2 = r :=
  ⟨⟨by simp, two_row_chart_in_range, ⟨0, fun _ _ => by norm_num⟩⟩,
    (fun h =>
      Exists.elim (h.2.2 (by simp) two_row_chart_in_range ⟨0, fun _ _ => by norm_num⟩)
        (fun r hr => Exists.elim hr (fun n hn =>
          ⟨r, ⟨n, hn⟩,
            ⟨n, fun fuel hf => (h.2.1 fuel _ (by simp) rfl rfl rfl).trans (hn fuel hf)⟩,
            fun fuel r2 h2 => h.1 fuel n r2 r h2 (hn n (le_refl n))⟩)))
      (MinaSDCalc_pure (F := ℚ) ⟨id, fun x _ => x, fun _ => 2⟩
        [⟨3, 1 / 4⟩, ⟨5, 3 / 4⟩] 1 (93 / 100))⟩

/-! ## Runs of the sweep that return -/

/-- Monadic `List.mapM` into `Option` of calls with fuel returns, for every large enough fuel,
the list of the values that the calls return. -/
theorem mapM_option_returns {α β : Type} (f : Nat → α → Option β) :
    ∀ l : List α, (∀ a ∈ l, ∃ v, ReturnsWith (fun fuel => f fuel a) v) →
      ∃ out : List β, ReturnsWith (fun fuel => l.mapM (f fuel)) out ∧
        out.length = l.length ∧
        ∀ i (h1 : i < l.length) (h2 : i < out.length),
          ReturnsWith (fun fuel => f fuel l[i]) out[i]
  | [], _ => ⟨[], ⟨0, fun _ _ => rfl⟩, rfl, fun i h1 _ => absurd h1 (Nat.not_lt_zero i)⟩
  | a :: l, h => by
    obtain ⟨v, n1, hv⟩ := h a (List.mem_cons_self a l)
    obtain ⟨out, ⟨n2, hout⟩, hlen, hall⟩ :=
      mapM_option_returns f l (fun x hx => h x (List.mem_cons_of_mem a hx))
    refine ⟨v :: out, ⟨max n1 n2, fun fuel hf => ?_⟩, by simp [hlen], ?_⟩
    · show (a :: l).mapM (f fuel) = some (v :: out)
      have e1 := hv fuel (by omega)
      have e2 := hout fuel (by omega)
      simp only at e1 e2
      rw [mapM_option_cons, e1, e2]
      rfl
    · intro i h1 h2
      cases i with
      | zero => exact ⟨n1, hv⟩
      | succ i => simpa using hall i (by simpa using h1) (by simpa using h2)

/-- On a non-empty chart whose interval indices are in range at each of the fourteen rates of
the sweep, and with an `erfc` that has the tail property, the sweep returns, for every large
enough fuel, one list of exactly 14 ratings, the rating at index `i` being the one that the
single-rate entry point returns at rate `0.7 + 0.1 × i` and goal 0.93. -/
theorem MinaSDCalcAll_returns [FloorRing F] [Archimedean F] (M : MathFns F)
    (herfc : ErfcTail M.erfc) (note_info : List (NoteInfo F)) (hne : note_info ≠ [])
    (hrange : ∀ i : Nat, i < 14 →
      intervalsInRange note_info (0.7 + 0.1 * (i : F))
        (intervalCount note_info (0.7 + 0.1 * (i : F)))) :
    ∃ out : List (DifficultyRating F),
      ReturnsWith (fun fuel => MinaSDCalcAll M fuel note_info) out ∧ out.length = 14 ∧
      ∀ i (_ : i < 14) (h2 : i < out.length),
        ReturnsWith (fun fuel => MinaSDCalc M fuel note_info (0.7 + 0.1 * (i : F)) 0.93)
          out[i] := by
  obtain ⟨out, ⟨n, hout⟩, hlen, hall⟩ := mapM_option_returns
    (fun fuel (i : Nat) => MinaSDCalc M fuel note_info (0.7 + 0.1 * (i : F)) 0.93)
    (List.range 14) (fun i hi =>
      MinaSDCalc_returns M herfc note_info _ 0.93 hne (hrange i (List.mem_range.mp hi)))
  refine ⟨out, ⟨n, fun fuel hf => ?_⟩, by simpa using hlen, ?_⟩
  · show MinaSDCalcAll M fuel note_info = some out
    rw [MinaSDCalcAll_eq_mapM]
    exact hout fuel hf
  · intro i h1 h2
    have := hall i (by simpa using h1) h2
    simpa using this

/-- The one-row chart over the rationals with a tap at time 1/3 has its interval index 0 in
range of its interval count 1 at each of the fourteen rates of the sweep. -/
theorem one_row_chart_in_range (i : Nat) (hi : i < 14) :
    intervalsInRange ([⟨1, 1 / 3⟩] : List (NoteInfo ℚ)) (0.7 + 0.1 * (i : ℚ))
      (intervalCount ([⟨1, 1 / 3⟩] : List (NoteInfo ℚ)) (0.7 + 0.1 * (i : ℚ))) := by
  have hc : intervalCount ([⟨1, 1 / 3⟩] : List (NoteInfo ℚ)) (0.7 + 0.1 * (i : ℚ)) = 1 := by
    simp only [intervalCount, List.getLast?_singleton, IntervalSpan]
    rw [Int.ceil_eq_iff]
    interval_cases i <;> norm_num
  rw [hc]
  intro row hrow
  simp only [List.mem_singleton] at hrow
  subst hrow
  have h0 : (0 : ℚ) ≤ 1 / 3 / (0.7 + 0.1 * (i : ℚ)) / IntervalSpan := by
    unfold IntervalSpan
    positivity
  simp only [intervalIndex, truncToInt, if_pos h0]
  have hf : ⌊(1 / 3 : ℚ) / (0.7 + 0.1 * (i : ℚ)) / IntervalSpan⌋ = 0 := by
    rw [Int.floor_eq_iff]
    unfold IntervalSpan
    interval_cases i <;> norm_num
  rw [hf]
  decide

/-- A run of the sweep that returns: on the one-row chart with a tap at time 1/3, over the
rationals and with an `erfc` that is constantly 2, the sweep returns a list of 14 ratings. -/
theorem MinaSDCalcAll_returns_example :
    ∃ out : List (DifficultyRating ℚ),
      ReturnsWith (fun fuel => MinaSDCalcAll ⟨id, fun x _ => x, fun _ => 2⟩ fuel
        ([⟨1, 1 / 3⟩] : List (NoteInfo ℚ))) out ∧ out.length = 14 := by
  obtain ⟨out, h1, h2, _⟩ := MinaSDCalcAll_returns (F := ℚ) ⟨id, fun x _ => x, fun _ => 2⟩
    ⟨0, fun _ _ => by norm_num⟩ [⟨1, 1 / 3⟩] (by simp) one_row_chart_in_range
  exact ⟨out, h1, h2⟩

/-! ## The stamina multipliers on a rising ramp -/

/-- The loop of `StamAdjust` multiplies every difficulty by the multiplier of its
iteration. -/
theorem StamAdjustLoop_eq_zipWith (x : F) : ∀ (diff : List F) (s : StamState F),
    StamAdjustLoop x s diff = List.zipWith (fun i m => i * m) diff (StamModsLoop x s diff)
  | [], _ => rfl
  | i :: rest, s => by
    simp only [StamAdjustLoop, StamModsLoop, List.zipWith_cons_cons]
    rw [StamAdjustLoop_eq_zipWith x rest]

/-- The multiplier of iteration `i` is the `mod` of the state after the first `i + 1`
iterations. -/
theorem StamModsLoop_getD (x : F) : ∀ (diff : List F) (s : StamState F) (i : Nat),
    i < diff.length →
      (StamModsLoop x s diff).getD i 0 = ((diff.take (i + 1)).foldl (StamStep x) s).mod
  | [], _, i, h => absurd h (Nat.not_lt_zero i)
  | _ :: _, _, 0, _ => by simp [StamModsLoop]
  | a :: rest, s, j + 1, h => by
    simp only [StamModsLoop, List.getD_cons_succ, List.take_succ_cons, List.foldl_cons]
    exact StamModsLoop_getD x rest (StamStep x s a) j (by simpa using h)

/-- The state of the loop after one more entry of a series given by its index. -/
theorem foldl_range_succ (x : F) (d : Nat → F) (s : StamState F) (n : Nat) :
    ((List.range (n + 1)).map d).foldl (StamStep x) s =
      StamStep x (((List.range n).map d).foldl (StamStep x) s) (d n) := by
  rw [List.range_succ, List.map_append, List.foldl_append]
  rfl

/-- One iteration of the loop of `StamAdjust`, given the unclamped multiplier and, when that
exceeds 1, the raised floor. -/
theorem StamStep_of_gt (x : F) (s : StamState F) (i mod1 floor1 : F)
    (h1 : mod1 = s.mod + ((s.last_diff + i) / 2 / (stamProp * x) - 1) / stamMag)
    (hgt : mod1 > 1) (hf : floor1 = s.floor + (mod1 - 1) / stamFscale) :
    StamStep x s i = ⟨floor1, CalcClamp mod1 floor1 stamCeil, i⟩ := by
  unfold StamStep
  simp only []
  rw [← h1, if_pos hgt, ← hf]

/-- The state of the loop on the ramp after the first interval and `m` more, as long as the
multiplier moves freely between the floor and the cap, for skill 4/3. -/
theorem stamRamp_state : ∀ m : Nat, m ≤ 5997 →
    ((List.range (m + 1)).map stamRampValue).foldl (StamStep (4 / 3)) ⟨1, 1, 0⟩ =
      ⟨1 + (m : ℚ) * (m + 1) * (2 * m + 7) / (6 * 2000 * 449850000),
        1 + (m : ℚ) * (m + 2) / 449850000, stamRampValue m⟩
  | 0, _ => by
    rw [foldl_range_succ]
    norm_num [StamStep, stamRampValue, stamProp, stamMag, stamFscale, stamCeil, CalcClamp]
  | m + 1, hm => by
    rw [foldl_range_succ, stamRamp_state m (by omega)]
    have hmq : (m : ℚ) ≤ 5996 := by exact_mod_cast (by omega : m ≤ 5996)
    have hm0 : (0 : ℚ) ≤ (m : ℚ) := Nat.cast_nonneg m
    rw [StamStep_of_gt (4 / 3) _ (stamRampValue (m + 1))
      (1 + ((m : ℚ) + 1) * ((m : ℚ) + 3) / 449850000)
      (1 + ((m : ℚ) + 1) * ((m : ℚ) + 2) * (2 * (m : ℚ) + 9) / (6 * 2000 * 449850000))]
    · have hclamp : CalcClamp (1 + ((m : ℚ) + 1) * ((m : ℚ) + 3) / 449850000)
          (1 + ((m : ℚ) + 1) * ((m : ℚ) + 2) * (2 * (m : ℚ) + 9) / (6 * 2000 * 449850000))
          stamCeil = 1 + ((m : ℚ) + 1) * ((m : ℚ) + 3) / 449850000 := by
        unfold CalcClamp stamCeil
        rw [if_neg, if_neg]
        · have hin : ((m : ℚ) + 2) * (2 * (m : ℚ) + 9) ≤ 12000 * ((m : ℚ) + 3) := by
            nlinarith
          have hout : ((m : ℚ) + 1) * (((m : ℚ) + 2) * (2 * (m : ℚ) + 9)) ≤
              ((m : ℚ) + 1) * (12000 * ((m : ℚ) + 3)) :=
            mul_le_mul_of_nonneg_left hin (by linarith)
          rw [not_lt, add_le_add_iff_left, div_le_div_iff₀ (by norm_num) (by norm_num)]
          linarith
        · rw [not_lt]
          have : ((m : ℚ) + 1) * ((m : ℚ) + 3) / 449850000 ≤ 8 / 100 := by
            rw [div_le_div_iff₀ (by norm_num) (by norm_num)]
            nlinarith
          linarith
      rw [hclamp]
      push_cast
      congr 1
      · ring
      · ring
    · simp only [stamRampValue, stamProp, stamMag]
      push_cast
      ring
    · have : (0 : ℚ) < ((m : ℚ) + 1) * ((m : ℚ) + 3) / 449850000 := by positivity
      linarith
    · simp only [stamFscale]
      ring

/-- The multiplier of interval `i` of the ramp is the `mod` of the state after `i + 1`
iterations. -/
theorem stamRamp_mod (i : Nat) (hi : i < 6000) :
    (StamMods (4 / 3) stamRamp).getD i 0 =
      (((List.range (i + 1)).map stamRampValue).foldl (StamStep (4 / 3)) ⟨1, 1, 0⟩).mod := by
  have hlen : i < stamRamp.length := by
    rw [stamRamp, List.length_map, List.length_range]
    exact hi
  have htake : stamRamp.take (i + 1) = (List.range (i + 1)).map stamRampValue := by
    rw [stamRamp, ← List.map_take, List.take_range, Nat.min_eq_left (by omega)]
  unfold StamMods
  rw [StamModsLoop_getD (4 / 3) stamRamp _ i hlen, htake]

/-- The state of the loop on the ramp after 5999 intervals: the unclamped multiplier is
exactly 1.08 and the floor is above it, so the multiplier is the floor. -/
theorem stamRamp_state_5999 :
    ((List.range (5998 + 1)).map stamRampValue).foldl (StamStep (4 / 3)) ⟨1, 1, 0⟩ =
      ⟨1 + 5998 * 5999 * 12003 / (6 * 2000 * 449850000),
        1 + 5998 * 5999 * 12003 / (6 * 2000 * 449850000), stamRampValue 5998⟩ := by
  rw [foldl_range_succ, stamRamp_state 5997 (le_refl 5997)]
  norm_num [StamStep, stamRampValue, stamProp, stamMag, stamFscale, stamCeil, CalcClamp]

/-- The state of the loop on the ramp after 6000 intervals: the multiplier is back at the cap
1.08. -/
theorem stamRamp_state_6000 :
    (((List.range (5999 + 1)).map stamRampValue).foldl (StamStep (4 / 3)) ⟨1, 1, 0⟩).mod =
      1.08 := by
  rw [foldl_range_succ, stamRamp_state_5999]
  norm_num [StamStep, stamRampValue, stamProp, stamMag, stamFscale, stamCeil, CalcClamp]

/-- The entries of the ramp increase strictly. -/
theorem stamRampValue_pairwise (n : Nat) :
    List.Pairwise (fun a b => a < b) ((List.range n).map stamRampValue) := by
  rw [List.pairwise_map]
  apply List.Pairwise.imp _ (List.pairwise_lt_range n)
  intro a b hab
  unfold stamRampValue
  have : (a : ℚ) < (b : ℚ) := by exact_mod_cast hab
  linarith

/-- The entries of the ramp are positive. -/
theorem stamRampValue_pos (n : Nat) : ∀ d ∈ (List.range n).map stamRampValue, 0 < d := by
  intro d hd
  obtain ⟨k, _, rfl⟩ := List.mem_map.mp hd
  unfold stamRampValue
  positivity

/-- C14, the failing input: for skill 4/3 and the ramp of 6000 positive, strictly increasing
interval difficulties `1 + 71 (k + 1) / 44985000`, the multiplier that `StamAdjust` applies to
interval 5998 is the floor, which has risen above the cap 1.08, and the multiplier it applies
to interval 5999 is the cap 1.08, which is smaller. -/
theorem StamMods_ramp_decreases :
    (0 : ℚ) < 4 / 3 ∧ (∀ d ∈ stamRamp, 0 < d) ∧ List.Pairwise (fun a b => a < b) stamRamp ∧
    (StamMods (4 / 3) stamRamp).getD 5998 0 = 1 + 5998 * 5999 * 12003 / (6 * 2000 * 449850000) ∧
    (StamMods (4 / 3) stamRamp).getD 5999 0 = 1.08 ∧
    (StamMods (4 / 3) stamRamp).getD 5999 0 < (StamMods (4 / 3) stamRamp).getD 5998 0 := by
  have h98 : (StamMods (4 / 3) stamRamp).getD 5998 0 =
      1 + 5998 * 5999 * 12003 / (6 * 2000 * 449850000) := by
    rw [stamRamp_mod 5998 (by decide), stamRamp_state_5999]
  have h99 : (StamMods (4 / 3) stamRamp).getD 5999 0 = 1.08 := by
    rw [stamRamp_mod 5999 (by decide), stamRamp_state_6000]
  refine ⟨by norm_num, ?_, ?_, h98, h99, ?_⟩
  · exact stamRampValue_pos 6000
  · exact stamRampValue_pairwise 6000
  · rw [h98, h99]
    norm_num

/-! ## chord_proportion -/

/-- The two counters of `chord_proportion` after its loop: the taps of the chart, and
`chord_size` times the number of rows with exactly `chord_size` taps. -/
theorem chord_counts_eq (chord_size : Nat) : ∀ (note_info : List (NoteInfo F)) (acc : Nat × Nat),
    note_info.foldl (fun acc row =>
      (acc.1 + column_count row.notes,
        if column_count row.notes = chord_size then acc.2 + column_count row.notes
        else acc.2)) acc =
      (acc.1 + (note_info.map (fun row => column_count row.notes)).sum,
        acc.2 + chord_size *
          note_info.countP (fun row => decide (column_count row.notes = chord_size)))
  | [], acc => by simp
  | row :: rest, acc => by
    rw [List.foldl_cons, chord_counts_eq chord_size rest]
    by_cases hk : column_count row.notes = chord_size
    · simp only [hk, if_true, List.map_cons, List.sum_cons, List.countP_cons, decide_True]
      rw [Nat.mul_add]
      exact Prod.ext (by simp only; omega) (by simp only; omega)
    · simp only [hk, if_false, List.map_cons, List.sum_cons, List.countP_cons, decide_False,
        Bool.false_eq_true, Nat.add_zero]
      exact Prod.ext (by simp only; omega) rfl

/-- The taps of a chart are the taps of its rows with one, two, three and four taps. -/
theorem taps_by_chord_size : ∀ note_info : List (NoteInfo F),
    (note_info.map (fun row => column_count row.notes)).sum =
      note_info.countP (fun row => decide (column_count row.notes = 1)) +
      2 * note_info.countP (fun row => decide (column_count row.notes = 2)) +
      3 * note_info.countP (fun row => decide (column_count row.notes = 3)) +
      4 * note_info.countP (fun row => decide (column_count row.notes = 4))
  | [] => rfl
  | row :: rest => by
    have ih := taps_by_chord_size rest
    have hc : column_count row.notes ≤ 4 := by
      unfold column_count
      omega
    simp only [List.map_cons, List.sum_cons, List.countP_cons, decide_eq_true_eq]
    rw [ih]
    split_ifs <;> omega

/-- C29: for every chart with at least one tap, `chord_proportion(chart, k)` equals
`k × (number of rows with exactly k taps) / (total taps)` and lies in `[0, 1]`, and the sum
of the proportions for `k = 2, 3, 4` is at most 1, with equality exactly when no row of the
chart has a single tap. -/
theorem chord_proportion_spec (note_info : List (NoteInfo F))
    (htaps : 0 < (note_info.map (fun row => column_count row.notes)).sum) :
    (∀ k : Nat, (chord_proportion note_info k : F) =
      ((k * note_info.countP (fun row => decide (column_count row.notes = k)) : Nat) : F) /
        (((note_info.map (fun row => column_count row.notes)).sum : Nat) : F)) ∧
    (∀ k : Nat, (0 : F) ≤ chord_proportion note_info k ∧
      (chord_proportion note_info k : F) ≤ 1) ∧
    (chord_proportion note_info 2 + chord_proportion note_info 3 +
      chord_proportion note_info 4 : F) ≤ 1 ∧
    ((chord_proportion note_info 2 + chord_proportion note_info 3 +
      chord_proportion note_info 4 : F) = 1 ↔
      note_info.countP (fun row => decide (column_count row.notes = 1)) = 0) := by
  have hform : ∀ k : Nat, (chord_proportion note_info k : F) =
      ((k * note_info.countP (fun row => decide (column_count row.notes = k)) : Nat) : F) /
        (((note_info.map (fun row => column_count row.notes)).sum : Nat) : F) := by
    intro k
    unfold chord_proportion chord_counts
    simp only
    rw [chord_counts_eq k note_info (0, 0)]
    simp only [Nat.zero_add]
  have hT : (0 : F) < (((note_info.map (fun row => column_count row.notes)).sum : Nat) : F) := by
    exact_mod_cast htaps
  have hle : ∀ k : Nat,
      k * note_info.countP (fun row => decide (column_count row.notes = k)) ≤
        (note_info.map (fun row => column_count row.notes)).sum := by
    intro k
    have h := chord_counts_eq (F := F) k note_info (0, 0)
    have key : ∀ (rs : List (NoteInfo F)),
        k * rs.countP (fun row => decide (column_count row.notes = k)) ≤
          (rs.map (fun row => column_count row.notes)).sum := by
      intro rs
      induction rs with
      | nil => simp
      | cons row rest ih =>
        simp only [List.map_cons, List.sum_cons, List.countP_cons, decide_eq_true_eq]
        split_ifs with hk
        · rw [Nat.mul_add]
          omega
        · rw [Nat.add_zero]
          omega
    exact key note_info
  have hsum := taps_by_chord_size note_info
  refine ⟨hform, ?_, ?_, ?_⟩
  · intro k
    rw [hform k]
    constructor
    · exact div_nonneg (Nat.cast_nonneg _) (le_of_lt hT)
    · rw [div_le_one hT]
      exact_mod_cast hle k
  · rw [hform 2, hform 3, hform 4, ← add_div, ← add_div, div_le_one hT]
    have : 2 * note_info.countP (fun row => decide (column_count row.notes = 2)) +
        3 * note_info.countP (fun row => decide (column_count row.notes = 3)) +
        4 * note_info.countP (fun row => decide (column_count row.notes = 4)) ≤
        (note_info.map (fun row => column_count row.notes)).sum := by omega
    exact_mod_cast this
  · rw [hform 2, hform 3, hform 4, ← add_div, ← add_div, div_eq_one_iff_eq (ne_of_gt hT)]
    constructor
    · intro h
      have h' : 2 * note_info.countP (fun row => decide (column_count row.notes = 2)) +
          3 * note_info.countP (fun row => decide (column_count row.notes = 3)) +
          4 * note_info.countP (fun row => decide (column_count row.notes = 4)) =
          (note_info.map (fun row => column_count row.notes)).sum := by exact_mod_cast h
      omega
    · intro h
      have h' : 2 * note_info.countP (fun row => decide (column_count row.notes = 2)) +
          3 * note_info.countP (fun row => decide (column_count row.notes = 3)) +
          4 * note_info.countP (fun row => decide (column_count row.notes = 4)) =
          (note_info.map (fun row => column_count row.notes)).sum := by omega
      exact_mod_cast h'

/-- C29, at a concrete input: the chart with a jump, a single tap and a hand, six taps in
all; the proportions of jumps and hands are 2/6 and 3/6. -/
theorem chord_proportion_spec_witness :
    0 < (([⟨3, 0⟩, ⟨1, 1⟩, ⟨7, 2⟩] : List (NoteInfo ℚ)).map
      (fun row => column_count row.notes)).sum ∧
    (chord_proportion ([⟨3, 0⟩, ⟨1, 1⟩, ⟨7, 2⟩] : List (NoteInfo ℚ)) 2 +
      chord_proportion ([⟨3, 0⟩, ⟨1, 1⟩, ⟨7, 2⟩] : List (NoteInfo ℚ)) 3 +
      chord_proportion ([⟨3, 0⟩, ⟨1, 1⟩, ⟨7, 2⟩] : List (NoteInfo ℚ)) 4 : ℚ) ≤ 1 :=
  ⟨by decide, (chord_proportion_spec ([⟨3, 0⟩, ⟨1, 1⟩, ⟨7, 2⟩] : List (NoteInfo ℚ))
    (by decide)).2.2.1⟩

/-! ## CalcMSEstimate -/

/-- C21: `CalcMSEstimate` returns 0 for the empty gap list and leaves it empty; for a
non-empty list, with `a :: rest` the list sorted ascending (a permutation of the input, `a`
its smallest gap), it leaves the list as `a × 1.066 :: rest`, of the same length and with
`rest` sorted ascending and not below `a`, and returns `1375 / avg`, where `avg` is the sum of
the first `min(n, 6)` elements of the list so left divided by `min(n, 6)`. -/
theorem CalcMSEstimate_spec (input : List F) :
    (input = [] → CalcMSEstimate input = (0, [])) ∧
    (input ≠ [] → ∃ (a : F) (rest : List F),
      List.Perm (a :: rest) input ∧ List.Sorted (fun x y => x ≤ y) (a :: rest) ∧
      (∀ x ∈ input, a ≤ x) ∧
      (CalcMSEstimate input).2 = a * 1.066 :: rest ∧
      (CalcMSEstimate input).2.length = input.length ∧
      (CalcMSEstimate input).1 =
        1375 / (((a * 1.066 :: rest).take (min input.length 6)).sum /
          ((min input.length 6 : Nat) : F))) := by
  constructor
  · intro h
    rw [h]
    rfl
  · intro h
    have hperm := List.perm_insertionSort (fun x y : F => x ≤ y) input
    have hsorted := List.sorted_insertionSort (fun x y : F => x ≤ y) input
    cases hs : input.insertionSort (fun x y => x ≤ y) with
    | nil =>
      rw [hs] at hperm
      exact absurd (List.Perm.eq_nil (List.Perm.symm hperm)) h
    | cons a rest =>
      rw [hs] at hperm hsorted
      have hlen : (a :: rest).length = input.length := List.Perm.length_eq hperm
      have hval : CalcMSEstimate input =
          (1375 / (((a * 1.066 :: rest).take (min (a * 1.066 :: rest).length 6)).sum /
            ((min (a * 1.066 :: rest).length 6 : Nat) : F)), a * 1.066 :: rest) := by
        cases input with
        | nil => exact absurd rfl h
        | cons b t =>
          unfold CalcMSEstimate
          simp only [hs]
      have hlen2 : (a * 1.066 :: rest).length = input.length := by
        rw [← hlen]
        rfl
      refine ⟨a, rest, hperm, hsorted, ?_, ?_, ?_, ?_⟩
      · intro x hx
        have hx' : x ∈ a :: rest := (List.Perm.mem_iff hperm).mpr hx
        rcases List.mem_cons.mp hx' with rfl | hx'
        · exact le_refl _
        · exact List.rel_of_sorted_cons hsorted x hx'
      · rw [hval]
      · rw [hval]
        exact hlen2
      · rw [hval, hlen2]

/-- C21, at a concrete input: the gaps 300, 100, 200 over the rationals are left as
106.6, 200, 300 and the estimate is `1375 / (606.6 / 3)`. -/
theorem CalcMSEstimate_spec_witness :
    ([300, 100, 200] : List ℚ) ≠ [] ∧
    CalcMSEstimate ([300, 100, 200] : List ℚ) = (1375 / (606.6 / 3), [106.6, 200, 300]) ∧
    ∃ (a : ℚ) (rest : List ℚ),
      List.Perm (a :: rest) [300, 100, 200] ∧
      (CalcMSEstimate ([300, 100, 200] : List ℚ)).2 = a * 1.066 :: rest := by
  refine ⟨by simp, ?_, ?_⟩
  · norm_num [CalcMSEstimate, List.insertionSort, List.orderedInsert]
  · obtain ⟨a, rest, h1, _, _, h4, _⟩ :=
      (CalcMSEstimate_spec ([300, 100, 200] : List ℚ)).2 (by simp)
    exact ⟨a, rest, h1, h4⟩

/-! ## The floor of StamAdjust above its cap -/

/-- C23, the failing input: for skill 4/3 and the difficulties 142002, 0, 0 the first
iteration of `StamAdjust` raises `floor` to 1.1, above the cap 1.08, and applies the
multiplier 1.08, which is below `floor`; the third iteration applies the multiplier
`floor = 4260279/3550000`, about 1.2, which is above 1.08. On the ramp of 6000 difficulties
between 1 and 1.01 the multiplier of interval 5998 is `floor` as well, and above 1.08. -/
theorem StamAdjust_floor_above_cap :
    [142002].foldl (StamStep (4 / 3 : ℚ)) ⟨1, 1, 0⟩ = ⟨1.1, 1.08, 142002⟩ ∧
    [142002, 0].foldl (StamStep (4 / 3 : ℚ)) ⟨1, 1, 0⟩ = ⟨1.20004, 1.08, 0⟩ ∧
    [142002, 0, 0].foldl (StamStep (4 / 3 : ℚ)) ⟨1, 1, 0⟩ =
      ⟨4260279 / 3550000, 4260279 / 3550000, 0⟩ ∧
    StamMods (4 / 3 : ℚ) [142002, 0, 0] = [1.08, 1.08, 4260279 / 3550000] ∧
    (1.08 : ℚ) < 1.1 ∧ (1.08 : ℚ) < 4260279 / 3550000 ∧
    (((List.range 5999).map stamRampValue).foldl (StamStep (4 / 3)) ⟨1, 1, 0⟩).mod =
      (((List.range 5999).map stamRampValue).foldl (StamStep (4 / 3)) ⟨1, 1, 0⟩).floor ∧
    (1.08 : ℚ) <
      (((List.range 5999).map stamRampValue).foldl (StamStep (4 / 3)) ⟨1, 1, 0⟩).mod := by
  have h1 : StamStep (4 / 3 : ℚ) ⟨1, 1, 0⟩ 142002 = ⟨1.1, 1.08, 142002⟩ := by
    norm_num [StamStep, stamProp, stamMag, stamFscale, stamCeil, CalcClamp]
  have h2 : StamStep (4 / 3 : ℚ) ⟨1.1, 1.08, 142002⟩ 0 = ⟨1.20004, 1.08, 0⟩ := by
    norm_num [StamStep, stamProp, stamMag, stamFscale, stamCeil, CalcClamp]
  have h3 : StamStep (4 / 3 : ℚ) ⟨1.20004, 1.08, 0⟩ 0 =
      ⟨4260279 / 3550000, 4260279 / 3550000, 0⟩ := by
    norm_num [StamStep, stamProp, stamMag, stamFscale, stamCeil, CalcClamp]
  have hramp := stamRamp_state_5999
  rw [show 5998 + 1 = 5999 from rfl] at hramp
  refine ⟨?_, ?_, ?_, ?_, by norm_num, by norm_num, ?_, ?_⟩
  · rw [List.foldl_cons, List.foldl_nil, h1]
  · rw [List.foldl_cons, List.foldl_cons, List.foldl_nil, h1, h2]
  · rw [List.foldl_cons, List.foldl_cons, List.foldl_cons, List.foldl_nil, h1, h2, h3]
  · simp only [StamMods, StamModsLoop, h1, h2, h3]
  · rw [hramp]
  · rw [hramp]
    norm_num

/-! ## The loop of JackLoss -/

/-- A square root in the sense of `IsSqrt` is at least 1 on values that are at least 1. -/
theorem one_le_sqrt_of_one_le (sqrt : F → F) (hs : IsSqrt sqrt) (c : F) (hc : 1 ≤ c) :
    1 ≤ sqrt c := by
  obtain ⟨h0, hsq⟩ := hs c (by linarith)
  by_contra hlt
  have hlt1 : sqrt c < 1 := not_le.mp hlt
  have : sqrt c * sqrt c < 1 := by nlinarith
  linarith

/-- One iteration of the loop of `JackLoss` keeps `ceiling ≥ 1` and
`1 ≤ mod ≤ 1.15 × sqrt(ceiling)`, and does not lower `ceiling`. -/
theorem JackLossStep_invariant (M : MathFns F) (hs : IsSqrt M.sqrt) (skill : F)
    (s : JackState F) (jd : F) (hc : 1 ≤ s.ceiling) :
    1 ≤ (JackLossStep M skill s jd).ceiling ∧
    s.ceiling ≤ (JackLossStep M skill s jd).ceiling ∧
    1 ≤ (JackLossStep M skill s jd).mod ∧
    (JackLossStep M skill s jd).mod ≤ 1.15 * M.sqrt (JackLossStep M skill s jd).ceiling := by
  have hceil : s.ceiling ≤ (JackLossStep M skill s jd).ceiling := by
    show s.ceiling ≤ (if s.mod + ((jd / (0.75 * skill)) - 1) / 250 > 1 then
      s.ceiling + (s.mod + ((jd / (0.75 * skill)) - 1) / 250 - 1) / 1750 else s.ceiling)
    split_ifs with h
    · have : 0 ≤ (s.mod + ((jd / (0.75 * skill)) - 1) / 250 - 1) / 1750 :=
        div_nonneg (by linarith) (by norm_num)
      linarith
    · exact le_refl _
  have hc1 : 1 ≤ (JackLossStep M skill s jd).ceiling := le_trans hc hceil
  have hsq := one_le_sqrt_of_one_le M.sqrt hs _ hc1
  have hb := CalcClamp_bounds (s.mod + ((jd / (0.75 * skill)) - 1) / 250) 1
    (1.15 * M.sqrt (JackLossStep M skill s jd).ceiling) (by linarith)
  exact ⟨hc1, hceil, hb.1, hb.2⟩

/-- The state of the loop of `JackLoss` after any number of iterations has `ceiling ≥ 1`. -/
theorem JackLoss_ceiling_ge_one (M : MathFns F) (hs : IsSqrt M.sqrt) (skill : F) :
    ∀ (j : List F) (s : JackState F), 1 ≤ s.ceiling →
      1 ≤ (j.foldl (JackLossStep M skill) s).ceiling
  | [], _, h => h
  | jd :: rest, s, h => by
    rw [List.foldl_cons]
    exact JackLoss_ceiling_ge_one M hs skill rest _ (JackLossStep_invariant M hs skill s jd h).1

/-- C24: at the end of every loop iteration of `JackLoss`, that is after any jack
difficulties `pre` and one more, `jd`, the state satisfies `ceiling ≥ 1`, `ceiling` is not
smaller than before the iteration, it has changed only if the unclamped `mod` exceeds 1 and
then by `(mod − 1) / 1750`, and `1 ≤ mod ≤ 1.15 × sqrt(ceiling)`; the value returned for a
sequence is `CalcClamp(7 × accumulated loss, 0, 10000)` and lies in `[0, 10000]`. -/
theorem JackLoss_invariants (M : MathFns F) (hs : IsSqrt M.sqrt) (skill : F)
    (pre : List F) (jd : F) (j : List F) :
    (1 ≤ ((pre ++ [jd]).foldl (JackLossStep M skill) ⟨0, 1, 1⟩).ceiling ∧
      (pre.foldl (JackLossStep M skill) ⟨0, 1, 1⟩).ceiling ≤
        ((pre ++ [jd]).foldl (JackLossStep M skill) ⟨0, 1, 1⟩).ceiling ∧
      ((pre ++ [jd]).foldl (JackLossStep M skill) ⟨0, 1, 1⟩).ceiling =
        (if (pre.foldl (JackLossStep M skill) ⟨0, 1, 1⟩).mod
            + ((jd / (0.75 * skill)) - 1) / 250 > 1 then
          (pre.foldl (JackLossStep M skill) ⟨0, 1, 1⟩).ceiling +
            ((pre.foldl (JackLossStep M skill) ⟨0, 1, 1⟩).mod
              + ((jd / (0.75 * skill)) - 1) / 250 - 1) / 1750
        else (pre.foldl (JackLossStep M skill) ⟨0, 1, 1⟩).ceiling) ∧
      1 ≤ ((pre ++ [jd]).foldl (JackLossStep M skill) ⟨0, 1, 1⟩).mod ∧
      ((pre ++ [jd]).foldl (JackLossStep M skill) ⟨0, 1, 1⟩).mod ≤
        1.15 * M.sqrt ((pre ++ [jd]).foldl (JackLossStep M skill) ⟨0, 1, 1⟩).ceiling) ∧
    JackLoss M j skill =
      CalcClamp (7 * (j.foldl (JackLossStep M skill) ⟨0, 1, 1⟩).output) 0 10000 ∧
    0 ≤ JackLoss M j skill ∧ JackLoss M j skill ≤ 10000 := by
  have hpre := JackLoss_ceiling_ge_one M hs skill pre ⟨0, 1, 1⟩ (le_refl 1)
  obtain ⟨h1, h2, h3, h4⟩ :=
    JackLossStep_invariant M hs skill (pre.foldl (JackLossStep M skill) ⟨0, 1, 1⟩) jd hpre
  have hb := CalcClamp_bounds (7 * (j.foldl (JackLossStep M skill) ⟨0, 1, 1⟩).output)
    (0 : F) 10000 (by norm_num)
  rw [List.foldl_append, List.foldl_cons, List.foldl_nil]
  exact ⟨⟨h1, h2, rfl, h3, h4⟩, rfl, hb.1, hb.2⟩

/-- C24, at a concrete input: skill 10 and the jack difficulties 20, 30 over the reals, with
the real square root. -/
theorem JackLoss_invariants_witness :
    IsSqrt Real.sqrt ∧
    (0 : ℝ) ≤ JackLoss ⟨Real.sqrt, fun x _ => x, fun _ => 0⟩ [20, 30] 10 ∧
    JackLoss ⟨Real.sqrt, fun x _ => x, fun _ => 0⟩ [20, 30] (10 : ℝ) ≤ 10000 :=
  ⟨IsSqrt_real,
    (JackLoss_invariants (F := ℝ) ⟨Real.sqrt, fun x _ => x, fun _ => 0⟩ IsSqrt_real 10
      [20] 30 [20, 30]).2.2⟩

/-! ## The bracket of approximate -/

/-- C26: for every predicate that is true at the start value, every positive resolution `r0`
and every iteration count `n ≥ 1`, a value `v` that `approximate` without the 100 limit
returns satisfies `P(v) = false` and `P(v − r0 / 2 ^ (n − 1)) = true`, the step of the last
round below it; and when the predicate is false from some value on, `approximate` does return
such a value, the same for every large enough fuel. -/
theorem approximate_last_round_bracket [Archimedean F] (P : F → Bool) (x0 r0 : F) (n : Nat)
    (hn : 1 ≤ n) (hstart : P x0 = true) (hr : 0 < r0) :
    (∀ (fuel : Nat) (v : F), approximate fuel x0 r0 n P false = some v →
      P v = false ∧ P (v - r0 / 2 ^ (n - 1)) = true) ∧
    (∀ B : F, (∀ y, B ≤ y → P y = false) →
      ∃ v, ReturnsWith (fun fuel => approximate fuel x0 r0 n P false) v ∧
        P v = false ∧ P (v - r0 / 2 ^ (n - 1)) = true) := by
  obtain ⟨m, rfl⟩ : ∃ m, n = m + 1 := ⟨n - 1, by omega⟩
  have hstep : 2 * (r0 / 2 ^ (m + 1)) = r0 / 2 ^ (m + 1 - 1) := by
    rw [Nat.add_sub_cancel, pow_succ]
    field_simp
    ring
  have key : ∀ (fuel : Nat) (v : F), approximate fuel x0 r0 (m + 1) P false = some v →
      P v = false ∧ P (v - r0 / 2 ^ (m + 1 - 1)) = true := by
    intro fuel v hv
    obtain ⟨h1, h2⟩ := approximate_result P fuel m x0 r0 v hv
    rw [← hstep]
    exact ⟨h1, h2 hstart⟩
  refine ⟨key, ?_⟩
  intro B hB
  obtain ⟨v, N, hv⟩ := approximate_bounded_returns P B hB x0 r0 hr (m + 1)
  exact ⟨v, ⟨N, hv⟩, key N v (hv N (le_refl N))⟩

/-- C26, at a concrete input: predicate `x < 1`, start 0, resolution 1 and two rounds over
the rationals; the value returned is 1 and the step of the last round is 1/2. -/
theorem approximate_last_round_bracket_witness :
    (1 ≤ 2 ∧ (fun x : ℚ => decide (x < 1)) 0 = true ∧ (0 : ℚ) < 1) ∧
    approximate 4 (0 : ℚ) 1 2 (fun x => decide (x < 1)) false = some 1 ∧
    ((fun x : ℚ => decide (x < 1)) 1 = false ∧
      (fun x : ℚ => decide (x < 1)) (1 - 1 / 2 ^ (2 - 1)) = true) :=
  have h : approximate 4 (0 : ℚ) 1 2 (fun x => decide (x < 1)) false = some 1 := by
    simp [approximate, approximateWhile]
    norm_num
  ⟨⟨by decide, by simp, by norm_num⟩, h,
    (approximate_last_round_bracket (fun x : ℚ => decide (x < 1)) 0 1 2 (by decide) (by simp)
      (by norm_num)).1 4 1 h⟩

/-! ## StamAdjust below the tax threshold -/

/-- One iteration of the loop of `StamAdjust` leaves `floor` and `mod` at 1 when the moving
average of the difficulty is at most `0.75 × skill`. -/
theorem StamStep_of_le (x : F) (hx : 0 < x) (last i : F) (h : (last + i) / 2 ≤ 0.75 * x) :
    StamStep x ⟨1, 1, last⟩ i = ⟨1, 1, i⟩ := by
  have hden : (0 : F) < stamProp * x := by
    unfold stamProp
    positivity
  have htax : (last + i) / 2 / (stamProp * x) ≤ 1 := by
    rw [div_le_one hden]
    unfold stamProp
    exact h
  have hmod : 1 + ((last + i) / 2 / (stamProp * x) - 1) / stamMag ≤ 1 := by
    have : ((last + i) / 2 / (stamProp * x) - 1) / stamMag ≤ 0 := by
      apply div_nonpos_of_nonpos_of_nonneg (by linarith)
      unfold stamMag
      norm_num
    linarith
  unfold StamStep
  simp only [if_neg (not_lt.mpr hmod)]
  have hclamp : CalcClamp (1 + ((last + i) / 2 / (stamProp * x) - 1) / stamMag) 1 stamCeil
      = 1 := by
    unfold CalcClamp stamCeil
    rw [if_neg (by linarith)]
    split_ifs with h2
    · rfl
    · exact le_antisymm hmod (not_lt.mp h2)
  rw [hclamp]

/-- The loop of `StamAdjust`, started with `floor = mod = 1`, returns the series it is given
and ends with `floor = mod = 1` when every moving average is at most `0.75 × skill`. -/
theorem StamAdjustLoop_of_le (x : F) (hx : 0 < x) : ∀ (diff : List F) (last : F),
    (∀ p ∈ List.zip (last :: diff) diff, (p.1 + p.2) / 2 ≤ 0.75 * x) →
      StamAdjustLoop x ⟨1, 1, last⟩ diff = diff ∧
      StamModsLoop x ⟨1, 1, last⟩ diff = diff.map (fun _ => 1) ∧
      (diff.foldl (StamStep x) ⟨1, 1, last⟩).floor = 1 ∧
      (diff.foldl (StamStep x) ⟨1, 1, last⟩).mod = 1
  | [], _, _ => ⟨rfl, rfl, rfl, rfl⟩
  | i :: rest, last, h => by
    have hstep := StamStep_of_le x hx last i (h (last, i) (by simp))
    obtain ⟨h1, h2, h3, h4⟩ := StamAdjustLoop_of_le x hx rest i (fun p hp =>
      h p (by
        rw [List.zip_cons_cons]
        exact List.mem_cons_of_mem _ hp))
    simp only [StamAdjustLoop, StamModsLoop, List.foldl_cons, hstep, List.map_cons]
    exact ⟨by rw [h1, mul_one], by rw [h2], h3, h4⟩

/-- The pairs of neighbours of a prefix are pairs of neighbours of the whole series. -/
theorem zip_neighbours_append : ∀ (pre post : List F) (last : F) (p : F × F),
    p ∈ List.zip (last :: pre) pre → p ∈ List.zip (last :: (pre ++ post)) (pre ++ post)
  | [], _, _, p, hp => by simp at hp
  | a :: r, post, last, p, hp => by
    rw [List.zip_cons_cons] at hp
    rw [List.cons_append, List.zip_cons_cons]
    rcases List.mem_cons.mp hp with rfl | hp
    · exact List.mem_cons_self _ _
    · exact List.mem_cons_of_mem _ (zip_neighbours_append r post a p hp)

/-- The pattern multipliers of `CalcInternal` do not read the stamina flag. -/
theorem scaledDiff_stam (M : MathFns F) (h : Hand F) (flags : ChiselFlags) (b : Bool) :
    scaledDiff M h { flags with stam := b } = scaledDiff M h flags := rfl

/-- C30: for every positive skill and every series of difficulties in which each 2-point
moving average `(previous + current) / 2`, with 0 before the first, is at most
`0.75 × skill`, `StamAdjust` returns the series unchanged, every multiplier it applies is 1,
and `floor` and `mod` are 1 after every iteration; so `CalcInternal` with the stamina flag
equals `CalcInternal` without it whenever the series it has scaled by the pattern multipliers
is such a series. -/
theorem StamAdjust_below_threshold (x : F) (hx : 0 < x) :
    (∀ diff : List F,
      (∀ p ∈ List.zip (0 :: diff) diff, (p.1 + p.2) / 2 ≤ 0.75 * x) →
        StamAdjust x diff = diff ∧ StamMods x diff = diff.map (fun _ => 1) ∧
        ∀ pre post : List F, diff = pre ++ post →
          (pre.foldl (StamStep x) ⟨1, 1, 0⟩).floor = 1 ∧
          (pre.foldl (StamStep x) ⟨1, 1, 0⟩).mod = 1) ∧
    (∀ (M : MathFns F) (h : Hand F) (flags : ChiselFlags),
      (∀ p ∈ List.zip
          (0 :: (List.range (if flags.nps then h.v_itvNPSdiff else h.v_itvMSdiff).length).map
            (scaledDiff M h flags (if flags.nps then h.v_itvNPSdiff else h.v_itvMSdiff)))
          ((List.range (if flags.nps then h.v_itvNPSdiff else h.v_itvMSdiff).length).map
            (scaledDiff M h flags (if flags.nps then h.v_itvNPSdiff else h.v_itvMSdiff))),
        (p.1 + p.2) / 2 ≤ 0.75 * x) →
      CalcInternal M h x { flags with stam := true } =
        CalcInternal M h x { flags with stam := false }) := by
  constructor
  · intro diff h
    obtain ⟨h1, h2, _, _⟩ := StamAdjustLoop_of_le x hx diff 0 h
    refine ⟨h1, h2, ?_⟩
    intro pre post hsplit
    have hpre : ∀ p ∈ List.zip (0 :: pre) pre, (p.1 + p.2) / 2 ≤ 0.75 * x := by
      intro p hp
      apply h p
      rw [hsplit]
      exact zip_neighbours_append pre post 0 p hp
    obtain ⟨_, _, h3, h4⟩ := StamAdjustLoop_of_le x hx pre 0 hpre
    exact ⟨h3, h4⟩
  · intro M h flags hseries
    unfold CalcInternal
    simp only [scaledDiff_stam, if_true, Bool.false_eq_true, if_false]
    unfold StamAdjust
    rw [(StamAdjustLoop_of_le x hx _ 0 hseries).1]

/-- C30, at a concrete input: skill 4 and the series 2, 4, 1, whose moving averages 1, 3 and
5/2 are at most 3. -/
theorem StamAdjust_below_threshold_witness :
    (0 : ℚ) < 4 ∧ (∀ p ∈ List.zip (0 :: ([2, 4, 1] : List ℚ)) [2, 4, 1],
      (p.1 + p.2) / 2 ≤ 0.75 * 4) ∧
    StamAdjust (4 : ℚ) [2, 4, 1] = [2, 4, 1] :=
  have h : ∀ p ∈ List.zip (0 :: ([2, 4, 1] : List ℚ)) [2, 4, 1], (p.1 + p.2) / 2 ≤ 0.75 * 4 := by
    intro p hp
    simp only [List.zip_cons_cons, List.zip_nil_right, List.mem_cons, List.mem_singleton,
      List.not_mem_nil, or_false] at hp
    rcases hp with rfl | rfl | rfl <;> norm_num
  ⟨by norm_num, h, ((StamAdjust_below_threshold (4 : ℚ) (by norm_num)).1 [2, 4, 1] h).1⟩

/-! ## OHJumpDownscaler -/

/-- The real power function has the properties of `IsPow`. -/
theorem IsPow_real : IsPow (fun x y : ℝ => x ^ y) :=
  fun e he => ⟨Real.one_rpow e, fun _ ha => Real.rpow_pos_of_pos ha e,
    fun _ _ ha hab => Real.rpow_le_rpow ha hab (le_of_lt he)⟩

/-- Every row that `OHJumpDownscaler` counts as a jump adds 4 to its tap counter: four times
the jumps of an interval are at most its taps. -/
theorem ohjumpCounts_le (firstNote secondNote : Nat) (rows : List (NoteInfo F)) :
    4 * (ohjumpCounts firstNote secondNote rows).2 ≤ (ohjumpCounts firstNote secondNote rows).1 := by
  unfold ohjumpCounts
  have key : ∀ (rs : List (NoteInfo F)) (acc : Nat × Nat), 4 * acc.2 ≤ acc.1 →
      4 * (rs.foldl (fun acc row =>
        if (if hasNote row.notes firstNote then 1 else 0)
            + (if hasNote row.notes secondNote then 1 else 0) = 2 then
          (acc.1 + 2 + ((if hasNote row.notes firstNote then 1 else 0)
            + (if hasNote row.notes secondNote then 1 else 0)), acc.2 + 1)
        else (acc.1 + ((if hasNote row.notes firstNote then 1 else 0)
            + (if hasNote row.notes secondNote then 1 else 0)), acc.2)) acc).2 ≤
      (rs.foldl (fun acc row =>
        if (if hasNote row.notes firstNote then 1 else 0)
            + (if hasNote row.notes secondNote then 1 else 0) = 2 then
          (acc.1 + 2 + ((if hasNote row.notes firstNote then 1 else 0)
            + (if hasNote row.notes secondNote then 1 else 0)), acc.2 + 1)
        else (acc.1 + ((if hasNote row.notes firstNote then 1 else 0)
            + (if hasNote row.notes secondNote then 1 else 0)), acc.2)) acc).1 := by
    intro rs
    induction rs with
    | nil => intro acc h; simpa using h
    | cons row rest ih =>
      intro acc h
      rw [List.foldl_cons]
      apply ih
      by_cases hk : (if hasNote row.notes firstNote then 1 else 0)
          + (if hasNote row.notes secondNote then 1 else 0) = 2
      · simp only [hk, if_true]
        omega
      · simp only [hk, if_false]
        omega
  exact key rows (0, 0) (by simp)

/-- The value that `OHJumpDownscaler` pushes for one interval is `pow` of a radicand in
`[0.6, 1]`, or 1, and lies in `[pow(0.6, 0.25), 1]`. -/
theorem OHJumpRaw_bounds (M : MathFns F) (hp : IsPow M.pow) (firstNote secondNote : Nat)
    (rows : List (NoteInfo F)) :
    (((ohjumpCounts firstNote secondNote rows).2 : F)
        ≤ 1 / 4 * ((ohjumpCounts firstNote secondNote rows).1 : F) ∧
      ((ohjumpCounts firstNote secondNote rows).1 ≠ 0 →
        ((ohjumpCounts firstNote secondNote rows).2 : F) /
          ((ohjumpCounts firstNote secondNote rows).1 : F) ≤ 1 / 4 ∧
        0.6 ≤ 1 - 1.6 * (((ohjumpCounts firstNote secondNote rows).2 : F) /
          ((ohjumpCounts firstNote secondNote rows).1 : F)))) ∧
    M.pow 0.6 0.25 ≤ OHJumpRaw M firstNote secondNote rows ∧
    OHJumpRaw M firstNote secondNote rows ≤ 1 := by
  obtain ⟨hone, _, hmono⟩ := hp 0.25 (by norm_num)
  have hle := ohjumpCounts_le firstNote secondNote rows
  have hleF : (4 : F) * ((ohjumpCounts firstNote secondNote rows).2 : F) ≤
      ((ohjumpCounts firstNote secondNote rows).1 : F) := by exact_mod_cast hle
  have hbase : M.pow 0.6 0.25 ≤ 1 := by
    rw [← hone]
    exact hmono 0.6 1 (by norm_num) (by norm_num)
  have hratio : (ohjumpCounts firstNote secondNote rows).1 ≠ 0 →
      ((ohjumpCounts firstNote secondNote rows).2 : F) /
          ((ohjumpCounts firstNote secondNote rows).1 : F) ≤ 1 / 4 ∧
        0.6 ≤ 1 - 1.6 * (((ohjumpCounts firstNote secondNote rows).2 : F) /
          ((ohjumpCounts firstNote secondNote rows).1 : F)) := by
    intro h0
    have hpos : (0 : F) < ((ohjumpCounts firstNote secondNote rows).1 : F) := by
      exact_mod_cast Nat.pos_of_ne_zero h0
    have hq : ((ohjumpCounts firstNote secondNote rows).2 : F) /
        ((ohjumpCounts firstNote secondNote rows).1 : F) ≤ 1 / 4 := by
      rw [div_le_iff₀ hpos]
      linarith
    exact ⟨hq, by linarith⟩
  refine ⟨⟨by linarith, hratio⟩, ?_⟩
  unfold OHJumpRaw
  simp only
  split_ifs with h0
  · exact ⟨hbase, le_refl 1⟩
  · obtain ⟨hq, hrad⟩ := hratio h0
    have hq0 : (0 : F) ≤ ((ohjumpCounts firstNote secondNote rows).2 : F) /
        ((ohjumpCounts firstNote secondNote rows).1 : F) :=
      div_nonneg (Nat.cast_nonneg _) (Nat.cast_nonneg _)
    constructor
    · exact hmono _ _ (by norm_num) hrad
    · rw [← hone]
      exact hmono _ _ (by linarith) (by linarith)

/-- C28: for every chart, pair of column masks and membership table with valid row indices,
the jump proportion that `OHJumpDownscaler` computes for an interval is at most 1/4, the
radicand `1 − 1.6 × proportion` is at least 0.6, so never negative, and every multiplier,
as pushed for an interval and as returned after the smoothing, lies in `[pow(0.6, 0.25), 1]`,
whose lower end is positive; `OHJumpDownscaler` returns one multiplier per interval. -/
theorem OHJumpDownscaler_bounds (M : MathFns F) (hp : IsPow M.pow)
    (note_info : List (NoteInfo F)) (nerv : List (List Nat)) (firstNote secondNote : Nat)
    (hvalid : validTable note_info nerv) :
    (∀ rows : List (NoteInfo F),
      4 * (ohjumpCounts firstNote secondNote rows).2 ≤ (ohjumpCounts firstNote secondNote rows).1 ∧
      ((ohjumpCounts firstNote secondNote rows).1 ≠ 0 →
        ((ohjumpCounts firstNote secondNote rows).2 : F) /
          ((ohjumpCounts firstNote secondNote rows).1 : F) ≤ 1 / 4 ∧
        0.6 ≤ 1 - 1.6 * (((ohjumpCounts firstNote secondNote rows).2 : F) /
          ((ohjumpCounts firstNote secondNote rows).1 : F))) ∧
      M.pow 0.6 0.25 ≤ OHJumpRaw M firstNote secondNote rows ∧
      OHJumpRaw M firstNote secondNote rows ≤ 1) ∧
    0 < M.pow 0.6 0.25 ∧
    ∃ out, OHJumpDownscaler M note_info nerv firstNote secondNote = some out ∧
      out.length = nerv.length ∧ ∀ x ∈ out, M.pow 0.6 0.25 ≤ x ∧ x ≤ 1 := by
  obtain ⟨hone, hpos, hmono⟩ := hp 0.25 (by norm_num)
  have hbase : M.pow 0.6 0.25 ≤ 1 := by
    rw [← hone]
    exact hmono 0.6 1 (by norm_num) (by norm_num)
  refine ⟨fun rows => ⟨ohjumpCounts_le firstNote secondNote rows,
    (OHJumpRaw_bounds M hp firstNote secondNote rows).1.2,
    (OHJumpRaw_bounds M hp firstNote secondNote rows).2⟩, hpos 0.6 (by norm_num), ?_⟩
  obtain ⟨intervals, hlook, hlen⟩ := lookupAll_of_valid note_info nerv hvalid
  have hb := finishPattern_bounds (M.pow 0.6 0.25) 1 hbase (le_refl 1)
    (intervals.map (OHJumpRaw M firstNote secondNote)) (by
      intro x hx
      obtain ⟨rows, _, rfl⟩ := List.mem_map.mp hx
      exact (OHJumpRaw_bounds M hp firstNote secondNote rows).2)
  refine ⟨finishPattern (intervals.map (OHJumpRaw M firstNote secondNote)), ?_, ?_, hb.2⟩
  · unfold OHJumpDownscaler
    rw [mapM_option_fmap, hlook]
    rfl
  · rw [hb.1, List.length_map, hlen]

/-- C28, at a concrete input: a two-row chart over the reals with the real power function;
the first row is a jump of columns 0 and 1, both rows are in interval 0 and interval 1 is
empty. -/
theorem OHJumpDownscaler_bounds_witness :
    (IsPow (fun x y : ℝ => x ^ y) ∧
      validTable ([⟨3, 0⟩, ⟨1, 1 / 4⟩] : List (NoteInfo ℝ)) [[0, 1], []]) ∧
    ∃ out : List ℝ,
      OHJumpDownscaler ⟨Real.sqrt, fun x y => x ^ y, fun _ => 1⟩ [⟨3, 0⟩, ⟨1, 1 / 4⟩]
        [[0, 1], []] 1 2 = some out ∧
      out.length = ([[0, 1], []] : List (List Nat)).length ∧
      ∀ x ∈ out, (0.6 : ℝ) ^ (0.25 : ℝ) ≤ x ∧ x ≤ 1 :=
  have hv : validTable ([⟨3, 0⟩, ⟨1, 1 / 4⟩] : List (NoteInfo ℝ)) [[0, 1], []] := by
    unfold validTable
    decide
  ⟨⟨IsPow_real, hv⟩,
    (OHJumpDownscaler_bounds ⟨Real.sqrt, fun x y => x ^ y, fun _ => 1⟩ IsPow_real
      [⟨3, 0⟩, ⟨1, 1 / 4⟩] [[0, 1], []] 1 2 hv).2.2⟩

/-! ## CalcInternal -/

/-- For a positive exponent, `pow` of a base in `[0, 1]` is at most 1 and `pow` of a base
that is at least 1 is at least 1. -/
theorem pow_le_one_of_le (pow : F → F → F) (hp : IsPow pow) (e : F) (he : 0 < e) (t : F) :
    (0 ≤ t → t ≤ 1 → pow t e ≤ 1) ∧ (1 ≤ t → 1 ≤ pow t e) := by
  obtain ⟨hone, _, hmono⟩ := hp e he
  constructor
  · intro h0 h1
    rw [← hone]
    exact hmono t 1 h0 h1
  · intro h1
    have := hmono 1 t (by norm_num) h1
    rwa [hone] at this

/-- Indexing a series at every index below its length gives the series back. -/
theorem map_range_getD {α : Type} (d : α) (l : List α) :
    (List.range l.length).map (fun i => l.getD i d) = l := by
  apply List.ext_getElem
  · simp
  · intro i h1 h2
    simp only [List.getElem_map, List.getElem_range]
    exact List.getD_eq_getElem l d h2

/-- Without the stamina flag `CalcInternal` is the sum, over the indices of the selected
base series, of the points of the interval, reduced by `pow(skill / d, 1.8)` where the skill
is at most the scaled difficulty `d`. -/
theorem CalcInternal_unfold (M : MathFns F) (h : Hand F) (skill : F) (flags : ChiselFlags)
    (hstam : flags.stam = false) :
    CalcInternal M h skill flags =
      ((List.range (if flags.nps then h.v_itvNPSdiff else h.v_itvMSdiff).length).map
        (fun i => ((h.v_itvpoints.getD i 0 : Int) : F) *
          (if skill ≤ scaledDiff M h flags (if flags.nps then h.v_itvNPSdiff else h.v_itvMSdiff) i
            then M.pow (skill /
              scaledDiff M h flags (if flags.nps then h.v_itvNPSdiff else h.v_itvMSdiff) i) 1.8
            else 1))).sum := by
  unfold CalcInternal
  simp only [hstam, Bool.false_eq_true, if_false, List.length_map, List.length_range]
  congr 1
  apply List.map_congr_left
  intro i hi
  have hi' : i < (List.range (if flags.nps then h.v_itvNPSdiff else h.v_itvMSdiff).length).length := by
    rw [List.length_range]
    exact List.mem_range.mp hi
  have hrd : rd ((List.range (if flags.nps then h.v_itvNPSdiff else h.v_itvMSdiff).length).map
      (scaledDiff M h flags (if flags.nps then h.v_itvNPSdiff else h.v_itvMSdiff))) i =
      scaledDiff M h flags (if flags.nps then h.v_itvNPSdiff else h.v_itvMSdiff) i := by
    unfold rd
    rw [getD_map_of_lt _ 0 _ i hi']
    congr 1
    rw [List.getD_eq_getElem _ _ hi', List.getElem_range]
  unfold intervalPoints
  simp only [hrd]
  by_cases hs : skill ≤
      scaledDiff M h flags (if flags.nps then h.v_itvNPSdiff else h.v_itvMSdiff) i
  · rw [if_pos hs, if_pos hs]
  · rw [if_neg hs, if_neg hs, mul_one]

/-- The scaled difficulty of the first loop of `CalcInternal` is the spec's difficulty. -/
theorem scaledDiff_eq_spec (M : MathFns F) (h : Hand F) (flags : ChiselFlags) (i : Nat) :
    scaledDiff M h flags (if flags.nps then h.v_itvNPSdiff else h.v_itvMSdiff) i =
      specDifficulty M h flags i := by
  unfold scaledDiff specDifficulty specCategoryFactor
  simp only
  split_ifs <;> ring

/-- C22: for every hand whose two base series are as long as its points series, every
positive skill and every flag set without the stamina flag, `CalcInternal` returns the sum
over the intervals `i` of `points[i] × min(1, (skill / d[i])^1.8)`, with the full points
where `d[i]` is zero or negative; `d[i]` is the nps series if the NPS flag is set and the ms
series otherwise, times `anchor[i] × roll[i]`, times `sqrt(ohjump) × jump` for handstream,
`hs² × sqrt(ohjump) × jump` for jumpstream, `hs³ × ohjump² × jump²` for plain nps and
`sqrt(ohjump)` otherwise, handstream taking precedence over jumpstream and jumpstream over
plain nps. -/
theorem CalcInternal_eq_spec (M : MathFns F) (hp : IsPow M.pow) (h : Hand F) (skill : F)
    (flags : ChiselFlags) (hskill : 0 < skill) (hstam : flags.stam = false)
    (hnps : h.v_itvNPSdiff.length = h.v_itvpoints.length)
    (hms : h.v_itvMSdiff.length = h.v_itvpoints.length) :
    CalcInternal M h skill flags = specCalcInternal M h skill flags ∧
    (∀ i : Nat, specDifficulty M h flags i =
      rd (if flags.nps then h.v_itvNPSdiff else h.v_itvMSdiff) i
        * (rd h.anchorscale i * rd h.rollscale i)
        * (if flags.hs then M.sqrt (rd h.ohjumpscale i) * rd h.jumpscale i
           else if flags.js then
             rd h.hsscale i ^ 2 * M.sqrt (rd h.ohjumpscale i) * rd h.jumpscale i
           else if flags.nps then
             rd h.hsscale i ^ 3 * rd h.ohjumpscale i ^ 2 * rd h.jumpscale i ^ 2
           else M.sqrt (rd h.ohjumpscale i))) ∧
    specCalcInternal M h skill flags =
      ((List.range h.v_itvpoints.length).map (fun i =>
        ((h.v_itvpoints.getD i 0 : Int) : F) *
          (if specDifficulty M h flags i ≤ 0 then 1
           else min 1 (M.pow (skill / specDifficulty M h flags i) 1.8)))).sum := by
  refine ⟨?_, fun i => rfl, rfl⟩
  have hlen : (if flags.nps then h.v_itvNPSdiff else h.v_itvMSdiff).length =
      h.v_itvpoints.length := by
    split_ifs
    · exact hnps
    · exact hms
  rw [CalcInternal_unfold M h skill flags hstam, hlen]
  unfold specCalcInternal
  congr 1
  apply List.map_congr_left
  intro i _
  unfold specIntervalPoints
  rw [scaledDiff_eq_spec]
  congr 1
  by_cases hd : specDifficulty M h flags i ≤ 0
  · rw [if_pos hd, if_neg (by linarith)]
  · have hd0 : 0 < specDifficulty M h flags i := not_le.mp hd
    rw [if_neg hd]
    obtain ⟨hle, hge⟩ := pow_le_one_of_le M.pow hp 1.8 (by norm_num)
      (skill / specDifficulty M h flags i)
    by_cases hs : skill ≤ specDifficulty M h flags i
    · rw [if_pos hs, min_eq_right]
      exact hle (le_of_lt (div_pos hskill hd0)) ((div_le_one hd0).mpr hs)
    · rw [if_neg hs, min_eq_left]
      exact hge ((one_le_div hd0).mpr (le_of_lt (not_le.mp hs)))

/-- C22, at a concrete input: a hand of two intervals over the reals with the real power
function and square root, skill 10 and the flags of the jumpstream solve. -/
theorem CalcInternal_eq_spec_witness :
    (IsPow (fun x y : ℝ => x ^ y) ∧ (0 : ℝ) < 10 ∧
      (CHISEL_NPS.or CHISEL_JS).stam = false ∧
      ([12, 20] : List ℝ).length = ([3, 4] : List Int).length ∧
      ([11, 18] : List ℝ).length = ([3, 4] : List Int).length) ∧
    CalcInternal ⟨Real.sqrt, fun x y => x ^ y, fun _ => 1⟩
        ⟨[1, 0.9], [1, 1], [1, 0.95], [1, 1], [1, 1.02], [3, 4], [12, 20], [11, 18]⟩ 10
        (CHISEL_NPS.or CHISEL_JS) =
      specCalcInternal ⟨Real.sqrt, fun x y => x ^ y, fun _ => 1⟩
        ⟨[1, 0.9], [1, 1], [1, 0.95], [1, 1], [1, 1.02], [3, 4], [12, 20], [11, 18]⟩ 10
        (CHISEL_NPS.or CHISEL_JS) :=
  ⟨⟨IsPow_real, by norm_num, rfl, rfl, rfl⟩,
    (CalcInternal_eq_spec (F := ℝ) ⟨Real.sqrt, fun x y => x ^ y, fun _ => 1⟩ IsPow_real
      ⟨[1, 0.9], [1, 1], [1, 0.95], [1, 1], [1, 1.02], [3, 4], [12, 20], [11, 18]⟩ 10
      (CHISEL_NPS.or CHISEL_JS) (by norm_num) rfl rfl rfl).1⟩

/-- The points that `CalcInternal` counts for one interval do not decrease with the skill
and are at most the points of the interval, when these are not negative. -/
theorem interval_term_mono (pow : F → F → F) (hp : IsPow pow) (pts d s1 s2 : F)
    (hpts : 0 ≤ pts) (h1 : 0 < s1) (h12 : s1 ≤ s2) :
    pts * (if s1 ≤ d then pow (s1 / d) 1.8 else 1) ≤
      pts * (if s2 ≤ d then pow (s2 / d) 1.8 else 1) ∧
    pts * (if s1 ≤ d then pow (s1 / d) 1.8 else 1) ≤ pts := by
  obtain ⟨_, _, hmono⟩ := hp 1.8 (by norm_num)
  have hle1 : ∀ s : F, 0 < s → s ≤ d → pow (s / d) 1.8 ≤ 1 := by
    intro s hs hsd
    have hd : 0 < d := lt_of_lt_of_le hs hsd
    exact (pow_le_one_of_le pow hp 1.8 (by norm_num) (s / d)).1
      (le_of_lt (div_pos hs hd)) ((div_le_one hd).mpr hsd)
  have hterm1 : (if s1 ≤ d then pow (s1 / d) 1.8 else 1) ≤ 1 := by
    split_ifs with h
    · exact hle1 s1 h1 h
    · exact le_refl 1
  constructor
  · apply mul_le_mul_of_nonneg_left _ hpts
    by_cases hs2 : s2 ≤ d
    · have hs1 : s1 ≤ d := le_trans h12 hs2
      have hd : 0 < d := lt_of_lt_of_le h1 hs1
      rw [if_pos hs1, if_pos hs2]
      exact hmono _ _ (le_of_lt (div_pos h1 hd))
        (div_le_div_of_nonneg_right h12 (le_of_lt hd))
    · rw [if_neg hs2]
      exact hterm1
  · calc pts * (if s1 ≤ d then pow (s1 / d) 1.8 else 1) ≤ pts * 1 :=
        mul_le_mul_of_nonneg_left hterm1 hpts
      _ = pts := mul_one pts

/-- Without the stamina flag `CalcInternal` does not decrease with the skill and is at most
the sum of the points series, for a hand with non-negative points whose base series are as
long as the points series. -/
theorem CalcInternal_mono_aux (M : MathFns F) (hp : IsPow M.pow) (h : Hand F)
    (flags : ChiselFlags) (hstam : flags.stam = false)
    (hpts : ∀ p ∈ h.v_itvpoints, 0 ≤ p)
    (hnps : h.v_itvNPSdiff.length = h.v_itvpoints.length)
    (hms : h.v_itvMSdiff.length = h.v_itvpoints.length) (s1 s2 : F) (h1 : 0 < s1)
    (h12 : s1 ≤ s2) :
    CalcInternal M h s1 flags ≤ CalcInternal M h s2 flags ∧
    CalcInternal M h s1 flags ≤ ((h.v_itvpoints.sum : Int) : F) := by
  have hlen : (if flags.nps then h.v_itvNPSdiff else h.v_itvMSdiff).length =
      h.v_itvpoints.length := by
    split_ifs
    · exact hnps
    · exact hms
  have hp0 : ∀ i : Nat, (0 : F) ≤ ((h.v_itvpoints.getD i 0 : Int) : F) := by
    intro i
    have : (0 : Int) ≤ h.v_itvpoints.getD i 0 := by
      by_cases hi : i < h.v_itvpoints.length
      · rw [List.getD_eq_getElem _ _ hi]
        exact hpts _ (List.getElem_mem hi)
      · rw [List.getD_eq_default _ _ (not_lt.mp hi)]
    exact_mod_cast this
  rw [CalcInternal_unfold M h s1 flags hstam, CalcInternal_unfold M h s2 flags hstam, hlen]
  constructor
  · apply List.sum_le_sum
    intro i _
    exact (interval_term_mono M.pow hp _ _ s1 s2 (hp0 i) h1 h12).1
  · have hsum : ((h.v_itvpoints.sum : Int) : F) =
        ((List.range h.v_itvpoints.length).map
          (fun i => ((h.v_itvpoints.getD i 0 : Int) : F))).sum := by
      have hm := map_range_getD (0 : Int) h.v_itvpoints
      have hcomp : (List.range h.v_itvpoints.length).map
          (fun i => ((h.v_itvpoints.getD i 0 : Int) : F)) =
          ((List.range h.v_itvpoints.length).map (fun i => h.v_itvpoints.getD i 0)).map
            (fun z : Int => (z : F)) := by
        rw [List.map_map]
        rfl
      rw [hcomp, hm]
      induction h.v_itvpoints with
      | nil => simp
      | cons a l ih =>
        rw [List.sum_cons, List.map_cons, List.sum_cons, ← ih]
        push_cast
        rfl
    rw [hsum]
    apply List.sum_le_sum
    intro i _
    exact (interval_term_mono M.pow hp _ _ s1 s2 (hp0 i) h1 h12).2

/-- C27: for every hand with non-negative points whose base series are as long as its points
series, and every flag set without the stamina flag, `CalcInternal` is non-decreasing in the
skill on positive skills and never exceeds the sum of `v_itvpoints`; so for a `Calc` whose
`MaxPoints` is positive and is the sum of the points of both hands, the achieved-score
fraction that `Chisel` compares with the goal, without the jack flag, is non-decreasing in
the skill and at most 1. -/
theorem CalcInternal_monotone (M : MathFns F) (hp : IsPow M.pow) (flags : ChiselFlags)
    (hstam : flags.stam = false) :
    (∀ h : Hand F, (∀ p ∈ h.v_itvpoints, 0 ≤ p) →
      h.v_itvNPSdiff.length = h.v_itvpoints.length →
      h.v_itvMSdiff.length = h.v_itvpoints.length →
      ∀ s1 s2 : F, 0 < s1 → s1 ≤ s2 →
        CalcInternal M h s1 flags ≤ CalcInternal M h s2 flags ∧
        CalcInternal M h s1 flags ≤ ((h.v_itvpoints.sum : Int) : F)) ∧
    (∀ c : Calc F, flags.jack = false →
      (∀ p ∈ c.left_hand.v_itvpoints, 0 ≤ p) → (∀ p ∈ c.right_hand.v_itvpoints, 0 ≤ p) →
      c.left_hand.v_itvNPSdiff.length = c.left_hand.v_itvpoints.length →
      c.left_hand.v_itvMSdiff.length = c.left_hand.v_itvpoints.length →
      c.right_hand.v_itvNPSdiff.length = c.right_hand.v_itvpoints.length →
      c.right_hand.v_itvMSdiff.length = c.right_hand.v_itvpoints.length →
      0 < c.MaxPoints →
      c.MaxPoints = ((c.left_hand.v_itvpoints.sum + c.right_hand.v_itvpoints.sum : Int) : F) →
      ∀ s1 s2 : F, 0 < s1 → s1 ≤ s2 →
        CalcScoreForPlayerSkill M c s1 flags ≤ CalcScoreForPlayerSkill M c s2 flags ∧
        CalcScoreForPlayerSkill M c s1 flags ≤ 1) := by
  constructor
  · intro h hpts hnps hms s1 s2 h1 h12
    exact CalcInternal_mono_aux M hp h flags hstam hpts hnps hms s1 s2 h1 h12
  · intro c hjack hl hr hl1 hl2 hr1 hr2 hmax hsum s1 s2 h1 h12
    obtain ⟨hlm, hlb⟩ :=
      CalcInternal_mono_aux M hp c.left_hand flags hstam hl hl1 hl2 s1 s2 h1 h12
    obtain ⟨hrm, hrb⟩ :=
      CalcInternal_mono_aux M hp c.right_hand flags hstam hr hr1 hr2 s1 s2 h1 h12
    unfold CalcScoreForPlayerSkill
    simp only [hjack, Bool.false_eq_true, if_false]
    constructor
    · exact div_le_div_of_nonneg_right (by linarith) (le_of_lt hmax)
    · rw [div_le_one hmax, hsum, Int.cast_add]
      linarith

/-- C27, at a concrete input: a hand of two intervals over the reals with the real power
function, the flags of the jumpstream solve and the skills 10 and 15. -/
theorem CalcInternal_monotone_witness :
    (IsPow (fun x y : ℝ => x ^ y) ∧ (CHISEL_NPS.or CHISEL_JS).stam = false ∧
      (∀ p ∈ ([3, 4] : List Int), 0 ≤ p) ∧ (0 : ℝ) < 10 ∧ (10 : ℝ) ≤ 15) ∧
    CalcInternal ⟨Real.sqrt, fun x y => x ^ y, fun _ => 1⟩
        ⟨[1, 0.9], [1, 1], [1, 0.95], [1, 1], [1, 1.02], [3, 4], [12, 20], [11, 18]⟩ 10
        (CHISEL_NPS.or CHISEL_JS) ≤
      CalcInternal ⟨Real.sqrt, fun x y => x ^ y, fun _ => 1⟩
        ⟨[1, 0.9], [1, 1], [1, 0.95], [1, 1], [1, 1.02], [3, 4], [12, 20], [11, 18]⟩ 15
        (CHISEL_NPS.or CHISEL_JS) :=
  have hpts : ∀ p ∈ ([3, 4] : List Int), 0 ≤ p := by decide
  ⟨⟨IsPow_real, rfl, hpts, by norm_num, by norm_num⟩,
    ((CalcInternal_monotone (F := ℝ) ⟨Real.sqrt, fun x y => x ^ y, fun _ => 1⟩ IsPow_real
      (CHISEL_NPS.or CHISEL_JS) rfl).1
      ⟨[1, 0.9], [1, 1], [1, 0.95], [1, 1], [1, 1.02], [3, 4], [12, 20], [11, 18]⟩
      hpts rfl rfl 10 15 (by norm_num) (by norm_num)).1⟩

/-! ## JackLoss as a function of the skill -/

/-- While the unclamped multiplier `m1` stays in `[1, 1.15]` the clamp of `JackLoss` leaves it
as it is: the iteration sets `mod` to `m1`, keeps `ceiling ≥ 1` and adds the loss term when
the skill is below the scaled jack difficulty `jd × m1`. -/
theorem JackLossStep_unclamped (M : MathFns F) (hs : IsSqrt M.sqrt) (skill o c m jd m1 : F)
    (hc : 1 ≤ c) (hm : m + ((jd / (0.75 * skill)) - 1) / 250 = m1) (hlo : 1 ≤ m1)
    (hhi : m1 ≤ 1.15) :
    ∃ c2 : F, 1 ≤ c2 ∧ JackLossStep M skill ⟨o, c, m⟩ jd =
      ⟨if skill < jd * m1 then o + (1 - M.pow (skill / (jd * m1 * 0.96)) 1.5) else o,
        c2, m1⟩ := by
  have hc1 : 1 ≤ (if m1 > 1 then c + (m1 - 1) / 1750 else c) := by
    split_ifs with h
    · have : 0 ≤ (m1 - 1) / 1750 := div_nonneg (by linarith) (by norm_num)
      linarith
    · exact hc
  have hsq := one_le_sqrt_of_one_le M.sqrt hs _ hc1
  have hclamp : CalcClamp m1 1 (1.15 * M.sqrt (if m1 > 1 then c + (m1 - 1) / 1750 else c)) =
      m1 := by
    unfold CalcClamp
    rw [if_neg (by
      apply not_lt.mpr
      nlinarith), if_neg (not_lt.mpr hlo)]
  refine ⟨if m1 > 1 then c + (m1 - 1) / 1750 else c, hc1, ?_⟩
  unfold JackLossStep
  simp only [hm, hclamp]

/-- With a square root and a power function that is at least its base on bases above 1 and
between 0 and its base on bases in `(0, 1]` (as `x^1.5` is), `JackLoss` of the jack
difficulties 1 and 28 is larger at skill 9/8 than at skill 1. -/
theorem JackLoss_jump (M : MathFns F) (hs : IsSqrt M.sqrt)
    (hge : ∀ x : F, 1 ≤ x → x ≤ M.pow x 1.5)
    (hle : ∀ x : F, 0 < x → x ≤ 1 → 0 ≤ M.pow x 1.5 ∧ M.pow x 1.5 ≤ x) :
    JackLoss M [1, 28] 1 < JackLoss M [1, 28] (9 / 8) := by
  -- skill 1: both jack difficulties are above the skill
  obtain ⟨c1, hc1, e1⟩ := JackLossStep_unclamped M hs 1 0 1 1 1 (751 / 750) (le_refl 1)
    (by norm_num) (by norm_num) (by norm_num)
  obtain ⟨c2, _, e2⟩ := JackLossStep_unclamped M hs 1
    (if (1 : F) < 1 * (751 / 750) then 0 + (1 - M.pow (1 / (1 * (751 / 750) * 0.96)) 1.5)
      else 0) c1 (751 / 750) 28 (860 / 750) hc1 (by norm_num) (by norm_num) (by norm_num)
  have hlow : (List.foldl (JackLossStep M 1) ⟨0, 1, 1⟩ [1, 28]).output ≤ 24 / 25 := by
    rw [List.foldl_cons, e1, List.foldl_cons, e2, List.foldl_nil]
    have hp1 := hge (1 / (1 * (751 / 750) * 0.96)) (by norm_num)
    have hp2 := (hle (1 / (28 * (860 / 750) * 0.96)) (by norm_num) (by norm_num)).1
    have hq : (26 / 25 : F) ≤ 1 / (1 * (751 / 750) * 0.96) := by norm_num
    show (if (1 : F) < 28 * (860 / 750) then
        (if (1 : F) < 1 * (751 / 750) then 0 + (1 - M.pow (1 / (1 * (751 / 750) * 0.96)) 1.5)
          else 0) + (1 - M.pow (1 / (28 * (860 / 750) * 0.96)) 1.5)
      else (if (1 : F) < 1 * (751 / 750) then
        0 + (1 - M.pow (1 / (1 * (751 / 750) * 0.96)) 1.5) else 0)) ≤ 24 / 25
    rw [if_pos (by norm_num), if_pos (by norm_num)]
    linarith
  -- skill 9/8: the first jack difficulty is below the skill
  obtain ⟨d1, hd1, f1⟩ := JackLossStep_unclamped M hs (9 / 8) 0 1 1 1 (1351 / 1350)
    (le_refl 1) (by norm_num) (by norm_num) (by norm_num)
  obtain ⟨d2, _, f2⟩ := JackLossStep_unclamped M hs (9 / 8)
    (if (9 / 8 : F) < 1 * (1351 / 1350) then
      0 + (1 - M.pow (9 / 8 / (1 * (1351 / 1350) * 0.96)) 1.5) else 0)
    d1 (1351 / 1350) 28 (3812 / 3375) hd1 (by norm_num) (by norm_num) (by norm_num)
  have hhigh : (24 / 25 : F) < (List.foldl (JackLossStep M (9 / 8)) ⟨0, 1, 1⟩ [1, 28]).output ∧
      (List.foldl (JackLossStep M (9 / 8)) ⟨0, 1, 1⟩ [1, 28]).output ≤ 1 := by
    rw [List.foldl_cons, f1, List.foldl_cons, f2, List.foldl_nil]
    obtain ⟨hp0, hp1⟩ := hle (9 / 8 / (28 * (3812 / 3375) * 0.96)) (by norm_num) (by norm_num)
    have hq : (9 / 8 : F) / (28 * (3812 / 3375) * 0.96) ≤ 1 / 26 := by norm_num
    show (24 / 25 : F) < (if (9 / 8 : F) < 28 * (3812 / 3375) then
        (if (9 / 8 : F) < 1 * (1351 / 1350) then
          0 + (1 - M.pow (9 / 8 / (1 * (1351 / 1350) * 0.96)) 1.5) else 0)
          + (1 - M.pow (9 / 8 / (28 * (3812 / 3375) * 0.96)) 1.5)
      else (if (9 / 8 : F) < 1 * (1351 / 1350) then
        0 + (1 - M.pow (9 / 8 / (1 * (1351 / 1350) * 0.96)) 1.5) else 0)) ∧
      (if (9 / 8 : F) < 28 * (3812 / 3375) then
        (if (9 / 8 : F) < 1 * (1351 / 1350) then
          0 + (1 - M.pow (9 / 8 / (1 * (1351 / 1350) * 0.96)) 1.5) else 0)
          + (1 - M.pow (9 / 8 / (28 * (3812 / 3375) * 0.96)) 1.5)
      else (if (9 / 8 : F) < 1 * (1351 / 1350) then
        0 + (1 - M.pow (9 / 8 / (1 * (1351 / 1350) * 0.96)) 1.5) else 0)) ≤ 1
    rw [if_pos (by norm_num), if_neg (by norm_num)]
    constructor <;> linarith
  obtain ⟨hh1, hh2⟩ := hhigh
  unfold JackLoss CalcClamp
  rw [if_neg (by linarith : ¬ (7 * (List.foldl (JackLossStep M (9 / 8)) ⟨0, 1, 1⟩
      [1, 28]).output > 10000)),
    if_neg (by linarith : ¬ (7 * (List.foldl (JackLossStep M (9 / 8)) ⟨0, 1, 1⟩
      [1, 28]).output < 0))]
  split_ifs <;> linarith

/-- C25 as stated fails: for the jack difficulties 1 and 28 over the reals, with the real
square root and power function, the skills 1 and 9/8 satisfy `0 < 1 ≤ 9/8`, but
`JackLoss` is larger at skill 9/8 than at skill 1. At skill 1 the first jack difficulty,
scaled to 751/750, is just above the skill and contributes the negative amount
`1 − (1 / (0.96 × 751/750))^1.5`; at skill 9/8 it contributes nothing. -/
theorem JackLoss_not_monotone :
    (∀ jd ∈ ([1, 28] : List ℝ), 0 < jd) ∧ (0 : ℝ) < 1 ∧ (1 : ℝ) ≤ 9 / 8 ∧
    ¬ (JackLoss ⟨Real.sqrt, fun x y => x ^ y, fun _ => 1⟩ [1, 28] (9 / 8 : ℝ) ≤
      JackLoss ⟨Real.sqrt, fun x y => x ^ y, fun _ => 1⟩ [1, 28] (1 : ℝ)) := by
  refine ⟨by
    intro jd hjd
    simp only [List.mem_cons, List.mem_singleton, List.not_mem_nil, or_false] at hjd
    rcases hjd with rfl | rfl <;> norm_num, by norm_num, by norm_num, not_le.mpr ?_⟩
  apply JackLoss_jump (F := ℝ) ⟨Real.sqrt, fun x y => x ^ y, fun _ => 1⟩ IsSqrt_real
  · intro x hx
    have := Real.rpow_le_rpow_of_exponent_le (x := x) (y := 1) (z := 1.5) hx (by norm_num)
    rwa [Real.rpow_one] at this
  · intro x hx0 hx1
    have := Real.rpow_le_rpow_of_exponent_ge (x := x) (y := 1.5) (z := 1) hx0 hx1
      (by norm_num)
    rw [Real.rpow_one] at this
    exact ⟨Real.rpow_nonneg (le_of_lt hx0) 1.5, this⟩

/-- A square root in the sense of `IsSqrt` is non-decreasing on non-negative values. -/
theorem sqrt_mono_of_isSqrt (sqrt : F → F) (hs : IsSqrt sqrt) (a b : F) (ha : 0 ≤ a)
    (hab : a ≤ b) : sqrt a ≤ sqrt b := by
  obtain ⟨ha0, hasq⟩ := hs a ha
  obtain ⟨hb0, hbsq⟩ := hs b (le_trans ha hab)
  by_contra hlt
  have hlt1 : sqrt b < sqrt a := not_le.mp hlt
  have : sqrt b * sqrt b < sqrt a * sqrt a := by nlinarith
  linarith

/-- The source's `CalcClamp` with a fixed lower bound is non-decreasing in the clamped value
and in the upper bound, as long as the bounds are ordered. -/
theorem CalcClamp_mono (x y l h k : F) (hxy : x ≤ y) (hhk : h ≤ k) (hlh : l ≤ h) :
    CalcClamp x l h ≤ CalcClamp y l k := by
  unfold CalcClamp
  split_ifs <;> linarith

/-- The loss that one iteration of `JackLoss` adds, at two skills `s1 ≤ s2` with scaled jack
difficulties `dB ≤ dA`: the accumulated loss at the higher skill stays at most that at the
lower skill when `dA` is not in the window between `s1` and `s1 / 0.96`. -/
theorem loss_term_mono (pow : F → F → F) (hp : IsPow pow) (s1 s2 dA dB oA oB : F)
    (h1 : 0 < s1) (h12 : s1 ≤ s2) (hd : dB ≤ dA) (ho : oB ≤ oA)
    (hwin : s1 < dA → s1 ≤ 0.96 * dA) :
    (if s2 < dB then oB + (1 - pow (s2 / (dB * 0.96)) 1.5) else oB) ≤
      (if s1 < dA then oA + (1 - pow (s1 / (dA * 0.96)) 1.5) else oA) := by
  have h2 : 0 < s2 := lt_of_lt_of_le h1 h12
  obtain ⟨_, _, hpmono⟩ := hp 1.5 (by norm_num)
  by_cases hb : s2 < dB
  · have ha : s1 < dA := by linarith
    have hBpos : 0 < dB * 0.96 := by
      have : 0 < dB := lt_trans h2 hb
      linarith
    have hApos : 0 < dA * 0.96 := by
      have : 0 < dA := lt_trans h1 ha
      linarith
    have hratio : s1 / (dA * 0.96) ≤ s2 / (dB * 0.96) := by
      rw [div_le_div_iff₀ hApos hBpos]
      have e1 : s1 * (dB * 0.96) ≤ s1 * (dA * 0.96) :=
        mul_le_mul_of_nonneg_left (by linarith) (le_of_lt h1)
      have e2 : s1 * (dA * 0.96) ≤ s2 * (dA * 0.96) :=
        mul_le_mul_of_nonneg_right h12 (le_of_lt hApos)
      linarith
    have := hpmono _ _ (le_of_lt (div_pos h1 hApos)) hratio
    rw [if_pos hb, if_pos ha]
    linarith
  · rw [if_neg hb]
    by_cases ha : s1 < dA
    · have hw := hwin ha
      have hApos : 0 < dA * 0.96 := by
        have : 0 < dA := lt_trans h1 ha
        linarith
      have hr1 : s1 / (dA * 0.96) ≤ 1 := by
        rw [div_le_one hApos]
        linarith
      have := (pow_le_one_of_le pow hp 1.5 (by norm_num) _).1
        (le_of_lt (div_pos h1 hApos)) hr1
      rw [if_pos ha]
      linarith
    · rw [if_neg ha]
      exact ho

/-- One iteration of the loop of `JackLoss` at two skills `s1 ≤ s2`: when `ceiling` and `mod`
at the higher skill are not above those at the lower skill before the iteration, they are not
above them after it, and neither is the scaled jack difficulty; when moreover the scaled jack
difficulty at the lower skill is not in the window between `s1` and `s1 / 0.96`, the
accumulated loss at the higher skill stays at most that at the lower skill. -/
theorem JackLossStep_mono (M : MathFns F) (hs : IsSqrt M.sqrt) (hp : IsPow M.pow)
    (s1 s2 : F) (h1 : 0 < s1) (h12 : s1 ≤ s2) (A B : JackState F) (jd : F) (hjd : 0 ≤ jd)
    (hB : 1 ≤ B.ceiling) (hc : B.ceiling ≤ A.ceiling) (hm : B.mod ≤ A.mod)
    (ho : B.output ≤ A.output)
    (hwin : s1 < jd * (JackLossStep M s1 A jd).mod →
      s1 ≤ 0.96 * (jd * (JackLossStep M s1 A jd).mod)) :
    1 ≤ (JackLossStep M s2 B jd).ceiling ∧
    (JackLossStep M s2 B jd).ceiling ≤ (JackLossStep M s1 A jd).ceiling ∧
    (JackLossStep M s2 B jd).mod ≤ (JackLossStep M s1 A jd).mod ∧
    (JackLossStep M s2 B jd).output ≤ (JackLossStep M s1 A jd).output := by
  have h2 : 0 < s2 := lt_of_lt_of_le h1 h12
  have hdiv : jd / (0.75 * s2) ≤ jd / (0.75 * s1) :=
    div_le_div_of_nonneg_left hjd (by positivity) (by linarith)
  have hmod1 : B.mod + ((jd / (0.75 * s2)) - 1) / 250 ≤
      A.mod + ((jd / (0.75 * s1)) - 1) / 250 := by
    have : ((jd / (0.75 * s2)) - 1) / 250 ≤ ((jd / (0.75 * s1)) - 1) / 250 :=
      div_le_div_of_nonneg_right (by linarith) (by norm_num)
    linarith
  obtain ⟨hB1, _, hBm, _⟩ := JackLossStep_invariant M hs s2 B jd hB
  obtain ⟨_, _, hAm, _⟩ := JackLossStep_invariant M hs s1 A jd (le_trans hB hc)
  have hceil : (JackLossStep M s2 B jd).ceiling ≤ (JackLossStep M s1 A jd).ceiling := by
    show (if B.mod + ((jd / (0.75 * s2)) - 1) / 250 > 1 then
        B.ceiling + (B.mod + ((jd / (0.75 * s2)) - 1) / 250 - 1) / 1750 else B.ceiling) ≤
      (if A.mod + ((jd / (0.75 * s1)) - 1) / 250 > 1 then
        A.ceiling + (A.mod + ((jd / (0.75 * s1)) - 1) / 250 - 1) / 1750 else A.ceiling)
    have hstep : (B.mod + ((jd / (0.75 * s2)) - 1) / 250 - 1) / 1750 ≤
        (A.mod + ((jd / (0.75 * s1)) - 1) / 250 - 1) / 1750 :=
      div_le_div_of_nonneg_right (by linarith) (by norm_num)
    split_ifs with hb ha ha
    · linarith
    · exact absurd (lt_of_lt_of_le hb hmod1) ha
    · have : 0 ≤ (A.mod + ((jd / (0.75 * s1)) - 1) / 250 - 1) / 1750 :=
        div_nonneg (by linarith) (by norm_num)
      linarith
    · exact hc
  have hsq := sqrt_mono_of_isSqrt M.sqrt hs _ _ (by linarith) hceil
  have hsq1 := one_le_sqrt_of_one_le M.sqrt hs _ hB1
  have hupper : 1.15 * M.sqrt (JackLossStep M s2 B jd).ceiling ≤
      1.15 * M.sqrt (JackLossStep M s1 A jd).ceiling := by linarith
  have hlower : 1 ≤ 1.15 * M.sqrt (JackLossStep M s2 B jd).ceiling := by linarith
  have hmod : (JackLossStep M s2 B jd).mod ≤ (JackLossStep M s1 A jd).mod :=
    CalcClamp_mono _ _ 1 _ _ hmod1 hupper hlower
  refine ⟨hB1, hceil, hmod, ?_⟩
  have hscaled : jd * (JackLossStep M s2 B jd).mod ≤ jd * (JackLossStep M s1 A jd).mod :=
    mul_le_mul_of_nonneg_left hmod hjd
  exact loss_term_mono M.pow hp s1 s2 _ _ A.output B.output h1 h12 hscaled ho hwin

/-- The loop of `JackLoss` at two skills `s1 ≤ s2`: the accumulated loss at the higher skill
is at most that at the lower skill when no scaled jack difficulty at the lower skill lies in
the window between `s1` and `s1 / 0.96`. -/
theorem JackLoss_fold_mono (M : MathFns F) (hs : IsSqrt M.sqrt) (hp : IsPow M.pow)
    (s1 s2 : F) (h1 : 0 < s1) (h12 : s1 ≤ s2) :
    ∀ (j : List F) (A B : JackState F), (∀ jd ∈ j, 0 ≤ jd) → 1 ≤ B.ceiling →
      B.ceiling ≤ A.ceiling → B.mod ≤ A.mod → B.output ≤ A.output →
      (∀ d ∈ jackScaled M s1 A j, s1 < d → s1 ≤ 0.96 * d) →
      (j.foldl (JackLossStep M s2) B).output ≤ (j.foldl (JackLossStep M s1) A).output
  | [], _, _, _, _, _, _, ho, _ => ho
  | jd :: rest, A, B, hj, hB, hc, hm, ho, hwin => by
    obtain ⟨k1, k2, k3, k4⟩ := JackLossStep_mono M hs hp s1 s2 h1 h12 A B jd
      (hj jd (List.mem_cons_self jd rest)) hB hc hm ho
      (hwin _ (by
        rw [jackScaled]
        exact List.mem_cons_self _ _))
    rw [List.foldl_cons, List.foldl_cons]
    exact JackLoss_fold_mono M hs hp s1 s2 h1 h12 rest _ _
      (fun x hx => hj x (List.mem_cons_of_mem jd hx)) k1 k2 k3 k4
      (fun d hd => hwin d (by
        rw [jackScaled]
        exact List.mem_cons_of_mem _ hd))

/-- C25, amended: for every jack sequence of positive difficulties and all skills
`0 < s1 ≤ s2` such that at skill `s1` no scaled jack difficulty `jd × mod` of the loop lies
in the window `s1 < jd × mod < s1 / 0.96`, where the loss term of the source is negative,
`JackLoss(seq, s2) ≤ JackLoss(seq, s1)`; and when this holds for the four columns of a
`Calc` with positive `MaxPoints`, the achieved-score fraction of the jack solve at `s2` is
at least that at `s1`, so that a score below the goal at `s2` is below the goal at `s1`. -/
theorem JackLoss_monotone_outside_window (M : MathFns F) (hs : IsSqrt M.sqrt)
    (hp : IsPow M.pow) (s1 s2 : F) (h1 : 0 < s1) (h12 : s1 ≤ s2) :
    (∀ j : List F, (∀ jd ∈ j, 0 < jd) →
      (∀ d ∈ jackScaled M s1 ⟨0, 1, 1⟩ j, s1 < d → s1 ≤ 0.96 * d) →
      JackLoss M j s2 ≤ JackLoss M j s1) ∧
    (∀ (c : Calc F) (flags : ChiselFlags) (score_goal : F), flags.jack = true →
      0 < c.MaxPoints →
      (∀ j ∈ [c.j0, c.j1, c.j2, c.j3], (∀ jd ∈ j, 0 < jd) ∧
        ∀ d ∈ jackScaled M s1 ⟨0, 1, 1⟩ j, s1 < d → s1 ≤ 0.96 * d) →
      CalcScoreForPlayerSkill M c s1 flags ≤ CalcScoreForPlayerSkill M c s2 flags ∧
      (CalcScoreForPlayerSkill M c s2 flags < score_goal →
        CalcScoreForPlayerSkill M c s1 flags < score_goal)) := by
  have key : ∀ j : List F, (∀ jd ∈ j, 0 < jd) →
      (∀ d ∈ jackScaled M s1 ⟨0, 1, 1⟩ j, s1 < d → s1 ≤ 0.96 * d) →
      JackLoss M j s2 ≤ JackLoss M j s1 := by
    intro j hj hwin
    have ho := JackLoss_fold_mono M hs hp s1 s2 h1 h12 j ⟨0, 1, 1⟩ ⟨0, 1, 1⟩
      (fun jd hjd => le_of_lt (hj jd hjd)) (le_refl 1) (le_refl 1) (le_refl 1) (le_refl 0) hwin
    unfold JackLoss
    exact CalcClamp_mono _ _ 0 10000 10000 (by linarith) (le_refl _) (by norm_num)
  refine ⟨key, ?_⟩
  intro c flags score_goal hjack hmax hcols
  have k0 := key c.j0 (hcols c.j0 (by simp)).1 (hcols c.j0 (by simp)).2
  have k1 := key c.j1 (hcols c.j1 (by simp)).1 (hcols c.j1 (by simp)).2
  have k2 := key c.j2 (hcols c.j2 (by simp)).1 (hcols c.j2 (by simp)).2
  have k3 := key c.j3 (hcols c.j3 (by simp)).1 (hcols c.j3 (by simp)).2
  have hscore : CalcScoreForPlayerSkill M c s1 flags ≤ CalcScoreForPlayerSkill M c s2 flags := by
    unfold CalcScoreForPlayerSkill
    simp only [hjack, if_true]
    exact div_le_div_of_nonneg_right (by linarith) (le_of_lt hmax)
  exact ⟨hscore, fun h => lt_of_le_of_lt hscore h⟩

/-- C25, amended, at a concrete input: the jack difficulty 28 over the reals and the skills 1
and 9/8; at skill 1 the scaled jack difficulty is at least 28, far above the window. -/
theorem JackLoss_monotone_outside_window_witness :
    (IsSqrt Real.sqrt ∧ IsPow (fun x y : ℝ => x ^ y) ∧ (0 : ℝ) < 1 ∧ (1 : ℝ) ≤ 9 / 8 ∧
      (∀ jd ∈ ([28] : List ℝ), 0 < jd) ∧
      ∀ d ∈ jackScaled ⟨Real.sqrt, fun x y => x ^ y, fun _ => 1⟩ (1 : ℝ) ⟨0, 1, 1⟩ [28],
        1 < d → 1 ≤ 0.96 * d) ∧
    JackLoss ⟨Real.sqrt, fun x y => x ^ y, fun _ => 1⟩ [28] (9 / 8 : ℝ) ≤
      JackLoss ⟨Real.sqrt, fun x y => x ^ y, fun _ => 1⟩ [28] (1 : ℝ) :=
  have hj : ∀ jd ∈ ([28] : List ℝ), 0 < jd := by
    intro jd hjd
    rw [List.mem_singleton.mp hjd]
    norm_num
  have hwin : ∀ d ∈ jackScaled ⟨Real.sqrt, fun x y => x ^ y, fun _ => 1⟩ (1 : ℝ)
      ⟨0, 1, 1⟩ [28], 1 < d → 1 ≤ 0.96 * d := by
    intro d hd _
    simp only [jackScaled, List.mem_singleton] at hd
    have hmod := (JackLossStep_invariant (F := ℝ) ⟨Real.sqrt, fun x y => x ^ y, fun _ => 1⟩
      IsSqrt_real 1 ⟨0, 1, 1⟩ 28 (le_refl 1)).2.2.1
    rw [hd]
    nlinarith
  ⟨⟨IsSqrt_real, IsPow_real, by norm_num, by norm_num, hj, hwin⟩,
    (JackLoss_monotone_outside_window (F := ℝ) ⟨Real.sqrt, fun x y => x ^ y, fun _ => 1⟩
      IsSqrt_real IsPow_real 1 (9 / 8) (by norm_num) (by norm_num)).1 [28] hj hwin⟩

end Minacalc
